import Mathlib

/-!
# NetGraph: network construction, simplification and critical path

Shallow embedding of `src/NetGraph.cpp` (class template `Graph<indx_t>` with the
only instantiation the repository defines, `indx_t = char`).

* Identifiers (`indx_t`) are the integer values of the C++ `char`s, kept in `Int`.
  `DefaultIndex` is the character `'0'` (48) and `NextIndex` is `i + 1` converted
  back to an 8-bit signed `char`.
* `std::set<indx_t> required` is a list used only through membership.
* `std::map<link_t, indx_t> edges` is an association list kept in ascending
  lexicographic key order, which is the iteration order of the C++ map.
* `float` is IEEE 754 binary32 with the default rounding (to nearest, ties to even).
  A finite value is kept by the integer `k` with the value `k * 2^-149` (every finite
  binary32 value is a whole multiple of the smallest one, `2^-149`); the infinities
  and NaN are separate values, and the two zeros, which compare equal and add alike,
  are one value. Addition rounds the exact sum to 24 significant bits, and every
  `float` expression is evaluated in the precision of the type.
* Loops that may not terminate (`do ... while` of `optimize`, the recursion of
  `critical_path`) take a fuel argument and return `none` when it runs out; `none`
  is also the result where the C++ behaviour is undefined (dereferencing `end()`).
-/

namespace NetGraph

/-- The identifier type `indx_t` (a `char`, by its integer value). -/
abbrev indx_t := Int

/-- Specialisation `DefaultIndex<char>()`, the character `'0'`. -/
def DefaultIndex : indx_t := 48

/-- Specialisation `NextIndex<char>(i)`: `i + 1` narrowed to a signed 8-bit `char`. -/
def NextIndex (i : indx_t) : indx_t := (i + 1 + 128) % 256 - 128

/-- A value of the C++ type `float` (IEEE 754 binary32): `finite k` is the finite value
`k * 2^-149`, where `2^-149` is the smallest positive value of the type; `pinf`, `ninf`
and `nan` are the two infinities and NaN. The zeros `+0` and `-0` are both `finite 0`.
The finite values of the type are those whose `k` has at most 24 significant bits and a
magnitude of at most `float.max_finite`; `float.round` gives such values only. -/
inductive float where
  | finite (k : Int)
  | pinf
  | ninf
  | nan
deriving DecidableEq

/-- The largest finite `float`, `(2^24 - 1) * 2^104`, in units of `2^-149`. -/
def float.max_finite : Nat := (2 ^ 24 - 1) * 2 ^ 253

/-- The number of low bits of `a` that do not fit in a significand of 24 bits: how many
times `a` is halved before it is below `2^24` (`fuel` bounds the count; `a` is enough). -/
def float.excess_bits : Nat → Nat → Nat
  | 0, _ => 0
  | fuel + 1, a => if a < 2 ^ 24 then 0 else float.excess_bits fuel (a / 2) + 1

/-- The magnitude `a` rounded to 24 significant bits, to the nearest such value and to
the one with an even significand when `a` is half way between two. -/
def float.round_nat (a : Nat) : Nat :=
  if a < 2 ^ 24 then a
  else
    let sh := float.excess_bits a a
    let q := a / 2 ^ sh
    let r := a % 2 ^ sh
    let half := 2 ^ (sh - 1)
    if half < r ∨ (r = half ∧ q % 2 = 1) then (q + 1) * 2 ^ sh else q * 2 ^ sh

/-- The `float` nearest to the exact value `k * 2^-149`: the magnitude is rounded to 24
significant bits, and a rounded magnitude above the largest finite value is an infinity. -/
def float.round (k : Int) : float :=
  if float.max_finite < float.round_nat k.natAbs then
    (if k < 0 then float.ninf else float.pinf)
  else
    float.finite
      (if k < 0 then - (float.round_nat k.natAbs : Int) else float.round_nat k.natAbs)

/-- The `float` a whole number converts to (`float max_sum = 0`, `0.f`, the durations
`4, 7, ...` of `main`). -/
def float.of_int (n : Int) : float := float.round (n * (2 ^ 149 : Nat))

/-- The operator `+` on `float`: the exact sum of two finite values, rounded; NaN when an
operand is NaN or the operands are opposite infinities; otherwise the infinite operand. -/
def float.add : float → float → float
  | .finite a, .finite b => float.round (a + b)
  | .nan, _ => .nan
  | _, .nan => .nan
  | .pinf, .ninf => .nan
  | .ninf, .pinf => .nan
  | .pinf, _ => .pinf
  | _, .pinf => .pinf
  | .ninf, _ => .ninf
  | _, .ninf => .ninf

/-- The operator `<=` on `float`; a comparison with NaN is false. -/
def float.le : float → float → Bool
  | .finite a, .finite b => decide (a ≤ b)
  | .nan, _ => false
  | _, .nan => false
  | .ninf, _ => true
  | _, .pinf => true
  | .pinf, _ => false
  | _, .ninf => false

/-- The exact value of a finite `float` in units of `2^-149` (`0` for an infinity or NaN). -/
def float.units : float → Int
  | .finite k => k
  | _ => 0

/-- The operator `>` on `float`; a comparison with NaN is false. -/
def float.gt : float → float → Bool
  | .finite a, .finite b => decide (b < a)
  | .nan, _ => false
  | _, .nan => false
  | .pinf, .pinf => false
  | .pinf, _ => true
  | _, .pinf => false
  | .ninf, _ => false
  | _, .ninf => true

/-- The record `work_t`. -/
structure work_t where
  id : indx_t
  required : List indx_t
  t_min : float
  t_max : float
deriving DecidableEq

/-- The key type `link_t = pair<indx_t, indx_t>`. -/
abbrev link_t := indx_t × indx_t

/-- The entry type `edge_t = pair<link_t, indx_t>`. -/
abbrev edge_t := link_t × indx_t

/-- The class `Graph`: the event list `nodes` and the arc map `edges`. -/
structure Graph where
  nodes : List indx_t
  edges : List edge_t
deriving DecidableEq

/-- Key comparison of `std::map<link_t, _>`: `operator<` of `std::pair`. -/
def link_lt (a b : link_t) : Bool :=
  decide (a.1 < b.1) || (decide (a.1 = b.1) && decide (a.2 < b.2))

/-- Lookup `edges.find(link)`: the value stored under the key, if any. -/
def map_find : List edge_t → link_t → Option indx_t
  | [], _ => none
  | (k, v) :: rest, link => if k = link then some v else map_find rest link

/-- Assignment `edges[link] = v`: overwrite the key if present, else insert in key order. -/
def map_assign : List edge_t → link_t → indx_t → List edge_t
  | [], link, v => [(link, v)]
  | (k, w) :: rest, link, v =>
    if k = link then (link, v) :: rest
    else if link_lt link k then (link, v) :: (k, w) :: rest
    else (k, w) :: map_assign rest link v

/-- Removal `edges.erase(link)`. -/
def map_erase (m : List edge_t) (link : link_t) : List edge_t :=
  m.filter (fun e => !decide (e.1 = link))

/-- Iterator increment on the map: the first key after `link` in key order. -/
def map_next (m : List edge_t) (link : link_t) : Option link_t :=
  (m.find? (fun e => link_lt link e.1)).map Prod.fst

/-- Method `Graph::is_parent_node`. -/
def is_parent_node (g : Graph) (node : indx_t) : Bool :=
  g.edges.any (fun edge => decide (edge.1.1 = node))

/-- Method `Graph::is_child_node`. -/
def is_child_node (g : Graph) (node : indx_t) : Bool :=
  g.edges.any (fun edge => decide (edge.1.2 = node))

/-- Method `Graph::edge_exists`. -/
def edge_exists (g : Graph) (link : link_t) : Bool :=
  (map_find g.edges link).isSome

/-- Method `Graph::edge_empty`. -/
def edge_empty (g : Graph) (link : link_t) : Bool :=
  edge_exists g link && decide (map_find g.edges link = some DefaultIndex)

/-- Method `Graph::shared_parent`: the source of the first arc into `node1`, in map
order, that is not empty and whose source also has an arc into `node2`. -/
def shared_parent (g : Graph) (node1 node2 : indx_t) : indx_t :=
  match g.edges.find? (fun edge1 =>
      decide (edge1.1.2 = node1) && !edge_empty g edge1.1 &&
        g.edges.any (fun edge2 => decide (edge2.1.2 = node2) && decide (edge1.1.1 = edge2.1.1))) with
  | some edge1 => edge1.1.1
  | none => DefaultIndex

/-- The `while (begin != end)` loop of `optimize` that retargets the arcs of the
removed event `b` to `c`. `cur` is the key `begin` points to (`none` is `end`). -/
def retarget (b c : indx_t) : Nat → Option link_t → Graph → Option Graph
  | 0, _, _ => none
  | _ + 1, none, g => some g
  | fuel + 1, some link, g =>
    let nxt := map_next g.edges link
    match map_find g.edges link with
    | none => none
    | some work_id =>
      let new_link : Option link_t :=
        if link.1 = b then some (c, link.2)
        else if link.2 = b then some (link.1, c)
        else if link.2 = link.1 then some link
        else none
      match new_link with
      | none => retarget b c fuel nxt g
      | some new_link =>
        let g1 : Graph :=
          if !edge_exists g new_link || edge_empty g new_link
          then { g with edges := map_assign g.edges new_link work_id } else g
        retarget b c fuel nxt { g1 with edges := map_erase g1.edges link }

/-- The `for` loop of `optimize` over the interior events. `p` is the position of
`it` in `nodes`; `n` counts the iterations left, `nodes.size() - 1 - p`: every
iteration either advances `it` or erases one event. -/
def scan (fuel : Nat) : Nat → Nat → Graph → Option Graph
  | 0, _, g => some g
  | n + 1, p, g =>
    match g.nodes[p - 1]?, g.nodes[p]?, g.nodes[p + 1]? with
    | some a, some b, some c =>
      let a0 := shared_parent g b c
      let bc_empty := edge_empty g (b, c)
      let ab_empty := edge_empty g (a, b)
      let ac_exists := edge_exists g (a, c)
      let b_and_c_have_shared_parent := decide (a0 ≠ DefaultIndex)
      let c_last_node := decide (p + 1 = g.nodes.length - 1)
      if (!b_and_c_have_shared_parent || c_last_node) &&
          ((bc_empty && !ac_exists) || (ab_empty && bc_empty && ac_exists)) then
        let g1 : Graph := { g with nodes := g.nodes.eraseIdx p }
        match retarget b c fuel ((g1.edges.head?).map Prod.fst) g1 with
        | none => none
        | some g2 => scan fuel n p g2
      else if bc_empty && b_and_c_have_shared_parent then
        if edge_exists g (b, c) then
          let v := (map_find g.edges (a0, c)).getD 0
          scan fuel n (p + 1) { g with edges := map_erase (map_assign g.edges (b, c) v) (a0, c) }
        else scan fuel n (p + 1) g
      else scan fuel n (p + 1) g
    | _, _, _ => none

/-- One pass of the body of the `do ... while` loop of `optimize`. With fewer than
two events the C++ loop dereferences `end()`; the result is `none`. -/
def scan_pass (fuel : Nat) (g : Graph) : Option Graph :=
  if g.nodes.length < 2 then none else scan fuel (g.nodes.length - 2) 1 g

/-- The `do ... while (nodes_count == nodes.size())` loop of `optimize`. -/
def optimize_loop (rfuel : Nat) : Nat → Graph → Option Graph
  | 0, _ => none
  | fuel + 1, g =>
    match scan_pass rfuel g with
    | none => none
    | some g1 =>
      if g.nodes.length = g1.nodes.length then optimize_loop rfuel fuel g1 else some g1

/-- The two cleanup loops that end `optimize`: events without arcs are removed,
then the arcs from an event to itself. -/
def cleanup (g : Graph) : Graph :=
  let nodes1 := g.nodes.filter (fun node => !(!is_child_node g node && !is_parent_node g node))
  { nodes := nodes1, edges := g.edges.filter (fun edge => !decide (edge.1.1 = edge.1.2)) }

/-- Method `Graph::optimize`. -/
def optimize (fuel : Nat) (g : Graph) : Option Graph :=
  (optimize_loop fuel fuel g).map cleanup

/-- The backward scan of `assign_nodes_by_works` over the tasks before the current
one, nearest first: the position `distance(rbegin, rend)` of the first task whose
id is in `required`, and `0` when there is none. -/
def find_i (required : List indx_t) : List work_t → Nat
  | [] => 0
  | w :: rest => if w.id ∈ required then rest.length + 1 else find_i required rest

/-- The first loop of `assign_nodes_by_works`: one new event and one empty chain arc
per task. -/
def chain : Nat → indx_t → Graph → Graph
  | 0, _, g => g
  | n + 1, first_node, g =>
    let second_node := NextIndex first_node
    chain n second_node
      { nodes := g.nodes ++ [second_node],
        edges := map_assign g.edges (first_node, second_node) DefaultIndex }

/-- The second loop of `assign_nodes_by_works`: `before` holds the tasks already
visited, nearest first, and `rest` the tasks still to visit. -/
def overlay : List work_t → List work_t → Graph → Graph
  | _, [], g => g
  | before, work :: rest, g =>
    let j := before.length + 1
    let i := find_i work.required before
    let first_node := g.nodes.getD i DefaultIndex
    let second_node := g.nodes.getD j DefaultIndex
    overlay (work :: before) rest
      { g with edges := map_assign g.edges (first_node, second_node) work.id }

/-- Method `Graph::assign_nodes_by_works`. -/
def assign_nodes_by_works (g : Graph) (works : List work_t) (first_node : indx_t) : Graph :=
  overlay [] works (chain works.length first_node { g with nodes := g.nodes ++ [first_node] })

/-- The lambda `t_max_of` of `critical_path`. -/
def t_max_of : List work_t → indx_t → float
  | [], _ => float.of_int 0
  | w :: rest, work_id => if w.id = work_id then w.t_max else t_max_of rest work_id

/-- The variables `max_sum` and `full_path` the lambda `f` captures by reference. -/
structure cp_state where
  max_sum : float
  full_path : List indx_t
deriving DecidableEq

/-- The loop `for (const edge_t& edge : edges)` in the lambda `f` of `critical_path`,
over the arcs still to visit. `call` is the recursive call of `f`; `path` is the local
list the loop appends to and `st` the captured variables. -/
def f_loop (call : List indx_t → float → cp_state → Option cp_state) (works : List work_t)
    (last_node : indx_t) (sum : float) :
    List edge_t → List indx_t → cp_state → Option cp_state
  | [], _, st => some st
  | edge :: rest, path, st =>
    if edge.1.1 = last_node then
      match call (path ++ [edge.1.2]) (float.add sum (t_max_of works edge.2)) st with
      | none => none
      | some st1 => f_loop call works last_node sum rest (path ++ [edge.1.2]) st1
    else f_loop call works last_node sum rest path st

/-- The recursive lambda `f` of `critical_path`. `path` is never empty. -/
def f (g : Graph) (works : List work_t) :
    Nat → List indx_t → float → cp_state → Option cp_state
  | 0, _, _, _ => none
  | fuel + 1, path, sum, st =>
    match path.getLast?, g.nodes.getLast? with
    | some last_node, some back =>
      if last_node = back then
        if float.gt sum st.max_sum = true then some { max_sum := sum, full_path := path }
        else some st
      else f_loop (f g works fuel) works last_node sum g.edges path st
    | _, _ => none

/-- Method `Graph::critical_path`, with the final values of `max_sum` and `full_path`
(the sequence copied to `dest`). -/
def critical_path (fuel : Nat) (g : Graph) (works : List work_t) : Option cp_state :=
  match g.nodes.head? with
  | none => none
  | some front =>
    f g works fuel [front] (float.of_int 0) { max_sum := float.of_int 0, full_path := [] }

/-- The task list of `main`. -/
def main_works : List work_t :=
  [ ⟨49, [], float.of_int 4, float.of_int 7⟩,
    ⟨50, [], float.of_int 8, float.of_int 11⟩,
    ⟨51, [], float.of_int 3, float.of_int 5⟩,
    ⟨52, [49], float.of_int 7, float.of_int 10⟩,
    ⟨53, [49, 50, 51], float.of_int 1, float.of_int 4⟩,
    ⟨54, [51], float.of_int 9, float.of_int 13⟩,
    ⟨55, [51, 52, 53], float.of_int 8, float.of_int 12⟩,
    ⟨56, [52], float.of_int 5, float.of_int 8⟩ ]

/-- The graph `main` builds: `assign_nodes_by_works` on an empty graph, start `'A'`. -/
def main_graph : Graph := assign_nodes_by_works ⟨[], []⟩ main_works 65


/-- The network `optimize` leaves of `main_graph`. -/
def main_optimized : Graph :=
  ⟨[65, 66, 68, 69, 71, 73],
    [((65, 66), 49), ((65, 68), 51), ((66, 68), 50), ((68, 69), 52), ((68, 71), 54),
      ((69, 71), 53), ((69, 73), 56), ((71, 73), 55)]⟩

/-- The expected event sequence of the canonical example, `e0, e1, e4, e5, e7, e8`. -/
def main_expected_path : List indx_t := [65, 66, 69, 70, 72, 73]

/-- A list of one task, used to build the smallest network. -/
def single_work : List work_t := [⟨49, [], float.of_int 4, float.of_int 7⟩]

/-- A list of one task of duration zero. -/
def zero_work : List work_t := [⟨49, [], float.of_int 0, float.of_int 0⟩]

/-- Four tasks without prerequisites. -/
def free_works : List work_t :=
  [ ⟨49, [], float.of_int 1, float.of_int 1⟩, ⟨50, [], float.of_int 1, float.of_int 1⟩,
    ⟨51, [], float.of_int 1, float.of_int 1⟩, ⟨52, [], float.of_int 1, float.of_int 1⟩ ]

/-- Two tasks without prerequisites. -/
def two_free_works : List work_t :=
  [⟨49, [], float.of_int 1, float.of_int 1⟩, ⟨50, [], float.of_int 1, float.of_int 1⟩]

/-- Two tasks in sequence, with the maximum durations `2^24` and `1`. -/
def large_works : List work_t :=
  [ ⟨49, [], float.of_int 1, float.of_int 16777216⟩,
    ⟨50, [49], float.of_int 1, float.of_int 1⟩ ]

/-- A list of one task whose id is the sentinel `'0'`. -/
def sentinel_work : List work_t := [⟨DefaultIndex, [], float.of_int 1, float.of_int 5⟩]

/-- One iteration of the retargeting loop of `optimize`, at the arc `link` with the label
`work_id`: the new key is computed, written if it is free or empty, and `link` is erased;
an arc that neither touches `b` nor is a self-loop is passed over. -/
def retarget_step (b c : indx_t) (link : link_t) (work_id : indx_t) (g : Graph) : Graph :=
  let new_link : Option link_t :=
    if link.1 = b then some (c, link.2)
    else if link.2 = b then some (link.1, c)
    else if link.2 = link.1 then some link
    else none
  match new_link with
  | none => g
  | some new_link =>
    let g1 : Graph :=
      if !edge_exists g new_link || edge_empty g new_link
      then { g with edges := map_assign g.edges new_link work_id } else g
    { g1 with edges := map_erase g1.edges link }

/-- The new key the retargeting loop computes for the arc `link`; `none` when the arc
neither touches `b` nor is a self-loop and is passed over. -/
def retarget_target (b c : indx_t) (link : link_t) : Option link_t :=
  if link.1 = b then some (c, link.2)
  else if link.2 = b then some (link.1, c)
  else if link.2 = link.1 then some link
  else none

/-- The key `k` lies before the position `cur` of the map iterator (`none` is `end`). -/
def passed (cur : Option link_t) (k : link_t) : Prop :=
  match cur with
  | none => True
  | some l => link_lt k l = true

/-- The label found at a key after an arc with the label `l` was retargeted to it: the
label that was there if there was one and it was not empty, and `l` otherwise. -/
def merged_label (old : Option indx_t) (l : indx_t) : indx_t :=
  match old with
  | some v => if v = DefaultIndex then l else v
  | none => l

/-- The number of keys of the list `U` at or after the position `cur` of the map iterator:
the measure that bounds the iterations of the retargeting loop. -/
def cursor_measure (U : List link_t) (cur : Option link_t) : Nat :=
  match cur with
  | none => 0
  | some l => (U.filter fun u => !link_lt u l).length

/-- The events the keys of the retargeting loop are made of: `c` and the endpoints of the
arcs of the map. -/
def retarget_events (c : indx_t) (m : List edge_t) : List indx_t :=
  c :: (m.map (fun e => e.1.1) ++ m.map (fun e => e.1.2))

/-- The condition of the elimination rule of `optimize` at the triple `(a, b, c)` whose
middle event is at the position `p` of the event list. -/
def elimination_fires (g : Graph) (p : Nat) (a b c : indx_t) : Bool :=
  (!decide (shared_parent g b c ≠ DefaultIndex) || decide (p + 1 = g.nodes.length - 1)) &&
    ((edge_empty g (b, c) && !edge_exists g (a, c)) ||
      (edge_empty g (a, b) && edge_empty g (b, c) && edge_exists g (a, c)))

/-- The canonical network after four iterations of the first pass of `optimize`, when the
iterator reaches the event `'F'`. -/
def main_before_F : Graph :=
  ⟨[65, 66, 68, 69, 70, 71, 72, 73],
    [((65, 66), 49), ((65, 68), 51), ((66, 68), 50), ((68, 68), 48), ((68, 69), 52),
      ((68, 71), 54), ((69, 70), 53), ((69, 73), 56), ((70, 71), 48), ((70, 72), 55),
      ((71, 72), 48), ((72, 73), 48)]⟩

/-- The canonical network after the elimination of the event `'F'`. -/
def main_after_F : Graph :=
  ⟨[65, 66, 68, 69, 71, 72, 73],
    [((65, 66), 49), ((65, 68), 51), ((66, 68), 50), ((68, 69), 52), ((68, 71), 54),
      ((69, 71), 53), ((69, 73), 56), ((71, 72), 55), ((72, 73), 48)]⟩

/-! ## Paths of a network -/

/-- The duration of an arc as the specification words it: the `t_max` of the first task
of the list whose id is the label of the arc, and `0` when no task has that id. -/
def arc_duration (works : List work_t) (label : indx_t) : float :=
  match works.find? (fun w => decide (w.id = label)) with
  | some w => w.t_max
  | none => float.of_int 0

/-- A directed path of the network, as the list of its arcs: `is_walk g u es v` says
that the arcs `es` are entries of the arc map and lead, end to end, from `u` to `v`. -/
def is_walk (g : Graph) : indx_t → List edge_t → indx_t → Prop
  | u, [], v => u = v
  | u, e :: es, v => e ∈ g.edges ∧ e.1.1 = u ∧ is_walk g e.1.2 es v

/-- The `float` sum along a path that starts with the running sum `s`: the durations of
the arcs are added to it one by one in path order, each addition in `float` arithmetic. -/
def walk_sum (works : List work_t) (s : float) (es : List edge_t) : float :=
  es.foldl (fun acc e => float.add acc (arc_duration works e.2)) s

/-- The `float` total of a path: the sum along the path that starts with `0`. -/
def walk_total (works : List work_t) (es : List edge_t) : float :=
  walk_sum works (float.of_int 0) es

/-- The exact sum of the durations of the arcs of a path, in units of `2^-149`. -/
def exact_total (works : List work_t) (es : List edge_t) : Int :=
  (es.map fun e => float.units (arc_duration works e.2)).sum

/-- A network is acyclic when no path with at least one arc returns to its start. -/
def acyclic (g : Graph) : Prop :=
  ∀ u es, es ≠ [] → ¬ is_walk g u es u

/-- The value `m` is the maximum of the `float` totals of the paths from `first` to
`last`, and `0` when there is no such path. -/
def is_max_total (g : Graph) (works : List work_t) (first last : indx_t) (m : float) : Prop :=
  (∀ es, is_walk g first es last → float.le (walk_total works es) m = true) ∧
  ((∃ es, is_walk g first es last ∧ walk_total works es = m) ∨
    ((¬ ∃ es, is_walk g first es last) ∧ m = float.of_int 0))

/-! ## Positions in the task list -/

/-- The task at the 1-indexed position `p` of the list, if there is one. -/
def task_at (works : List work_t) (p : Nat) : Option work_t :=
  if p = 0 then none else works[p - 1]?

/-- The position `i` is the largest 1-indexed position `p < j` whose task has its id in
`required`, and `0` when no position before `j` has one. -/
def nearest_required (works : List work_t) (required : List indx_t) (j i : Nat) : Prop :=
  i < j ∧ (i = 0 ∨ ∃ v, task_at works i = some v ∧ v.id ∈ required) ∧
    ∀ p v, i < p → p < j → task_at works p = some v → v.id ∉ required

/-- The keys of the arc map are in strictly ascending order, as in a `std::map`. -/
def keys_sorted (m : List edge_t) : Prop :=
  m.Pairwise fun a b => link_lt a.1 b.1 = true

/-- The number of tasks of `rest` whose arc does not start at the event just before its
finishing event (`i ≠ j - 1`), `before` being the tasks already visited, nearest first. -/
def non_chain_tasks : List work_t → List work_t → Nat
  | _, [] => 0
  | before, work :: rest =>
    (if find_i work.required before = before.length then 0 else 1) +
      non_chain_tasks (work :: before) rest

/-- The event ids are strictly ascending, the keys of the arc map are ascending and every
arc joins two events of the event list. -/
def arcs_within_events (g : Graph) : Prop :=
  g.nodes.Pairwise (fun x y => x < y) ∧ keys_sorted g.edges ∧
    ∀ k : link_t, (map_find g.edges k).isSome = true → k.1 ∈ g.nodes ∧ k.2 ∈ g.nodes

/-- The shape the passes of `optimize` keep on a network built with ascending event ids:
every arc joins two events of the list and goes to a greater or equal one, every self-loop
is empty, every event after `first` has an arc from a smaller event, and `first` and `last`
are the ends of the event list, which has at least two events. -/
def network_shape (first last : indx_t) (g : Graph) : Prop :=
  arcs_within_events g ∧
    (∀ k : link_t, (map_find g.edges k).isSome = true → k.1 ≤ k.2) ∧
    (∀ x v, map_find g.edges (x, x) = some v → v = DefaultIndex) ∧
    (∀ v ∈ g.nodes, first < v → ∃ x, x < v ∧ (map_find g.edges (x, v)).isSome = true) ∧
    g.nodes.head? = some first ∧ g.nodes.getLast? = some last ∧ 2 ≤ g.nodes.length

/-! ## The canonical example, evaluated -/

set_option maxRecDepth 100000 in
/-- C1: on the canonical list with start `'A'`, `critical_path` finds the total 29 on the
network as built; `optimize` leaves the events `A, B, D, E, G, I` with task 2 moved onto
the arc `('B','D')`, and on that network `critical_path` finds the total 44: the total is
not kept by the simplification. -/
theorem C1_total_changes_on_main :
    (critical_path 10 main_graph main_works).map cp_state.max_sum = some (float.of_int 29) ∧
    optimize 20 main_graph = some main_optimized ∧
    (critical_path 10 main_optimized main_works).map cp_state.max_sum =
      some (float.of_int 44) := by
  decide

set_option maxRecDepth 100000 in
/-- C3: on the canonical network `critical_path` records the total 29 but returns the
sequence `e0, e1, e2, e4, e5, e6, e7, e8`, which is not `e0, e1, e4, e5, e7, e8`. -/
theorem C3_main_path_has_extra_events :
    critical_path 10 main_graph main_works =
      some { max_sum := float.of_int 29, full_path := [65, 66, 67, 69, 70, 71, 72, 73] } ∧
    [65, 66, 67, 69, 70, 71, 72, 73] ≠ main_expected_path := by
  decide

set_option maxRecDepth 100000 in
/-- C5: the sequence returned on the canonical network has the consecutive events
`e2, e4` (`'C'`, `'E'`), and the network has no arc from `e2` to `e4`. -/
theorem C5_main_path_not_a_path :
    (critical_path 10 main_graph main_works).map cp_state.full_path =
      some ([65, 66] ++ [67, 69] ++ [70, 71, 72, 73]) ∧
    edge_exists main_graph (67, 69) = false := by
  decide

/-- C6: on the two-event network of a single task of duration zero the returned
sequence is empty, although the last event is reached from the first. -/
theorem C6_empty_result_on_zero_total :
    assign_nodes_by_works ⟨[], []⟩ zero_work 65 = ⟨[65, 66], [((65, 66), 49)]⟩ ∧
    critical_path 5 (assign_nodes_by_works ⟨[], []⟩ zero_work 65) zero_work =
      some { max_sum := float.of_int 0, full_path := [] } := by
  decide

/-- A pass that gives back the network it was given is repeated for ever: the loop
condition compares the event counts before and after the pass, which are equal. -/
theorem optimize_loop_stuck (rfuel : Nat) (g : Graph) (h : scan_pass rfuel g = some g) :
    ∀ fuel, optimize_loop rfuel fuel g = none := by
  intro fuel
  induction fuel with
  | zero => rfl
  | succ n ih => simp [optimize_loop, h, ih]

/-- C9: on the two-event network built from a single task, a pass of `optimize`
examines no triple and changes nothing, and `optimize` never leaves its loop. -/
theorem C9_single_task_never_leaves_loop :
    (∀ rfuel, scan_pass rfuel (assign_nodes_by_works ⟨[], []⟩ single_work 65) =
      some (assign_nodes_by_works ⟨[], []⟩ single_work 65)) ∧
    ∀ fuel, optimize fuel (assign_nodes_by_works ⟨[], []⟩ single_work 65) = none := by
  have h : ∀ rfuel, scan_pass rfuel (assign_nodes_by_works ⟨[], []⟩ single_work 65) =
      some (assign_nodes_by_works ⟨[], []⟩ single_work 65) := by
    intro rfuel
    rfl
  refine ⟨h, ?_⟩
  intro fuel
  simp [optimize, optimize_loop_stuck fuel _ (h fuel)]

/-- Every event the first cleanup loop keeps is an endpoint of an arc of the map as it
is before the second cleanup loop removes the arcs from an event to itself. -/
theorem cleanup_nodes_have_arc (g : Graph) (node : indx_t) (h : node ∈ (cleanup g).nodes) :
    is_child_node g node = true ∨ is_parent_node g node = true := by
  simp only [cleanup, List.mem_filter] at h
  obtain ⟨_, h2⟩ := h
  by_cases hc : is_child_node g node = true
  · exact Or.inl hc
  · right
    simpa [hc] using h2

/-! ## The search of `critical_path` -/


/-- The lambda `t_max_of` computes the duration of an arc as the specification words it. -/
theorem t_max_of_eq_arc_duration (works : List work_t) (label : indx_t) :
    t_max_of works label = arc_duration works label := by
  induction works with
  | nil => rfl
  | cons w rest ih =>
    by_cases h : w.id = label
    · simp [t_max_of, arc_duration, List.find?, h]
    · simp only [t_max_of, h, if_false, ih]
      simp [arc_duration, List.find?, h]

/-- The `float` that `0` converts to is the zero. -/
theorem float.of_int_zero : float.of_int 0 = float.finite 0 := by decide

/-- The comparison `<=` is transitive. -/
theorem float.le_trans (a b c : float) (h1 : float.le a b = true)
    (h2 : float.le b c = true) : float.le a c = true := by
  cases a <;> cases b <;> cases c <;> simp_all [float.le]
  omega

/-- A value that is not NaN is `<=` itself. -/
theorem float.le_self (a : float) (h : float.le (float.finite 0) a = true) :
    float.le a a = true := by
  cases a <;> simp_all [float.le]

/-- When `a > b` holds, so does `b <= a`. -/
theorem float.le_of_gt (a b : float) (h : float.gt a b = true) : float.le b a = true := by
  cases a <;> cases b <;> simp_all [float.le, float.gt]
  omega

/-- When neither value is NaN and `a > b` is false, `a <= b` holds. -/
theorem float.le_of_not_gt (a b : float) (ha : float.le (float.finite 0) a = true)
    (hb : float.le (float.finite 0) b = true) (h : ¬ float.gt a b = true) :
    float.le a b = true := by
  cases a <;> cases b <;> simp_all [float.le, float.gt]

/-- The only value between `0` and `0` is `0`. -/
theorem float.eq_zero_of_le (a : float) (h0 : float.le (float.finite 0) a = true)
    (h1 : float.le a (float.finite 0) = true) : a = float.finite 0 := by
  cases a <;> simp_all [float.le]
  omega

/-- Rounding an exact value that is not negative gives a `float` that is not negative. -/
theorem float.round_nonneg (k : Int) (hk : 0 ≤ k) :
    float.le (float.finite 0) (float.round k) = true := by
  have hneg : ¬ k < 0 := by omega
  unfold float.round
  simp only [hneg, if_false]
  split <;> simp [float.le]

/-- The `float` sum of two values that are not negative is not negative. -/
theorem float.add_nonneg (a b : float) (ha : float.le (float.finite 0) a = true)
    (hb : float.le (float.finite 0) b = true) :
    float.le (float.finite 0) (float.add a b) = true := by
  cases a <;> cases b <;> simp_all [float.le, float.add]
  exact float.round_nonneg _ (by omega)

/-- Durations are not negative when no task has a negative maximum duration. -/
theorem arc_duration_nonneg (works : List work_t)
    (hpos : ∀ w ∈ works, float.le (float.of_int 0) w.t_max = true) (label : indx_t) :
    float.le (float.finite 0) (arc_duration works label) = true := by
  unfold arc_duration
  cases h : works.find? (fun w => decide (w.id = label)) with
  | none => decide
  | some w =>
    have := hpos w (List.mem_of_find?_eq_some h)
    rw [float.of_int_zero] at this
    exact this

/-- The sum along a path is not negative when the running sum it starts with and the
maximum durations of the tasks are not negative. -/
theorem walk_sum_nonneg (works : List work_t)
    (hpos : ∀ w ∈ works, float.le (float.of_int 0) w.t_max = true) (es : List edge_t) :
    ∀ s, float.le (float.finite 0) s = true →
      float.le (float.finite 0) (walk_sum works s es) = true := by
  induction es with
  | nil => intro s hs; exact hs
  | cons e es ih =>
    intro s hs
    exact ih _ (float.add_nonneg s _ hs (arc_duration_nonneg works hpos e.2))

/-- The sum along a path adds the duration of the first arc to the running sum and goes
on along the rest of the path. -/
theorem walk_sum_cons (works : List work_t) (s : float) (e : edge_t) (es : List edge_t) :
    walk_sum works s (e :: es) = walk_sum works (float.add s (arc_duration works e.2)) es :=
  rfl

/-- The count of `float.excess_bits` is the least number of halvings that bring `a` below
`2^24`. -/
theorem float.excess_bits_spec (fuel : Nat) : ∀ a, a ≤ fuel →
    a / 2 ^ float.excess_bits fuel a < 2 ^ 24 ∧
      ∀ j, j < float.excess_bits fuel a → 2 ^ 24 ≤ a / 2 ^ j := by
  induction fuel with
  | zero =>
    intro a ha
    have : a = 0 := by omega
    subst this
    simp [float.excess_bits]
  | succ n ih =>
    intro a ha
    by_cases h : a < 2 ^ 24
    · rw [float.excess_bits, if_pos h]
      exact ⟨by simpa using h, fun j hj => absurd hj (by omega)⟩
    · have h2 : a / 2 ≤ n := by omega
      obtain ⟨i1, i2⟩ := ih (a / 2) h2
      rw [float.excess_bits, if_neg h]
      constructor
      · rw [pow_succ, mul_comm, ← Nat.div_div_eq_div_mul]
        exact i1
      · intro j hj
        cases j with
        | zero => simpa using h
        | succ j =>
          rw [pow_succ 2 j, mul_comm, ← Nat.div_div_eq_div_mul]
          exact i2 j (by omega)

/-- A magnitude with at most 24 significant bits is not changed by the rounding. -/
theorem float.round_nat_exact (m j : Nat) (hm : m < 2 ^ 24) :
    float.round_nat (m * 2 ^ j) = m * 2 ^ j := by
  unfold float.round_nat
  by_cases h : m * 2 ^ j < 2 ^ 24
  · rw [if_pos h]
  · rw [if_neg h]
    obtain ⟨_, h2⟩ := float.excess_bits_spec (m * 2 ^ j) (m * 2 ^ j) (le_refl _)
    have hsh : float.excess_bits (m * 2 ^ j) (m * 2 ^ j) ≤ j := by
      by_contra hlt
      have := h2 j (by omega)
      rw [Nat.mul_div_cancel _ (by positivity)] at this
      omega
    obtain ⟨d, hd⟩ := Nat.exists_eq_add_of_le hsh
    generalize float.excess_bits (m * 2 ^ j) (m * 2 ^ j) = sh at *
    subst hd
    have hmul : m * 2 ^ (sh + d) = (m * 2 ^ d) * 2 ^ sh := by ring
    have hr : m * 2 ^ (sh + d) % 2 ^ sh = 0 := by rw [hmul]; exact Nat.mul_mod_left _ _
    have hq : m * 2 ^ (sh + d) / 2 ^ sh * 2 ^ sh = m * 2 ^ (sh + d) := by
      rw [hmul, Nat.mul_div_cancel _ (by positivity)]
    have hhalf : 0 < 2 ^ (sh - 1) := by positivity
    have hc : ¬ (2 ^ (sh - 1) < m * 2 ^ (sh + d) % 2 ^ sh ∨
        (m * 2 ^ (sh + d) % 2 ^ sh = 2 ^ (sh - 1) ∧ m * 2 ^ (sh + d) / 2 ^ sh % 2 = 1)) := by
      rw [hr]
      omega
    simp only [hc, if_false]
    exact hq


/-- An exact value with at most 24 significant bits and within the finite range is not
changed by the rounding. -/
theorem float.round_exact (k : Int) (m j : Nat) (hm : m < 2 ^ 24) (hk : k.natAbs = m * 2 ^ j)
    (hmax : m * 2 ^ j ≤ float.max_finite) : float.round k = float.finite k := by
  unfold float.round
  rw [hk, float.round_nat_exact m j hm, if_neg (by omega)]
  congr 1
  split <;> omega

/-- The sum along a path of whole-number durations that stays below `2^24` is exact: no
addition rounds. -/
theorem walk_sum_exact (works : List work_t)
    (hwhole : ∀ w ∈ works, ∃ d : Nat, w.t_max = float.finite ((d * 2 ^ 149 : Nat) : Int))
    (es : List edge_t) : ∀ n : Nat,
      ((n * 2 ^ 149 : Nat) : Int) + exact_total works es < ((2 ^ 24 * 2 ^ 149 : Nat) : Int) →
      walk_sum works (float.finite ((n * 2 ^ 149 : Nat) : Int)) es =
        float.finite (((n * 2 ^ 149 : Nat) : Int) + exact_total works es) := by
  have hdur : ∀ label, ∃ d : Nat,
      arc_duration works label = float.finite ((d * 2 ^ 149 : Nat) : Int) := by
    intro label
    unfold arc_duration
    cases h : works.find? (fun w => decide (w.id = label)) with
    | none => exact ⟨0, by decide⟩
    | some w => exact hwhole w (List.mem_of_find?_eq_some h)
  have hge : ∀ es : List edge_t, 0 ≤ exact_total works es := by
    intro es
    induction es with
    | nil => simp [exact_total]
    | cons e es ih =>
      obtain ⟨d, hd⟩ := hdur e.2
      simp only [exact_total, List.map_cons, List.sum_cons, hd, float.units] at ih ⊢
      omega
  induction es with
  | nil => intro n _; simp [walk_sum, exact_total]
  | cons e es ih =>
    intro n hn
    obtain ⟨d, hd⟩ := hdur e.2
    have hge1 := hge es
    have hex : exact_total works (e :: es) =
        ((d * 2 ^ 149 : Nat) : Int) + exact_total works es := by
      simp only [exact_total, List.map_cons, List.sum_cons, hd, float.units]
    rw [hex] at hn
    have hnd : n + d < 2 ^ 24 := by
      by_contra hlt
      have : 2 ^ 24 * 2 ^ 149 ≤ (n + d) * 2 ^ 149 :=
        Nat.mul_le_mul_right _ (by omega)
      have h3 : (n + d) * 2 ^ 149 = n * 2 ^ 149 + d * 2 ^ 149 := by ring
      omega
    have h3 : (((n + d) * 2 ^ 149 : Nat) : Int) =
        ((n * 2 ^ 149 : Nat) : Int) + ((d * 2 ^ 149 : Nat) : Int) := by
      rw [add_mul, Nat.cast_add]
    have hadd : float.add (float.finite ((n * 2 ^ 149 : Nat) : Int))
        (arc_duration works e.2) = float.finite (((n + d) * 2 ^ 149 : Nat) : Int) := by
      rw [hd]
      change float.round _ = _
      rw [← h3]
      apply float.round_exact _ (n + d) 149 hnd (Int.natAbs_ofNat _)
      have : (n + d) * 2 ^ 149 ≤ (2 ^ 24 - 1) * 2 ^ 253 := by
        calc (n + d) * 2 ^ 149 ≤ (2 ^ 24 - 1) * 2 ^ 149 := Nat.mul_le_mul_right _ (by omega)
          _ ≤ (2 ^ 24 - 1) * 2 ^ 253 := Nat.mul_le_mul_left _ (by norm_num)
      exact this
    rw [walk_sum_cons, hadd, ih (n + d), hex, h3, add_assoc]
    rw [h3, add_assoc]
    exact hn

/-- With whole-number durations, the `float` total of a path whose durations sum to less
than `2^24` is the exact sum of the durations. -/
theorem walk_total_exact (works : List work_t)
    (hwhole : ∀ w ∈ works, ∃ d : Nat, w.t_max = float.finite ((d * 2 ^ 149 : Nat) : Int))
    (es : List edge_t)
    (hsmall : exact_total works es < ((2 ^ 24 * 2 ^ 149 : Nat) : Int)) :
    walk_total works es = float.finite (exact_total works es) := by
  have h := walk_sum_exact works hwhole es 0 (by simpa using hsmall)
  have h0 : float.of_int 0 = float.finite ((0 * 2 ^ 149 : Nat) : Int) := by decide
  rw [walk_total, h0, h]
  simp

/-- A path splits at any point into two paths that meet at an intermediate event. -/
theorem is_walk_append (g : Graph) (l1 l2 : List edge_t) (u v : indx_t) :
    is_walk g u (l1 ++ l2) v ↔ ∃ m, is_walk g u l1 m ∧ is_walk g m l2 v := by
  induction l1 generalizing u with
  | nil => simp [is_walk]
  | cons e l1 ih =>
    have hcons : is_walk g u (e :: l1 ++ l2) v ↔
        e ∈ g.edges ∧ e.1.1 = u ∧ is_walk g e.1.2 (l1 ++ l2) v := Iff.rfl
    rw [hcons, ih]
    constructor
    · rintro ⟨h1, h2, m, h3, h4⟩
      exact ⟨m, ⟨h1, h2, h3⟩, h4⟩
    · rintro ⟨m, ⟨h1, h2, h3⟩, h4⟩
      exact ⟨h1, h2, m, h3, h4⟩

/-- The arcs of a path are entries of the arc map. -/
theorem is_walk_subset (g : Graph) (es : List edge_t) (u v : indx_t)
    (h : is_walk g u es v) : es ⊆ g.edges := by
  induction es generalizing u with
  | nil => simp
  | cons e es ih =>
    obtain ⟨h1, _, h3⟩ := h
    exact List.cons_subset.mpr ⟨h1, ih _ h3⟩

/-- In an acyclic network no path uses an arc twice. -/
theorem is_walk_nodup (g : Graph) (hac : acyclic g) (es : List edge_t) (u v : indx_t)
    (h : is_walk g u es v) : es.Nodup := by
  induction es generalizing u with
  | nil => simp
  | cons e es ih =>
    obtain ⟨h1, h2, h3⟩ := h
    refine List.nodup_cons.mpr ⟨?_, ih _ h3⟩
    intro hmem
    obtain ⟨l1, l2, rfl⟩ := List.append_of_mem hmem
    obtain ⟨m, hm1, hm2⟩ := (is_walk_append g l1 (e :: l2) e.1.2 v).mp h3
    obtain ⟨_, hm3, _⟩ := hm2
    apply hac e.1.1 (e :: l1) (by simp)
    refine ⟨h1, rfl, ?_⟩
    rw [hm3]
    exact hm1

/-- In an acyclic network a path has at most as many arcs as the arc map. -/
theorem is_walk_length_le (g : Graph) (hac : acyclic g) (es : List edge_t) (u v : indx_t)
    (h : is_walk g u es v) : es.length ≤ g.edges.length :=
  (List.subperm_of_subset (is_walk_nodup g hac es u v h) (is_walk_subset g es u v h)).length_le

/-- The `for` loop of `f`: if every recursive call returns and updates `max_sum` to the
largest sum among the paths it explores, so does the loop over the arcs leaving `u`. -/
theorem f_loop_spec (g : Graph) (works : List work_t) (back u : indx_t) (s : float)
    (call : List indx_t → float → cp_state → Option cp_state)
    (hcall : ∀ e ∈ g.edges, e.1.1 = u → ∀ path st, path.getLast? = some e.1.2 →
      float.le (float.finite 0) st.max_sum = true →
      ∃ st1, call path (float.add s (t_max_of works e.2)) st = some st1 ∧
        float.le st.max_sum st1.max_sum = true ∧
        (∀ es, is_walk g e.1.2 es back →
          float.le (walk_sum works (float.add s (t_max_of works e.2)) es) st1.max_sum = true) ∧
        (st1.max_sum = st.max_sum ∨ ∃ es, is_walk g e.1.2 es back ∧
          walk_sum works (float.add s (t_max_of works e.2)) es = st1.max_sum))
    (l : List edge_t) (hl : l ⊆ g.edges) (path : List indx_t) (st : cp_state)
    (hst : float.le (float.finite 0) st.max_sum = true) :
    ∃ st1, f_loop call works u s l path st = some st1 ∧
      float.le st.max_sum st1.max_sum = true ∧
      (∀ e ∈ l, e.1.1 = u → ∀ es, is_walk g e.1.2 es back →
        float.le (walk_sum works (float.add s (t_max_of works e.2)) es) st1.max_sum = true) ∧
      (st1.max_sum = st.max_sum ∨ ∃ e ∈ l, e.1.1 = u ∧ ∃ es, is_walk g e.1.2 es back ∧
        walk_sum works (float.add s (t_max_of works e.2)) es = st1.max_sum) := by
  induction l generalizing path st with
  | nil => exact ⟨st, rfl, float.le_self _ hst, by simp, Or.inl rfl⟩
  | cons e rest ih =>
    obtain ⟨he, hrest⟩ := List.cons_subset.mp hl
    by_cases hu : e.1.1 = u
    · obtain ⟨st1, h1, h2, h3, h4⟩ := hcall e he hu (path ++ [e.1.2]) st (by simp) hst
      obtain ⟨st2, k1, k2, k3, k4⟩ :=
        ih hrest (path ++ [e.1.2]) st1 (float.le_trans _ _ _ hst h2)
      refine ⟨st2, ?_, float.le_trans _ _ _ h2 k2, ?_, ?_⟩
      · simp only [f_loop, hu, if_true, h1, k1]
      · intro e1 he1 hu1 es hes
        rcases List.mem_cons.mp he1 with rfl | hmem
        · exact float.le_trans _ _ _ (h3 es hes) k2
        · exact k3 e1 hmem hu1 es hes
      · rcases k4 with k4 | ⟨e1, he1, hu1, es, hes, htot⟩
        · rcases h4 with h4 | ⟨es, hes, htot⟩
          · exact Or.inl (by rw [k4, h4])
          · exact Or.inr ⟨e, List.mem_cons_self _ _, hu, es, hes, by rw [htot, k4]⟩
        · exact Or.inr ⟨e1, List.mem_cons_of_mem _ he1, hu1, es, hes, htot⟩
    · obtain ⟨st2, k1, k2, k3, k4⟩ := ih hrest path st hst
      refine ⟨st2, ?_, k2, ?_, ?_⟩
      · simp only [f_loop, hu, if_false, k1]
      · intro e1 he1 hu1 es hes
        rcases List.mem_cons.mp he1 with rfl | hmem
        · exact absurd hu1 hu
        · exact k3 e1 hmem hu1 es hes
      · rcases k4 with k4 | ⟨e1, he1, hu1, es, hes, htot⟩
        · exact Or.inl k4
        · exact Or.inr ⟨e1, List.mem_cons_of_mem _ he1, hu1, es, hes, htot⟩

/-- The lambda `f` called at the event `u` with the running sum `s`, when no sum is
negative: with fuel above the length of every path from `u` it returns, `max_sum` does not
decrease, it bounds the sum along every path from `u` to the last event, and it is either
unchanged or such a sum. -/
theorem f_spec (g : Graph) (works : List work_t) (back : indx_t)
    (hback : g.nodes.getLast? = some back) (hac : acyclic g)
    (hpos : ∀ w ∈ works, float.le (float.of_int 0) w.t_max = true) :
    ∀ (fuel : Nat) (u : indx_t) (path : List indx_t) (s : float) (st : cp_state),
      path.getLast? = some u → (∀ es v, is_walk g u es v → es.length < fuel) →
      float.le (float.finite 0) s = true → float.le (float.finite 0) st.max_sum = true →
      ∃ st1, f g works fuel path s st = some st1 ∧
        float.le st.max_sum st1.max_sum = true ∧
        (∀ es, is_walk g u es back → float.le (walk_sum works s es) st1.max_sum = true) ∧
        (st1.max_sum = st.max_sum ∨ ∃ es, is_walk g u es back ∧
          walk_sum works s es = st1.max_sum) := by
  intro fuel
  induction fuel with
  | zero =>
    intro u path s st _ hlen
    exact absurd (hlen [] u rfl) (by simp)
  | succ n ih =>
    intro u path s st hpath hlen hs0 hst0
    by_cases hu : u = back
    · have hnil : ∀ es, is_walk g u es back → es = [] := by
        intro es hes
        by_contra hne
        rw [← hu] at hes
        exact hac u es hne hes
      by_cases hs : float.gt s st.max_sum = true
      · refine ⟨{ max_sum := s, full_path := path }, ?_, float.le_of_gt _ _ hs, ?_, ?_⟩
        · simp only [f, hpath, hback, hu, if_true, hs]
        · intro es hes
          rw [hnil es hes]
          exact float.le_self s hs0
        · exact Or.inr ⟨[], hu, rfl⟩
      · refine ⟨st, ?_, float.le_self _ hst0, ?_, Or.inl rfl⟩
        · simp only [f, hpath, hback, hu, if_true, hs, if_false, Bool.false_eq_true]
        · intro es hes
          rw [hnil es hes]
          exact float.le_of_not_gt s st.max_sum hs0 hst0 hs
    · have hcall : ∀ e ∈ g.edges, e.1.1 = u → ∀ path st, path.getLast? = some e.1.2 →
          float.le (float.finite 0) st.max_sum = true →
          ∃ st1, f g works n path (float.add s (t_max_of works e.2)) st = some st1 ∧
            float.le st.max_sum st1.max_sum = true ∧
            (∀ es, is_walk g e.1.2 es back →
              float.le (walk_sum works (float.add s (t_max_of works e.2)) es) st1.max_sum
                = true) ∧
            (st1.max_sum = st.max_sum ∨ ∃ es, is_walk g e.1.2 es back ∧
              walk_sum works (float.add s (t_max_of works e.2)) es = st1.max_sum) := by
        intro e he heu path1 st1 hp1 hst1
        apply ih e.1.2 path1 (float.add s (t_max_of works e.2)) st1 hp1
        · intro es v hes
          have := hlen (e :: es) v ⟨he, heu, hes⟩
          simpa using this
        · rw [t_max_of_eq_arc_duration]
          exact float.add_nonneg s _ hs0 (arc_duration_nonneg works hpos e.2)
        · exact hst1
      obtain ⟨st1, h1, h2, h3, h4⟩ :=
        f_loop_spec g works back u s (f g works n) hcall g.edges (List.Subset.refl _) path st
          hst0
      refine ⟨st1, ?_, h2, ?_, ?_⟩
      · simp only [f, hpath, hback, hu, if_false, h1]
      · intro es hes
        cases es with
        | nil => exact absurd hes hu
        | cons e es =>
          obtain ⟨he, heu, hes1⟩ := hes
          have := h3 e he heu es hes1
          rw [walk_sum_cons, ← t_max_of_eq_arc_duration]
          exact this
      · rcases h4 with h4 | ⟨e, he, heu, es, hes, htot⟩
        · exact Or.inl h4
        · refine Or.inr ⟨e :: es, ⟨he, heu, hes⟩, ?_⟩
          rw [walk_sum_cons, ← t_max_of_eq_arc_duration]
          exact htot

/-- C4, amended: on an acyclic network and a task list whose maximum durations are not
negative (`0 <= t_max`, so none is NaN), `critical_path` returns (with fuel above the number
of arcs) and the `max_sum` it records is the maximum, over the directed paths from the
first to the last event, of the `float` total of the path, which is the durations of its
arcs added one by one in path order to `0`, each addition rounded to the nearest `float`;
it is `0` when there is no such path. -/
theorem C4_max_sum_is_longest_float_total (g : Graph) (works : List work_t) (fuel : Nat)
    (first last : indx_t) (hfirst : g.nodes.head? = some first)
    (hlast : g.nodes.getLast? = some last) (hac : acyclic g)
    (hpos : ∀ w ∈ works, float.le (float.of_int 0) w.t_max = true)
    (hfuel : g.edges.length < fuel) :
    ∃ st, critical_path fuel g works = some st ∧
      is_max_total g works first last st.max_sum := by
  obtain ⟨st, h1, h2, h3, h4⟩ := f_spec g works last hlast hac hpos fuel first [first]
    (float.of_int 0) { max_sum := float.of_int 0, full_path := [] } rfl
    (fun es v hes => lt_of_le_of_lt (is_walk_length_le g hac es first v hes) hfuel)
    (by decide) (by decide)
  refine ⟨st, by simp only [critical_path, hfirst, h1], ?_, ?_⟩
  · intro es hes
    exact h3 es hes
  · rcases h4 with h4 | ⟨es, hes, htot⟩
    · by_cases hex : ∃ es, is_walk g first es last
      · obtain ⟨es, hes⟩ := hex
        refine Or.inl ⟨es, hes, ?_⟩
        have hle := h3 es hes
        have hge := walk_sum_nonneg works hpos es (float.of_int 0) (by decide)
        rw [h4] at hle ⊢
        change float.le (walk_sum works (float.of_int 0) es) (float.of_int 0) = true at hle
        rw [float.of_int_zero] at hle hge ⊢
        exact float.eq_zero_of_le _ hge hle
      · exact Or.inr ⟨hex, h4⟩
    · exact Or.inl ⟨es, hes, htot⟩

/-- A network whose arcs all increase some rank of the events is acyclic. -/
theorem acyclic_of_rank (g : Graph) (rank : indx_t → Int)
    (h : ∀ e ∈ g.edges, rank e.1.1 < rank e.1.2) : acyclic g := by
  have key : ∀ es u v, es ≠ [] → is_walk g u es v → rank u < rank v := by
    intro es
    induction es with
    | nil => intro u v hne; exact absurd rfl hne
    | cons e es ih =>
      intro u v _ hw
      obtain ⟨he, heu, hes⟩ := hw
      have h1 := h e he
      rw [heu] at h1
      cases es with
      | nil =>
        have : e.1.2 = v := hes
        rw [← this]; exact h1
      | cons e2 es2 => exact lt_trans h1 (ih e.1.2 v (by simp) hes)
  intro u es hne hw
  exact lt_irrefl _ (key es u u hne hw)

/-- The canonical network is acyclic: every arc leads to a later letter. -/
theorem main_graph_acyclic : acyclic main_graph := by
  apply acyclic_of_rank main_graph id
  decide

set_option maxRecDepth 100000 in
/-- C4, as stated, fails: on the network built from two tasks in sequence with the maximum
durations `2^24` and `1`, which is acyclic and has no negative duration, the arcs of the
two tasks form a path from the first to the last event whose durations sum to `2^24 + 1`
times the `float` 1, and `critical_path` records `max_sum = 2^24`, which is less: the
`float` addition of `2^24` and `1` rounds to `2^24`. -/
theorem C4_rounded_sum_counterexample :
    assign_nodes_by_works ⟨[], []⟩ large_works 65 =
      ⟨[65, 66, 67], [((65, 66), 49), ((66, 67), 50)]⟩ ∧
    acyclic (assign_nodes_by_works ⟨[], []⟩ large_works 65) ∧
    (∀ w ∈ large_works, float.le (float.of_int 0) w.t_max = true) ∧
    is_walk (assign_nodes_by_works ⟨[], []⟩ large_works 65) 65
      [((65, 66), 49), ((66, 67), 50)] 67 ∧
    exact_total large_works [((65, 66), 49), ((66, 67), 50)] =
      16777217 * float.units (float.of_int 1) ∧
    critical_path 5 (assign_nodes_by_works ⟨[], []⟩ large_works 65) large_works =
      some { max_sum := float.of_int 16777216, full_path := [65, 66, 67] } ∧
    float.units (float.of_int 16777216) = 16777216 * float.units (float.of_int 1) := by
  refine ⟨by decide, ?_, by decide, ⟨by decide, rfl, by decide, rfl, rfl⟩, by decide,
    by decide, by decide⟩
  apply acyclic_of_rank _ id
  decide

set_option maxRecDepth 100000 in
/-- C4, amended, at the canonical network: the hypotheses hold there and the maximum
`float` total of the paths from `'A'` to `'I'` is 29. -/
theorem C4_max_sum_is_longest_float_total_witness :
    is_max_total main_graph main_works 65 73 (float.of_int 29) := by
  obtain ⟨st, h1, h2⟩ := C4_max_sum_is_longest_float_total main_graph main_works 16 65 73
    (by decide) (by decide) main_graph_acyclic (by decide) (by decide)
  have h3 : critical_path 16 main_graph main_works =
      some { max_sum := float.of_int 29, full_path := [65, 66, 67, 69, 70, 71, 72, 73] } := by
    decide
  rw [h3] at h1
  cases h1
  exact h2

/-! ## The arc map -/


/-- Lookup after `edges[k] = v`. -/
theorem map_find_assign (m : List edge_t) (k : link_t) (v : indx_t) (k1 : link_t) :
    map_find (map_assign m k v) k1 = if k = k1 then some v else map_find m k1 := by
  induction m with
  | nil => simp [map_assign, map_find]
  | cons e rest ih =>
    obtain ⟨k0, w⟩ := e
    by_cases h0 : k0 = k
    · subst h0
      by_cases h1 : k0 = k1 <;> simp [map_assign, map_find, h1]
    · by_cases hlt : link_lt k k0 = true
      · simp [map_assign, map_find, h0, hlt]
      · simp only [map_assign, h0, if_false, hlt, map_find, ih]
        by_cases h1 : k = k1
        · subst h1; simp [h0]
        · simp [h1]

/-- Lookup after `edges.erase(k)`. -/
theorem map_find_erase (m : List edge_t) (k k1 : link_t) :
    map_find (map_erase m k) k1 = if k = k1 then none else map_find m k1 := by
  induction m with
  | nil => simp [map_erase, map_find]
  | cons e rest ih =>
    obtain ⟨k0, w⟩ := e
    unfold map_erase at ih ⊢
    by_cases h0 : k0 = k
    · subst h0
      by_cases h1 : k0 = k1
      · subst h1
        simpa [List.filter_cons] using ih
      · simp [List.filter_cons, ih, h1, map_find]
    · by_cases h1 : k = k1
      · subst h1
        simp [List.filter_cons, h0, map_find, ih]
      · simp [List.filter_cons, h0, map_find, ih, h1]

/-- No key is before itself. -/
theorem link_lt_irrefl (a : link_t) : link_lt a a = false := by
  simp [link_lt]

/-- The key order is transitive. -/
theorem link_lt_trans (a b c : link_t) (h1 : link_lt a b = true) (h2 : link_lt b c = true) :
    link_lt a c = true := by
  simp only [link_lt, Bool.or_eq_true, Bool.and_eq_true, decide_eq_true_eq] at *
  unfold indx_t at *
  omega

/-- Two different keys are ordered one way or the other. -/
theorem link_lt_total (a b : link_t) (h1 : link_lt a b = false) (h2 : b ≠ a) :
    link_lt b a = true := by
  have h3 : ¬ (b.1 = a.1 ∧ b.2 = a.2) := fun h => h2 (Prod.ext h.1 h.2)
  simp only [link_lt, Bool.or_eq_true, Bool.and_eq_true, decide_eq_true_eq,
    Bool.or_eq_false_iff, Bool.and_eq_false_iff, decide_eq_false_iff_not] at *
  unfold indx_t at *
  omega

/-- In a list without duplicates two positions with the same event are equal. -/
theorem getD_inj_of_nodup (l : List indx_t) (h : l.Nodup) (a b : Nat) (ha : a < l.length)
    (hb : b < l.length) (hab : l.getD a DefaultIndex = l.getD b DefaultIndex) : a = b := by
  rw [List.getD_eq_getElem l DefaultIndex ha, List.getD_eq_getElem l DefaultIndex hb] at hab
  exact (h.getElem_inj_iff).mp hab

/-- The events the first loop of `assign_nodes_by_works` appends. -/
theorem chain_nodes (n : Nat) (first_node : indx_t) (g : Graph) :
    (chain n first_node g).nodes = g.nodes ++ List.iterate NextIndex (NextIndex first_node) n := by
  induction n generalizing first_node g with
  | zero => simp [chain, List.iterate]
  | succ n ih => simp [chain, ih, List.iterate]

/-- The second loop of `assign_nodes_by_works` leaves the event list alone. -/
theorem overlay_nodes (before rest : List work_t) (g : Graph) :
    (overlay before rest g).nodes = g.nodes := by
  induction rest generalizing before g with
  | nil => rfl
  | cons w rest ih => simp [overlay, ih]

/-- The second loop of `assign_nodes_by_works` on two lists of tasks, one after the other. -/
theorem overlay_append (before l1 l2 : List work_t) (g : Graph) :
    overlay before (l1 ++ l2) g = overlay (l1.reverse ++ before) l2 (overlay before l1 g) := by
  induction l1 generalizing before g with
  | nil => rfl
  | cons w l1 ih =>
    change overlay (w :: before) (l1 ++ l2) _ =
      overlay ((w :: l1).reverse ++ before) l2 (overlay (w :: before) l1 _)
    rw [ih]
    simp

/-- The second loop of `assign_nodes_by_works` leaves the arcs alone whose destination is not
the finishing event of one of the tasks it visits. -/
theorem overlay_find_other (before rest : List work_t) (g : Graph) (k : link_t)
    (h : ∀ j1, before.length < j1 → j1 ≤ before.length + rest.length →
      g.nodes.getD j1 DefaultIndex ≠ k.2) :
    map_find (overlay before rest g).edges k = map_find g.edges k := by
  induction rest generalizing before g with
  | nil => rfl
  | cons w rest ih =>
    simp only [overlay]
    rw [ih]
    · rw [map_find_assign]
      have h1 := h (before.length + 1) (by omega) (by simp)
      have h2 : ¬ ((g.nodes.getD (find_i w.required before) DefaultIndex,
          g.nodes.getD (before.length + 1) DefaultIndex) = k) := by
        intro heq
        exact h1 (by rw [← heq])
      simp only [h2, if_false]
    · intro j1 hj1 hj2
      apply h j1
      · simp only [List.length_cons] at hj1; omega
      · simp only [List.length_cons] at hj1 hj2 ⊢; omega

/-- The backward scan returns a position among the tasks already visited. -/
theorem find_i_le (required : List indx_t) (before : List work_t) :
    find_i required before ≤ before.length := by
  induction before with
  | nil => simp [find_i]
  | cons w rest ih =>
    simp only [find_i, List.length_cons]
    split <;> omega

/-- The backward scan returns the largest position whose task id is required, and `0` when
there is none. -/
theorem find_i_reverse (required : List indx_t) (pre : List work_t) (i : Nat)
    (h1 : i = 0 ∨ ∃ v, task_at pre i = some v ∧ v.id ∈ required)
    (h2 : ∀ p v, i < p → task_at pre p = some v → v.id ∉ required) :
    find_i required pre.reverse = i := by
  induction pre using List.reverseRecOn with
  | nil =>
    rcases h1 with h1 | ⟨v, hv, _⟩
    · simp [find_i, h1]
    · simp [task_at] at hv
  | append_singleton init x ih =>
    have hx : task_at (init ++ [x]) (init.length + 1) = some x := by
      simp [task_at]
    have hlt : ∀ p v, task_at (init ++ [x]) p = some v → p ≤ init.length + 1 := by
      intro p v hp
      unfold task_at at hp
      split at hp
      · omega
      · have := (List.getElem?_eq_some.mp hp).1
        simp at this
        omega
    have hinit : ∀ p v, task_at init p = some v → task_at (init ++ [x]) p = some v := by
      intro p v hp
      unfold task_at at hp ⊢
      split at hp
      · exact absurd hp (by simp)
      · rename_i hp0
        simp only [hp0, if_false]
        have hlen := (List.getElem?_eq_some.mp hp).1
        rw [List.getElem?_append_left hlen]
        exact hp
    simp only [List.reverse_append, List.reverse_singleton, List.singleton_append, find_i,
      List.length_reverse]
    by_cases hmem : x.id ∈ required
    · simp only [hmem, if_true]
      have hge : init.length + 1 ≤ i := by
        by_contra hcon
        exact h2 (init.length + 1) x (by omega) hx hmem
      rcases h1 with h1 | ⟨v, hv, _⟩
      · omega
      · have := hlt i v hv
        omega
    · simp only [hmem, if_false]
      apply ih
      · rcases h1 with h1 | ⟨v, hv, hvm⟩
        · exact Or.inl h1
        · right
          refine ⟨v, ?_, hvm⟩
          have hle := hlt i v hv
          unfold task_at at hv ⊢
          split at hv
          · exact absurd hv (by simp)
          · rename_i hi0
            simp only [hi0, if_false]
            by_cases hlast : i - 1 < init.length
            · rw [List.getElem?_append_left hlast] at hv
              exact hv
            · have hi1 : i - 1 = init.length := by omega
              rw [hi1] at hv
              simp at hv
              rw [← hv] at hvm
              exact absurd hvm hmem
      · intro p v hp hpv
        exact h2 p v hp (hinit p v hpv)

/-- The events `assign_nodes_by_works` generates on an empty graph. -/
theorem assign_nodes (works : List work_t) (start : indx_t) :
    (assign_nodes_by_works ⟨[], []⟩ works start).nodes =
      List.iterate NextIndex start (works.length + 1) := by
  simp [assign_nodes_by_works, overlay_nodes, chain_nodes, List.iterate]

/-- C7: when the generated events are pairwise distinct, the network built by
`assign_nodes_by_works` has, for the task at the 1-indexed position `j`, the arc from the
event of index `i` to the event of index `j` with the id of the task as label, where `i` is
the largest position before `j` whose task id is in the required set of the task, and `0`
when there is none. -/
theorem C7_task_arc_from_nearest_required (works : List work_t) (start : indx_t)
    (j i : Nat) (w : work_t) (ei ej : indx_t)
    (hnodup : (assign_nodes_by_works ⟨[], []⟩ works start).nodes.Nodup)
    (hw : task_at works j = some w)
    (hi : nearest_required works w.required j i)
    (hei : (assign_nodes_by_works ⟨[], []⟩ works start).nodes[i]? = some ei)
    (hej : (assign_nodes_by_works ⟨[], []⟩ works start).nodes[j]? = some ej) :
    map_find (assign_nodes_by_works ⟨[], []⟩ works start).edges (ei, ej) = some w.id := by
  obtain ⟨hij, hi1, hi2⟩ := hi
  have hj0 : j ≠ 0 := by omega
  have hwj : works[j - 1]? = some w := by simpa [task_at, hj0] using hw
  obtain ⟨hjlen, hwget⟩ := List.getElem?_eq_some.mp hwj
  have hsplit : works = works.take (j - 1) ++ w :: works.drop j := by
    have h1 := List.take_append_drop (j - 1) works
    have h2 := List.drop_eq_getElem_cons hjlen
    rw [h2, hwget] at h1
    have h3 : j - 1 + 1 = j := by omega
    rw [h3] at h1
    exact h1.symm
  have hprelen : (works.take (j - 1)).length = j - 1 := by
    rw [List.length_take]; omega
  have hpre : ∀ p v, p < j → task_at works p = some v →
      task_at (works.take (j - 1)) p = some v := by
    intro p v hp hpv
    unfold task_at at hpv ⊢
    split at hpv
    · exact absurd hpv (by simp)
    · rename_i hp0
      simp only [hp0, if_false]
      rw [List.getElem?_take_of_lt (by omega)]
      exact hpv
  have hpre2 : ∀ p v, task_at (works.take (j - 1)) p = some v →
      p < j ∧ task_at works p = some v := by
    intro p v hpv
    unfold task_at at hpv ⊢
    split at hpv
    · exact absurd hpv (by simp)
    · rename_i hp0
      simp only [hp0, if_false]
      have hlen := (List.getElem?_eq_some.mp hpv).1
      rw [hprelen] at hlen
      refine ⟨by omega, ?_⟩
      rw [List.getElem?_take_of_lt (by omega)] at hpv
      exact hpv
  have hfind : find_i w.required (works.take (j - 1)).reverse = i := by
    apply find_i_reverse
    · rcases hi1 with hi1 | ⟨v, hv, hvm⟩
      · exact Or.inl hi1
      · exact Or.inr ⟨v, hpre i v hij hv, hvm⟩
    · intro p v hp hpv
      obtain ⟨hpj, hpw⟩ := hpre2 p v hpv
      exact hi2 p v hp hpj hpw
  have hnodes := assign_nodes works start
  set g0 := chain works.length start { nodes := [start], edges := [] } with hg0
  have hasg : assign_nodes_by_works ⟨[], []⟩ works start = overlay [] works g0 := by
    simp [assign_nodes_by_works, hg0]
  rw [hasg] at hnodup hei hej hnodes ⊢
  rw [overlay_nodes] at hnodup hei hej hnodes
  have hlen : g0.nodes.length = works.length + 1 := by
    rw [hnodes, List.length_iterate]
  have heiD : g0.nodes.getD i DefaultIndex = ei := by simp [hei]
  have hejD : g0.nodes.getD j DefaultIndex = ej := by simp [hej]
  rw [hsplit, overlay_append]
  simp only [List.append_nil, overlay]
  rw [overlay_find_other]
  · rw [map_find_assign, overlay_nodes, hfind, List.length_reverse, hprelen]
    have h3 : j - 1 + 1 = j := by omega
    rw [h3, heiD, hejD]
    simp
  · intro j1 hj1 hj2
    simp only [List.length_cons, List.length_reverse, hprelen, List.length_drop] at hj1 hj2
    simp only [overlay_nodes]
    intro hcon
    rw [← hejD] at hcon
    have := getD_inj_of_nodup g0.nodes hnodup j1 j (by omega) (by omega) hcon
    omega


/-- An entry of the map after `edges[k] = v` is the new entry or an entry of the map before. -/
theorem mem_map_assign (m : List edge_t) (k : link_t) (v : indx_t) (e : edge_t)
    (h : e ∈ map_assign m k v) : e = (k, v) ∨ e ∈ m := by
  induction m with
  | nil => simpa [map_assign] using h
  | cons e0 rest ih =>
    obtain ⟨k0, w⟩ := e0
    unfold map_assign at h
    split at h
    · rcases List.mem_cons.mp h with h | h
      · exact Or.inl h
      · exact Or.inr (List.mem_cons_of_mem _ h)
    · split at h
      · rcases List.mem_cons.mp h with h | h
        · exact Or.inl h
        · exact Or.inr h
      · rcases List.mem_cons.mp h with h | h
        · exact Or.inr (h ▸ List.mem_cons_self _ _)
        · rcases ih h with h | h
          · exact Or.inl h
          · exact Or.inr (List.mem_cons_of_mem _ h)

/-- Assignment keeps the keys of the arc map in ascending order. -/
theorem keys_sorted_assign (m : List edge_t) (k : link_t) (v : indx_t) (h : keys_sorted m) :
    keys_sorted (map_assign m k v) := by
  induction m with
  | nil => simp [map_assign, keys_sorted]
  | cons e0 rest ih =>
    obtain ⟨k0, w⟩ := e0
    unfold keys_sorted at h ih ⊢
    obtain ⟨h1, h2⟩ := List.pairwise_cons.mp h
    unfold map_assign
    split
    · rename_i hk
      subst hk
      exact List.pairwise_cons.mpr ⟨h1, h2⟩
    · rename_i hk
      split
      · rename_i hlt
        refine List.pairwise_cons.mpr ⟨?_, h⟩
        intro e he
        rcases List.mem_cons.mp he with he | he
        · rw [he]; exact hlt
        · exact link_lt_trans _ _ _ hlt (h1 e he)
      · rename_i hlt
        refine List.pairwise_cons.mpr ⟨?_, ih h2⟩
        intro e he
        rcases mem_map_assign rest k v e he with he | he
        · rw [he]
          exact link_lt_total k k0 (by simpa using hlt) hk
        · exact h1 e he

/-- A key is in the map exactly when the lookup finds it. -/
theorem mem_keys_iff (m : List edge_t) (k : link_t) :
    k ∈ m.map Prod.fst ↔ (map_find m k).isSome = true := by
  induction m with
  | nil => simp [map_find]
  | cons e0 rest ih =>
    obtain ⟨k0, w⟩ := e0
    by_cases h : k0 = k
    · simp [map_find, h]
    · have h1 : ¬ k = k0 := fun hh => h hh.symm
      simp only [List.map_cons, List.mem_cons, h1, false_or, map_find, h, if_false]
      exact ih

/-- The key set after `edges[k] = v`. -/
theorem keys_assign (m : List edge_t) (k : link_t) (v : indx_t) :
    ((map_assign m k v).map Prod.fst).toFinset = insert k (m.map Prod.fst).toFinset := by
  ext k1
  rw [List.mem_toFinset, Finset.mem_insert, List.mem_toFinset, mem_keys_iff, mem_keys_iff,
    map_find_assign]
  by_cases h : k = k1
  · simp [h]
  · have h1 : ¬ k1 = k := fun hh => h hh.symm
    simp [h, h1]

/-- The size of a map is the number of its keys. -/
theorem length_eq_card_keys (m : List edge_t) (h : keys_sorted m) :
    m.length = (m.map Prod.fst).toFinset.card := by
  have hnd : (m.map Prod.fst).Nodup := by
    unfold List.Nodup
    rw [List.pairwise_map]
    refine List.Pairwise.imp ?_ h
    intro a b hab heq
    rw [heq, link_lt_irrefl] at hab
    exact absurd hab (by simp)
  rw [List.toFinset_card_of_nodup hnd, List.length_map]

/-- The keys the first loop of `assign_nodes_by_works` adds: one chain pair per new event. -/
theorem chain_keys (n : Nat) (first_node : indx_t) (g : Graph) (h : keys_sorted g.edges) :
    keys_sorted (chain n first_node g).edges ∧
    ((chain n first_node g).edges.map Prod.fst).toFinset =
      (g.edges.map Prod.fst).toFinset ∪
        ((List.iterate NextIndex first_node n).map fun x => (x, NextIndex x)).toFinset := by
  induction n generalizing first_node g with
  | zero => simp [chain, List.iterate, h]
  | succ n ih =>
    obtain ⟨h1, h2⟩ := ih (NextIndex first_node)
      { nodes := g.nodes ++ [NextIndex first_node],
        edges := map_assign g.edges (first_node, NextIndex first_node) DefaultIndex }
      (keys_sorted_assign _ _ _ h)
    refine ⟨h1, ?_⟩
    simp only [chain]
    rw [h2, keys_assign]
    simp [List.iterate, Finset.insert_union, Finset.union_insert]

/-- The second loop of `assign_nodes_by_works` keeps the keys it finds and adds at most one
key per task whose arc is not a chain pair. -/
theorem overlay_keys (before rest : List work_t) (g : Graph) (hs : keys_sorted g.edges)
    (hchain : ∀ j, before.length < j → j ≤ before.length + rest.length →
      (g.nodes.getD (j - 1) DefaultIndex, g.nodes.getD j DefaultIndex) ∈
        (g.edges.map Prod.fst).toFinset) :
    keys_sorted (overlay before rest g).edges ∧
    (g.edges.map Prod.fst).toFinset ⊆ ((overlay before rest g).edges.map Prod.fst).toFinset ∧
    ((overlay before rest g).edges.map Prod.fst).toFinset.card ≤
      (g.edges.map Prod.fst).toFinset.card + non_chain_tasks before rest := by
  induction rest generalizing before g with
  | nil => exact ⟨hs, Finset.Subset.refl _, by simp [overlay, non_chain_tasks]⟩
  | cons w rest ih =>
    have hkeys := keys_assign g.edges
      (g.nodes.getD (find_i w.required before) DefaultIndex,
        g.nodes.getD (before.length + 1) DefaultIndex) w.id
    have hsub : (g.edges.map Prod.fst).toFinset ⊆ ((map_assign g.edges
        (g.nodes.getD (find_i w.required before) DefaultIndex,
          g.nodes.getD (before.length + 1) DefaultIndex) w.id).map Prod.fst).toFinset := by
      rw [hkeys]
      exact Finset.subset_insert _ _
    obtain ⟨h1, h2, h3⟩ := ih (w :: before)
      { g with edges := (map_assign g.edges
          (g.nodes.getD (find_i w.required before) DefaultIndex,
            g.nodes.getD (before.length + 1) DefaultIndex) w.id) }
      (keys_sorted_assign _ _ _ hs)
      (by
        intro j hj1 hj2
        apply hsub
        apply hchain j
        · simp only [List.length_cons] at hj1; omega
        · simp only [List.length_cons] at hj1 hj2 ⊢; omega)
    refine ⟨h1, Finset.Subset.trans hsub h2, ?_⟩
    simp only [overlay, non_chain_tasks]
    refine le_trans h3 ?_
    simp only []
    rw [hkeys]
    by_cases hi : find_i w.required before = before.length
    · have hmem := hchain (before.length + 1) (by omega) (by simp)
      simp only [Nat.add_sub_cancel] at hmem
      rw [hi, Finset.insert_eq_of_mem hmem]
      simp
    · have := Finset.card_insert_le
        (g.nodes.getD (find_i w.required before) DefaultIndex,
          g.nodes.getD (before.length + 1) DefaultIndex) (g.edges.map Prod.fst).toFinset
      simp only [hi, if_false]
      omega

/-- C8: when the generated events are pairwise distinct, `assign_nodes_by_works` on an
empty graph gives the `N + 1` events `start`, `NextIndex start`, ... and an arc map with
at least `N` entries and at most `N` plus the number of tasks whose arc is not a chain
pair. -/
theorem C8_event_and_arc_counts (works : List work_t) (start : indx_t)
    (hnodup : (assign_nodes_by_works ⟨[], []⟩ works start).nodes.Nodup) :
    (assign_nodes_by_works ⟨[], []⟩ works start).nodes =
      List.iterate NextIndex start (works.length + 1) ∧
    (assign_nodes_by_works ⟨[], []⟩ works start).nodes.length = works.length + 1 ∧
    works.length ≤ (assign_nodes_by_works ⟨[], []⟩ works start).edges.length ∧
    (assign_nodes_by_works ⟨[], []⟩ works start).edges.length ≤
      works.length + non_chain_tasks [] works := by
  have hnodes := assign_nodes works start
  rw [hnodes] at hnodup
  refine ⟨hnodes, by rw [hnodes, List.length_iterate], ?_⟩
  obtain ⟨c1, c2⟩ := chain_keys works.length start { nodes := [start], edges := [] }
    (by simp [keys_sorted])
  have hg0nodes : (chain works.length start { nodes := [start], edges := [] }).nodes =
      List.iterate NextIndex start (works.length + 1) := by
    simp [chain_nodes, List.iterate]
  have hpre : (List.iterate NextIndex start works.length).Nodup := by
    have hsub : List.Sublist (List.iterate NextIndex start works.length)
        (List.iterate NextIndex start (works.length + 1)) := by
      rw [List.iterate_add]
      exact List.sublist_append_left _ _
    exact hnodup.sublist hsub
  have hcard : ((chain works.length start { nodes := [start], edges := [] }).edges.map
      Prod.fst).toFinset.card = works.length := by
    rw [c2]
    simp only [List.map_nil, List.toFinset_nil, Finset.empty_union]
    rw [List.toFinset_card_of_nodup, List.length_map, List.length_iterate]
    apply hpre.map
    intro x y hxy
    exact congrArg Prod.fst hxy
  obtain ⟨o1, o2, o3⟩ := overlay_keys [] works
    (chain works.length start { nodes := [start], edges := [] }) c1
    (by
      intro j hj1 hj2
      simp only [List.length_nil, zero_add] at hj1 hj2
      obtain ⟨j1, rfl⟩ : ∃ j1, j = j1 + 1 := ⟨j - 1, by omega⟩
      rw [c2, hg0nodes]
      simp only [List.map_nil, List.toFinset_nil, Finset.empty_union, List.mem_toFinset,
        List.mem_map, List.mem_iterate, Nat.add_sub_cancel]
      refine ⟨NextIndex^[j1] start, ⟨j1, by omega, rfl⟩, ?_⟩
      rw [List.getD_eq_getElem _ _ (by rw [List.length_iterate]; omega),
        List.getD_eq_getElem _ _ (by rw [List.length_iterate]; omega),
        List.getElem_iterate, List.getElem_iterate, Function.iterate_succ_apply'])
  have hasg : assign_nodes_by_works ⟨[], []⟩ works start =
      overlay [] works (chain works.length start { nodes := [start], edges := [] }) := by
    simp [assign_nodes_by_works]
  rw [hasg, length_eq_card_keys _ o1]
  have o4 := Finset.card_le_card o2
  rw [hcard] at o3 o4
  exact ⟨o4, o3⟩


/-- Erasing a key that is not in the map changes nothing. -/
theorem map_erase_of_not_mem (m : List edge_t) (k : link_t)
    (h : ∀ e ∈ m, e.1 ≠ k) : map_erase m k = m := by
  unfold map_erase
  apply List.filter_eq_self.mpr
  intro e he
  simpa using h e he

/-- The entries after `edges[k] = v`: the new entry and the entries under the other keys. -/
theorem assign_perm (m : List edge_t) (k : link_t) (v : indx_t) (hs : keys_sorted m) :
    (map_assign m k v).Perm ((k, v) :: map_erase m k) := by
  induction m with
  | nil => simp [map_assign, map_erase]
  | cons e0 rest ih =>
    obtain ⟨k0, w⟩ := e0
    unfold keys_sorted at hs ih
    obtain ⟨h1, h2⟩ := List.pairwise_cons.mp hs
    have hne : ∀ e ∈ rest, e.1 ≠ k0 := by
      intro e he heq
      have := h1 e he
      rw [heq, link_lt_irrefl] at this
      exact absurd this (by simp)
    by_cases hk : k0 = k
    · subst hk
      have : map_erase ((k0, w) :: rest) k0 = rest := by
        have h3 := map_erase_of_not_mem rest k0 hne
        unfold map_erase at h3 ⊢
        simp [List.filter_cons, h3]
      rw [this]
      simp [map_assign]
    · by_cases hlt : link_lt k k0 = true
      · have : map_erase ((k0, w) :: rest) k = (k0, w) :: rest := by
          apply map_erase_of_not_mem
          intro e he heq
          rcases List.mem_cons.mp he with he | he
          · rw [he] at heq; exact hk heq
          · have h3 := link_lt_trans _ _ _ hlt (h1 e he)
            rw [heq, link_lt_irrefl] at h3
            exact absurd h3 (by simp)
        rw [this]
        simp [map_assign, hk, hlt]
      · have : map_erase ((k0, w) :: rest) k = (k0, w) :: map_erase rest k := by
          unfold map_erase
          simp [List.filter_cons, hk]
        rw [this]
        simp only [map_assign, hk, if_false, hlt]
        exact ((ih h2).cons (k0, w)).trans (List.Perm.swap _ _ _)

/-- The entries after a sequence of assignments. -/
theorem foldl_assign_perm (ops : List edge_t) (m L : List edge_t) (hs : keys_sorted m)
    (hp : m.Perm L) :
    keys_sorted (ops.foldl (fun m e => map_assign m e.1 e.2) m) ∧
    (ops.foldl (fun m e => map_assign m e.1 e.2) m).Perm
      (ops.foldl (fun L e => e :: map_erase L e.1) L) := by
  induction ops generalizing m L with
  | nil => exact ⟨hs, hp⟩
  | cons e ops ih =>
    simp only [List.foldl_cons]
    apply ih _ _ (keys_sorted_assign m e.1 e.2 hs)
    refine (assign_perm m e.1 e.2 hs).trans ?_
    exact (List.Perm.filter _ hp).cons _


/-- C2: for the canonical task list and a start event `e0` whose eight successors
`e1`, ..., `e8` are pairwise distinct, `assign_nodes_by_works` gives the event list
`e0`, ..., `e8` and an arc map whose entries are exactly the eight task arcs and the seven
empty chain arcs of the list below. -/
theorem C2_main_network_arcs (e0 e1 e2 e3 e4 e5 e6 e7 e8 : indx_t)
    (h1 : NextIndex e0 = e1) (h2 : NextIndex e1 = e2) (h3 : NextIndex e2 = e3)
    (h4 : NextIndex e3 = e4) (h5 : NextIndex e4 = e5) (h6 : NextIndex e5 = e6)
    (h7 : NextIndex e6 = e7) (h8 : NextIndex e7 = e8)
    (hd : [e1, e2, e3, e4, e5, e6, e7, e8].Nodup) :
    (assign_nodes_by_works ⟨[], []⟩ main_works e0).nodes =
      [e0, e1, e2, e3, e4, e5, e6, e7, e8] ∧
    (assign_nodes_by_works ⟨[], []⟩ main_works e0).edges.Perm
      [((e0, e1), 49), ((e0, e2), 50), ((e0, e3), 51), ((e1, e4), 52),
        ((e3, e5), 53), ((e3, e6), 54), ((e5, e7), 55), ((e4, e8), 56),
        ((e1, e2), DefaultIndex), ((e2, e3), DefaultIndex), ((e3, e4), DefaultIndex),
          ((e4, e5), DefaultIndex),
        ((e5, e6), DefaultIndex), ((e6, e7), DefaultIndex), ((e7, e8), DefaultIndex)] := by
  have n01 : e0 ≠ e1 := by
    rw [← h1]
    unfold NextIndex indx_t
    omega
  have n02 : e0 ≠ e2 := by
    rw [← h2, ← h1]
    unfold NextIndex indx_t
    omega
  have n03 : e0 ≠ e3 := by
    rw [← h3, ← h2, ← h1]
    unfold NextIndex indx_t
    omega
  have n04 : e0 ≠ e4 := by
    rw [← h4, ← h3, ← h2, ← h1]
    unfold NextIndex indx_t
    omega
  have n05 : e0 ≠ e5 := by
    rw [← h5, ← h4, ← h3, ← h2, ← h1]
    unfold NextIndex indx_t
    omega
  have n06 : e0 ≠ e6 := by
    rw [← h6, ← h5, ← h4, ← h3, ← h2, ← h1]
    unfold NextIndex indx_t
    omega
  have n07 : e0 ≠ e7 := by
    rw [← h7, ← h6, ← h5, ← h4, ← h3, ← h2, ← h1]
    unfold NextIndex indx_t
    omega
  have n08 : e0 ≠ e8 := by
    rw [← h8, ← h7, ← h6, ← h5, ← h4, ← h3, ← h2, ← h1]
    unfold NextIndex indx_t
    omega
  have n12 : e1 ≠ e2 := fun h => by simp [h] at hd
  have n13 : e1 ≠ e3 := fun h => by simp [h] at hd
  have n14 : e1 ≠ e4 := fun h => by simp [h] at hd
  have n15 : e1 ≠ e5 := fun h => by simp [h] at hd
  have n16 : e1 ≠ e6 := fun h => by simp [h] at hd
  have n17 : e1 ≠ e7 := fun h => by simp [h] at hd
  have n18 : e1 ≠ e8 := fun h => by simp [h] at hd
  have n23 : e2 ≠ e3 := fun h => by simp [h] at hd
  have n24 : e2 ≠ e4 := fun h => by simp [h] at hd
  have n25 : e2 ≠ e5 := fun h => by simp [h] at hd
  have n26 : e2 ≠ e6 := fun h => by simp [h] at hd
  have n27 : e2 ≠ e7 := fun h => by simp [h] at hd
  have n28 : e2 ≠ e8 := fun h => by simp [h] at hd
  have n34 : e3 ≠ e4 := fun h => by simp [h] at hd
  have n35 : e3 ≠ e5 := fun h => by simp [h] at hd
  have n36 : e3 ≠ e6 := fun h => by simp [h] at hd
  have n37 : e3 ≠ e7 := fun h => by simp [h] at hd
  have n38 : e3 ≠ e8 := fun h => by simp [h] at hd
  have n45 : e4 ≠ e5 := fun h => by simp [h] at hd
  have n46 : e4 ≠ e6 := fun h => by simp [h] at hd
  have n47 : e4 ≠ e7 := fun h => by simp [h] at hd
  have n48 : e4 ≠ e8 := fun h => by simp [h] at hd
  have n56 : e5 ≠ e6 := fun h => by simp [h] at hd
  have n57 : e5 ≠ e7 := fun h => by simp [h] at hd
  have n58 : e5 ≠ e8 := fun h => by simp [h] at hd
  have n67 : e6 ≠ e7 := fun h => by simp [h] at hd
  have n68 : e6 ≠ e8 := fun h => by simp [h] at hd
  have n78 : e7 ≠ e8 := fun h => by simp [h] at hd
  have hform : (assign_nodes_by_works ⟨[], []⟩ main_works e0).edges =
      List.foldl (fun m e => map_assign m e.1 e.2) []
        [((e0, e1), DefaultIndex), ((e1, e2), DefaultIndex), ((e2, e3), DefaultIndex),
          ((e3, e4), DefaultIndex), ((e4, e5), DefaultIndex), ((e5, e6), DefaultIndex),
          ((e6, e7), DefaultIndex), ((e7, e8), DefaultIndex), ((e0, e1), 49), ((e0, e2), 50),
          ((e0, e3), 51), ((e1, e4), 52), ((e3, e5), 53), ((e3, e6), 54), ((e5, e7), 55),
          ((e4, e8), 56)] := by
    simp [assign_nodes_by_works, chain, overlay, find_i, main_works, h1, h2, h3, h4, h5, h6, h7, h8]
  refine ⟨by simp [assign_nodes, List.iterate, main_works, h1, h2, h3, h4, h5, h6, h7, h8], ?_⟩
  obtain ⟨_, hp⟩ := foldl_assign_perm
    [((e0, e1), DefaultIndex), ((e1, e2), DefaultIndex), ((e2, e3), DefaultIndex),
      ((e3, e4), DefaultIndex), ((e4, e5), DefaultIndex), ((e5, e6), DefaultIndex),
      ((e6, e7), DefaultIndex), ((e7, e8), DefaultIndex), ((e0, e1), 49), ((e0, e2), 50),
      ((e0, e3), 51), ((e1, e4), 52), ((e3, e5), 53), ((e3, e6), 54), ((e5, e7), 55),
      ((e4, e8), 56)]
    [] [] (by simp [keys_sorted]) (List.Perm.refl _)
  rw [hform]
  refine hp.trans ?_
  have hL : List.foldl (fun L e => e :: map_erase L e.1) []
      [((e0, e1), DefaultIndex), ((e1, e2), DefaultIndex), ((e2, e3), DefaultIndex),
        ((e3, e4), DefaultIndex), ((e4, e5), DefaultIndex), ((e5, e6), DefaultIndex),
        ((e6, e7), DefaultIndex), ((e7, e8), DefaultIndex), ((e0, e1), 49), ((e0, e2), 50),
        ((e0, e3), 51), ((e1, e4), 52), ((e3, e5), 53), ((e3, e6), 54), ((e5, e7), 55),
        ((e4, e8), 56)] =
      List.reverse [((e0, e1), 49), ((e0, e2), 50), ((e0, e3), 51), ((e1, e4), 52),
        ((e3, e5), 53), ((e3, e6), 54), ((e5, e7), 55), ((e4, e8), 56)] ++
      List.reverse [((e1, e2), DefaultIndex), ((e2, e3), DefaultIndex), ((e3, e4), DefaultIndex),
        ((e4, e5), DefaultIndex), ((e5, e6), DefaultIndex), ((e6, e7), DefaultIndex),
        ((e7, e8), DefaultIndex)] := by
    simp only [List.foldl_cons, List.foldl_nil, map_erase, List.filter_cons, List.filter_nil,
      Prod.mk.injEq, List.reverse_cons, List.reverse_nil, List.nil_append, List.cons_append,
      List.singleton_append,
      n01, n01.symm, n02, n02.symm, n03, n03.symm, n04, n04.symm, n05, n05.symm, n06, n06.symm,
      n07, n07.symm, n08, n08.symm, n12, n12.symm, n13, n13.symm, n14, n14.symm, n15, n15.symm,
      n16, n16.symm, n17, n17.symm, n18, n18.symm, n23, n23.symm, n24, n24.symm, n25, n25.symm,
      n26, n26.symm, n27, n27.symm, n28, n28.symm, n34, n34.symm, n35, n35.symm, n36, n36.symm,
      n37, n37.symm, n38, n38.symm, n45, n45.symm, n46, n46.symm, n47, n47.symm, n48, n48.symm,
      n56, n56.symm, n57, n57.symm, n58, n58.symm, n67, n67.symm, n68, n68.symm, n78, n78.symm,
      and_self, and_false, false_and, and_true, true_and, decide_True, decide_False, Bool.not_true,
      Bool.not_false, if_true, if_false, Bool.false_eq_true]
  rw [hL]
  exact (List.reverse_perm _).append (List.reverse_perm _)


/-- C2 at the start event `'A'`: the successors `'B'`, ..., `'I'` are pairwise distinct. -/
theorem C2_main_network_arcs_witness :
    [(66 : indx_t), 67, 68, 69, 70, 71, 72, 73].Nodup ∧
    ((assign_nodes_by_works ⟨[], []⟩ main_works 65).nodes =
      [65, 66, 67, 68, 69, 70, 71, 72, 73] ∧
    (assign_nodes_by_works ⟨[], []⟩ main_works 65).edges.Perm
      [((65, 66), 49), ((65, 67), 50), ((65, 68), 51), ((66, 69), 52),
        ((68, 70), 53), ((68, 71), 54), ((70, 72), 55), ((69, 73), 56),
        ((66, 67), DefaultIndex), ((67, 68), DefaultIndex), ((68, 69), DefaultIndex),
        ((69, 70), DefaultIndex), ((70, 71), DefaultIndex), ((71, 72), DefaultIndex),
        ((72, 73), DefaultIndex)]) :=
  ⟨by decide, C2_main_network_arcs 65 66 67 68 69 70 71 72 73 (by decide) (by decide)
    (by decide) (by decide) (by decide) (by decide) (by decide) (by decide) (by decide)⟩

set_option maxRecDepth 100000 in
/-- C7 at task 7 of the canonical list (required `{3, 4, 5}`): the nearest required task
before it is task 5, and the arc from `e5` to `e7` carries the label `'7'`. -/
theorem C7_task_arc_from_nearest_required_witness :
    nearest_required main_works [51, 52, 53] 7 5 ∧
    map_find (assign_nodes_by_works ⟨[], []⟩ main_works 65).edges (70, 72) = some 55 := by
  have hn : nearest_required main_works [51, 52, 53] 7 5 := by
    refine ⟨by decide,
      Or.inr ⟨⟨53, [49, 50, 51], float.of_int 1, float.of_int 4⟩, by decide, by decide⟩,
      ?_⟩
    intro p v hp1 hp2 hpv
    have hp : p = 6 := by omega
    subst hp
    have hv : v = ⟨54, [51], float.of_int 9, float.of_int 13⟩ := by
      have h6 : task_at main_works 6 = some ⟨54, [51], float.of_int 9, float.of_int 13⟩ := by
        decide
      rw [h6] at hpv
      exact (Option.some.inj hpv).symm
    subst hv
    decide
  exact ⟨hn, C7_task_arc_from_nearest_required main_works 65 7 5
    ⟨55, [51, 52, 53], float.of_int 8, float.of_int 12⟩ 70 72 (by decide) (by decide) hn
    (by decide) (by decide)⟩

/-- C8 at the canonical list: nine pairwise distinct events and between 8 and 8 + 6 arcs. -/
theorem C8_event_and_arc_counts_witness :
    (assign_nodes_by_works ⟨[], []⟩ main_works 65).nodes.Nodup ∧
    ((assign_nodes_by_works ⟨[], []⟩ main_works 65).nodes =
      List.iterate NextIndex 65 (main_works.length + 1) ∧
    (assign_nodes_by_works ⟨[], []⟩ main_works 65).nodes.length = main_works.length + 1 ∧
    main_works.length ≤ (assign_nodes_by_works ⟨[], []⟩ main_works 65).edges.length ∧
    (assign_nodes_by_works ⟨[], []⟩ main_works 65).edges.length ≤
      main_works.length + non_chain_tasks [] main_works) :=
  ⟨by decide, C8_event_and_arc_counts main_works 65 (by decide)⟩


/-! ## The cleanup loops and the event list -/

/-- C11: when `optimize` returns, the arc map has no arc from an event to itself. -/
theorem C11_no_self_loop_after_optimize (fuel : Nat) (g g1 : Graph)
    (h : optimize fuel g = some g1) : ∀ e ∈ g1.edges, e.1.1 ≠ e.1.2 := by
  unfold optimize at h
  cases hl : optimize_loop fuel fuel g with
  | none => simp [hl] at h
  | some g2 =>
    simp only [hl, Option.map_some', Option.some.injEq] at h
    subst h
    intro e he
    simp only [cleanup, List.mem_filter] at he
    simpa using he.2

set_option maxRecDepth 100000 in
/-- C11 at the canonical network: `optimize` returns there, and no arc of the result
joins an event to itself. -/
theorem C11_no_self_loop_after_optimize_witness :
    optimize 20 main_graph = some main_optimized ∧
    ∀ e ∈ main_optimized.edges, e.1.1 ≠ e.1.2 :=
  ⟨by decide, C11_no_self_loop_after_optimize 20 main_graph main_optimized (by decide)⟩

/-- The retargeting loop does not touch the event list. -/
theorem retarget_nodes (b c : indx_t) (fuel : Nat) (cur : Option link_t) (g g1 : Graph)
    (h : retarget b c fuel cur g = some g1) : g1.nodes = g.nodes := by
  induction fuel generalizing cur g with
  | zero => simp [retarget] at h
  | succ n ih =>
    cases cur with
    | none =>
      simp only [retarget, Option.some.injEq] at h
      rw [← h]
    | some link =>
      unfold retarget at h
      simp only at h
      split at h
      · exact absurd h (by simp)
      · split at h
        · exact ih _ _ h
        · have := ih _ _ h
          rw [this]
          split <;> rfl

/-- The `for` loop of `optimize` only erases events: the event list it leaves is a
sublist of the one it was given. -/
theorem scan_nodes_sublist (fuel n p : Nat) (g g1 : Graph)
    (h : scan fuel n p g = some g1) : g1.nodes.Sublist g.nodes := by
  induction n generalizing p g with
  | zero =>
    simp only [scan, Option.some.injEq] at h
    rw [← h]
  | succ n ih =>
    unfold scan at h
    split at h
    · simp only at h
      split at h
      · split at h
        · exact absurd h (by simp)
        · rename_i g2 hr
          have h1 := ih _ _ h
          have h2 := retarget_nodes _ _ _ _ _ _ hr
          rw [h2] at h1
          exact h1.trans (List.eraseIdx_sublist _ _)
      · split at h
        · split at h
          · have h1 := ih _ _ h
            exact h1
          · exact ih _ _ h
        · exact ih _ _ h
    · exact absurd h (by simp)

/-- The loop of `optimize` leaves a sublist of the event list. -/
theorem optimize_loop_nodes_sublist (rfuel fuel : Nat) (g g1 : Graph)
    (h : optimize_loop rfuel fuel g = some g1) : g1.nodes.Sublist g.nodes := by
  induction fuel generalizing g with
  | zero => simp [optimize_loop] at h
  | succ n ih =>
    unfold optimize_loop at h
    split at h
    · exact absurd h (by simp)
    · rename_i g2 hs
      have hsub : g2.nodes.Sublist g.nodes := by
        unfold scan_pass at hs
        split at hs
        · exact absurd hs (by simp)
        · exact scan_nodes_sublist _ _ _ _ _ hs
      split at h
      · exact (ih _ h).trans hsub
      · simp only [Option.some.injEq] at h
        rw [← h]
        exact hsub

/-- C12: when `optimize` returns, the event list it leaves is a sublist of the event list
it was given (the same events in the same order, some removed), so it is not longer and
has no duplicates if the given list had none. -/
theorem C12_event_list_is_sublist (fuel : Nat) (g g1 : Graph)
    (h : optimize fuel g = some g1) :
    g1.nodes.Sublist g.nodes ∧ g1.nodes.length ≤ g.nodes.length ∧
      (g.nodes.Nodup → g1.nodes.Nodup) := by
  have hsub : g1.nodes.Sublist g.nodes := by
    unfold optimize at h
    cases hl : optimize_loop fuel fuel g with
    | none => simp [hl] at h
    | some g2 =>
      simp only [hl, Option.map_some', Option.some.injEq] at h
      subst h
      exact (List.filter_sublist _).trans (optimize_loop_nodes_sublist _ _ _ _ hl)
  exact ⟨hsub, hsub.length_le, fun hn => hn.sublist hsub⟩

set_option maxRecDepth 100000 in
/-- C12 at the canonical network: the events `A, B, D, E, G, I` that `optimize` leaves
are a sublist of `A, ..., I`. -/
theorem C12_event_list_is_sublist_witness :
    optimize 20 main_graph = some main_optimized ∧
    (main_optimized.nodes.Sublist main_graph.nodes ∧
      main_optimized.nodes.length ≤ main_graph.nodes.length ∧
      (main_graph.nodes.Nodup → main_optimized.nodes.Nodup)) :=
  ⟨by decide, C12_event_list_is_sublist 20 main_graph main_optimized (by decide)⟩


/-! ## The sentinel and the successor -/

set_option maxRecDepth 100000 in
/-- C14, as stated, fails: with a task whose id is the sentinel `'0'`, `t_max_of` gives
the duration of that task, 5, for the label of an empty arc. -/
theorem C14_sentinel_task_counterexample :
    t_max_of sentinel_work DefaultIndex = float.of_int 5 ∧
    t_max_of sentinel_work DefaultIndex ≠ float.of_int 0 := by
  decide

/-- C14, amended: when no task of the list has the sentinel as its id, `t_max_of` returns 0
for the sentinel label, so an empty arc adds 0 to the sums of `critical_path`. -/
theorem C14_empty_arc_duration_zero (works : List work_t)
    (h : ∀ w ∈ works, w.id ≠ DefaultIndex) :
    t_max_of works DefaultIndex = float.of_int 0 := by
  induction works with
  | nil => rfl
  | cons w rest ih =>
    have hw := h w (List.mem_cons_self _ _)
    simp only [t_max_of, hw, if_false]
    exact ih (fun v hv => h v (List.mem_cons_of_mem _ hv))

/-- C14, amended, at the canonical task list: no task has the id `'0'`. -/
theorem C14_empty_arc_duration_zero_witness :
    (∀ w ∈ main_works, w.id ≠ DefaultIndex) ∧
      t_max_of main_works DefaultIndex = float.of_int 0 :=
  ⟨by decide, C14_empty_arc_duration_zero main_works (by decide)⟩

/-- C15, as stated, fails: from the start id 127 the successor is -128, so the second
event generated for a single task is smaller than the first. -/
theorem C15_wrap_around_counterexample :
    (assign_nodes_by_works ⟨[], []⟩ single_work 127).nodes = [127, -128] ∧
    ¬ ((127 : indx_t) < -128) := by
  decide

/-- Below the largest `char` the successor is the next integer. -/
theorem NextIndex_of_lt (i : indx_t) (h1 : -128 ≤ i) (h2 : i < 127) : NextIndex i = i + 1 := by
  unfold NextIndex indx_t at *
  omega

/-- The events generated from `start` without reaching the largest `char` are in strictly
ascending order. -/
theorem iterate_NextIndex_increasing (n : Nat) (start : indx_t) (h1 : -128 ≤ start)
    (h2 : start + n ≤ 127) :
    (List.iterate NextIndex start (n + 1)).Pairwise (fun x y => x < y) ∧
    ∀ x ∈ List.iterate NextIndex start (n + 1), start ≤ x := by
  induction n generalizing start with
  | zero => simp [List.iterate]
  | succ n ih =>
    have h3 : start < 127 := by
      unfold indx_t at *
      push_cast at h2
      omega
    have hn := NextIndex_of_lt start h1 h3
    obtain ⟨i1, i2⟩ := ih (NextIndex start)
      (by rw [hn]; unfold indx_t at *; omega)
      (by rw [hn]; unfold indx_t at *; push_cast at h2 ⊢; omega)
    rw [List.iterate]
    refine ⟨List.pairwise_cons.mpr ⟨?_, i1⟩, ?_⟩
    · intro x hx
      have := i2 x hx
      rw [hn] at this
      unfold indx_t at *
      omega
    · intro x hx
      rcases List.mem_cons.mp hx with hx | hx
      · rw [hx]
      · have := i2 x hx
        rw [hn] at this
        unfold indx_t at *
        omega

/-- C15, amended: when the start id is a `char` and the `N` successors stay within the
`char` range (`start + N ≤ 127`), every event generated by `assign_nodes_by_works` is
strictly greater than all the events generated before it, hence the event list has no
duplicates. -/
theorem C15_events_increasing_without_wrap (works : List work_t) (start : indx_t)
    (h1 : -128 ≤ start) (h2 : start + works.length ≤ 127) :
    (assign_nodes_by_works ⟨[], []⟩ works start).nodes.Pairwise (fun x y => x < y) ∧
    (assign_nodes_by_works ⟨[], []⟩ works start).nodes.Nodup := by
  rw [assign_nodes]
  have h := (iterate_NextIndex_increasing works.length start h1 h2).1
  refine ⟨h, ?_⟩
  unfold List.Nodup
  exact h.imp (fun hxy => ne_of_lt hxy)

/-- C15, amended, at the canonical list with start `'A'`. -/
theorem C15_events_increasing_without_wrap_witness :
    (-128 ≤ (65 : indx_t) ∧ (65 : indx_t) + main_works.length ≤ 127) ∧
    ((assign_nodes_by_works ⟨[], []⟩ main_works 65).nodes.Pairwise (fun x y => x < y) ∧
    (assign_nodes_by_works ⟨[], []⟩ main_works 65).nodes.Nodup) :=
  ⟨by decide, C15_events_increasing_without_wrap main_works 65 (by decide) (by decide)⟩

set_option maxRecDepth 100000 in
/-- C16: on the network of four tasks without prerequisites the arc `('A','D')` carries
task 3; `optimize` returns the arcs `('A','B') = 1`, `('A','E') = 4`, `('B','E') = 2`,
and no arc carries task 3 any more. -/
theorem C16_task_lost_by_optimize :
    map_find (assign_nodes_by_works ⟨[], []⟩ free_works 65).edges (65, 68) = some 51 ∧
    optimize 20 (assign_nodes_by_works ⟨[], []⟩ free_works 65) =
      some ⟨[65, 66, 69], [((65, 66), 49), ((65, 69), 52), ((66, 69), 50)]⟩ ∧
    ∀ e ∈ [((65, 66), 49), ((65, 69), 52), ((66, 69), (50 : indx_t))], e.2 ≠ (51 : indx_t) := by
  decide

/-- C17: on the network built from two tasks without prerequisites with the default start
event (the sentinel `'0'`), the event `'0'` has the labelled arc to `'1'` and an arc to
`'2'`, and `shared_parent` returns the sentinel for `'1'` and `'2'`. -/
theorem C17_shared_parent_is_sentinel :
    assign_nodes_by_works ⟨[], []⟩ two_free_works DefaultIndex =
      ⟨[48, 49, 50], [((48, 49), 49), ((48, 50), 50), ((49, 50), 48)]⟩ ∧
    edge_exists (assign_nodes_by_works ⟨[], []⟩ two_free_works DefaultIndex) (48, 49) = true ∧
    edge_empty (assign_nodes_by_works ⟨[], []⟩ two_free_works DefaultIndex) (48, 49) = false ∧
    edge_exists (assign_nodes_by_works ⟨[], []⟩ two_free_works DefaultIndex) (48, 50) = true ∧
    shared_parent (assign_nodes_by_works ⟨[], []⟩ two_free_works DefaultIndex) 49 50 =
      DefaultIndex := by
  decide


/-! ## The retargeting loop -/

/-- The retargeting loop, one iteration unfolded. -/
theorem retarget_succ (b c : indx_t) (fuel : Nat) (link : link_t) (g : Graph) :
    retarget b c (fuel + 1) (some link) g =
      match map_find g.edges link with
      | none => none
      | some work_id =>
        retarget b c fuel (map_next g.edges link) (retarget_step b c link work_id g) := by
  rw [retarget]
  unfold retarget_step
  cases map_find g.edges link with
  | none => rfl
  | some w =>
    simp only
    split <;> rfl

/-- More fuel does not change what the retargeting loop returns. -/
theorem retarget_mono (b c : indx_t) (fuel : Nat) (cur : Option link_t) (g g1 : Graph)
    (h : retarget b c fuel cur g = some g1) : retarget b c (fuel + 1) cur g = some g1 := by
  induction fuel generalizing cur g with
  | zero => simp [retarget] at h
  | succ n ih =>
    cases cur with
    | none =>
      simp only [retarget] at h ⊢
      exact h
    | some link =>
      rw [retarget_succ] at h ⊢
      cases hf : map_find g.edges link with
      | none => simp [hf] at h
      | some w =>
        simp only [hf] at h ⊢
        exact ih _ _ h

/-- More fuel, in any amount, does not change what the retargeting loop returns. -/
theorem retarget_mono_le (b c : indx_t) (fuel fuel1 : Nat) (cur : Option link_t) (g g1 : Graph)
    (h : retarget b c fuel cur g = some g1) (hle : fuel ≤ fuel1) :
    retarget b c fuel1 cur g = some g1 := by
  induction hle with
  | refl => exact h
  | step _ ih => exact retarget_mono _ _ _ _ _ _ ih

/-- More fuel for the retargeting loop does not change what a pass of `optimize` returns. -/
theorem scan_mono (fuel fuel1 n p : Nat) (g g1 : Graph) (hle : fuel ≤ fuel1)
    (h : scan fuel n p g = some g1) : scan fuel1 n p g = some g1 := by
  induction n generalizing p g with
  | zero => simpa [scan] using h
  | succ n ih =>
    unfold scan at h ⊢
    split
    · rename_i a b c ha hb hc
      simp only [ha, hb, hc] at h
      simp only at h ⊢
      split
      · rename_i hcond
        simp only [hcond, if_true] at h
        split at h
        · exact absurd h (by simp)
        · rename_i g2 hr
          rw [retarget_mono_le _ _ _ _ _ _ _ hr hle]
          exact ih _ _ h
      · rename_i hcond
        simp only [hcond] at h
        split
        · rename_i hcond2
          simp only [hcond2, if_true] at h
          split
          · rename_i hcond3
            simp only [hcond3, if_true] at h
            exact ih _ _ h
          · rename_i hcond3
            simp only [hcond3] at h
            exact ih _ _ h
        · rename_i hcond2
          simp only [hcond2] at h
          exact ih _ _ h
    · rename_i hno
      split at h
      · rename_i a b c ha hb hc
        exact absurd hc (hno a b c ha hb)
      · exact absurd h (by simp)

/-- More fuel for the retargeting loop does not change what a whole pass returns. -/
theorem scan_pass_mono (fuel fuel1 : Nat) (g g1 : Graph) (hle : fuel ≤ fuel1)
    (h : scan_pass fuel g = some g1) : scan_pass fuel1 g = some g1 := by
  unfold scan_pass at h ⊢
  split
  · rename_i hlen
    simp [hlen] at h
  · rename_i hlen
    simp only [hlen, if_false] at h
    exact scan_mono _ _ _ _ _ _ hle h

/-- A pass that gives back the network it was given does so with any fuel that lets it
return. -/
theorem scan_pass_fixed (r0 rfuel : Nat) (g g1 : Graph) (h0 : scan_pass r0 g = some g)
    (h1 : scan_pass rfuel g = some g1) : g1 = g := by
  have a := scan_pass_mono r0 (max r0 rfuel) g g (le_max_left _ _) h0
  have b := scan_pass_mono rfuel (max r0 rfuel) g g1 (le_max_right _ _) h1
  rw [a] at b
  exact (Option.some.inj b).symm

/-- With two events the `for` loop of `optimize` has no interior event to examine. -/
theorem scan_pass_two_events (rfuel : Nat) (g : Graph) (h : g.nodes.length = 2) :
    scan_pass rfuel g = some g := by
  simp [scan_pass, h, scan]

/-- C19: if a pass of the loop of `optimize` gives back the network it was given, every
later pass does the same and `optimize` never returns; this is so for every network
with exactly two events, and the network built from a single task has two events. -/
theorem C19_unchanged_pass_loops_forever (g : Graph) :
    (∀ r0, scan_pass r0 g = some g →
      (∀ rfuel g1, scan_pass rfuel g = some g1 → g1 = g) ∧
      (∀ rfuel fuel, optimize_loop rfuel fuel g = none) ∧
      ∀ fuel, optimize fuel g = none) ∧
    (g.nodes.length = 2 →
      (∀ rfuel, scan_pass rfuel g = some g) ∧ ∀ fuel, optimize fuel g = none) ∧
    ∀ (w : work_t) (start : indx_t),
      (assign_nodes_by_works ⟨[], []⟩ [w] start).nodes.length = 2 := by
  have key : ∀ r0, scan_pass r0 g = some g → ∀ rfuel fuel, optimize_loop rfuel fuel g = none := by
    intro r0 h0 rfuel fuel
    induction fuel with
    | zero => rfl
    | succ n ih =>
      unfold optimize_loop
      cases hs : scan_pass rfuel g with
      | none => rfl
      | some g1 =>
        have := scan_pass_fixed r0 rfuel g g1 h0 hs
        subst this
        simp [ih]
  refine ⟨?_, ?_, ?_⟩
  · intro r0 h0
    refine ⟨fun rfuel g1 h1 => scan_pass_fixed r0 rfuel g g1 h0 h1, key r0 h0, ?_⟩
    intro fuel
    simp [optimize, key r0 h0 fuel fuel]
  · intro h2
    refine ⟨fun rfuel => scan_pass_two_events rfuel g h2, ?_⟩
    intro fuel
    simp [optimize, key 0 (scan_pass_two_events 0 g h2) fuel fuel]
  · intro w start
    rw [assign_nodes]
    simp

/-- C19 at the network built from one task: it has two events, a pass gives it back, and
`optimize` never returns. -/
theorem C19_unchanged_pass_loops_forever_witness :
    (assign_nodes_by_works ⟨[], []⟩ single_work 65).nodes.length = 2 ∧
    ((∀ rfuel, scan_pass rfuel (assign_nodes_by_works ⟨[], []⟩ single_work 65) =
        some (assign_nodes_by_works ⟨[], []⟩ single_work 65)) ∧
      ∀ fuel, optimize fuel (assign_nodes_by_works ⟨[], []⟩ single_work 65) = none) :=
  ⟨by decide,
    (C19_unchanged_pass_loops_forever (assign_nodes_by_works ⟨[], []⟩ single_work 65)).2.1
      (by decide)⟩


/-- The arcs after one iteration of the retargeting loop, by lookup. -/
theorem retarget_step_find (b c : indx_t) (link : link_t) (w : indx_t) (g : Graph)
    (k : link_t) :
    map_find (retarget_step b c link w g).edges k =
      match retarget_target b c link with
      | none => map_find g.edges k
      | some nl =>
        if link = k then none
        else if nl = k ∧ (map_find g.edges nl = none ∨ map_find g.edges nl = some DefaultIndex)
          then some w
        else map_find g.edges k := by
  unfold retarget_step retarget_target
  simp only
  split
  · rfl
  · rename_i nl _
    by_cases hfree : map_find g.edges nl = none ∨ map_find g.edges nl = some DefaultIndex
    · have hc : (!edge_exists g nl || edge_empty g nl) = true := by
        rcases hfree with h | h <;> simp [edge_exists, edge_empty, h]
      simp only [hc, if_true, map_find_erase, map_find_assign, hfree, and_true]
    · have hc : ¬ (!edge_exists g nl || edge_empty g nl) = true := by
        intro hh
        apply hfree
        cases hf : map_find g.edges nl with
        | none => exact Or.inl rfl
        | some v =>
          right
          simpa [edge_exists, edge_empty, hf] using hh
      simp [hc, map_find_erase, hfree]

/-- One iteration of the retargeting loop leaves the event list alone. -/
theorem retarget_step_nodes (b c : indx_t) (link : link_t) (w : indx_t) (g : Graph) :
    (retarget_step b c link w g).nodes = g.nodes := by
  unfold retarget_step
  simp only
  split
  · rfl
  · split <;> rfl

/-- Removal keeps the keys of the arc map in ascending order. -/
theorem keys_sorted_erase (m : List edge_t) (k : link_t) (h : keys_sorted m) :
    keys_sorted (map_erase m k) :=
  List.Pairwise.filter _ h

/-- One iteration of the retargeting loop keeps the keys in ascending order. -/
theorem retarget_step_sorted (b c : indx_t) (link : link_t) (w : indx_t) (g : Graph)
    (h : keys_sorted g.edges) : keys_sorted (retarget_step b c link w g).edges := by
  unfold retarget_step
  simp only
  split
  · exact h
  · split
    · exact keys_sorted_erase _ _ (keys_sorted_assign _ _ _ h)
    · exact keys_sorted_erase _ _ h

/-- An invariant of the iterations holds when the retargeting loop returns. -/
theorem retarget_induct (b c : indx_t) (P : Option link_t → Graph → Prop)
    (hstep : ∀ link w g, P (some link) g → map_find g.edges link = some w →
      P (map_next g.edges link) (retarget_step b c link w g))
    (fuel : Nat) (cur : Option link_t) (g g1 : Graph) (h0 : P cur g)
    (h : retarget b c fuel cur g = some g1) : P none g1 := by
  induction fuel generalizing cur g with
  | zero => simp [retarget] at h
  | succ n ih =>
    cases cur with
    | none =>
      simp only [retarget, Option.some.injEq] at h
      rw [← h]
      exact h0
    | some link =>
      rw [retarget_succ] at h
      cases hf : map_find g.edges link with
      | none => simp [hf] at h
      | some w =>
        simp only [hf] at h
        exact ih _ _ (hstep link w g h0 hf) h

/-- The iterator increment gives a key of the map that lies after `k`. -/
theorem map_next_some (m : List edge_t) (k n : link_t) (h : map_next m k = some n) :
    link_lt k n = true ∧ (map_find m n).isSome = true := by
  unfold map_next at h
  cases hf : m.find? (fun e => link_lt k e.1) with
  | none => simp [hf] at h
  | some e =>
    simp only [hf, Option.map_some', Option.some.injEq] at h
    subst h
    have h1 := List.find?_some hf
    have h2 := List.mem_of_find?_eq_some hf
    refine ⟨h1, ?_⟩
    rw [← mem_keys_iff]
    exact List.mem_map_of_mem _ h2

/-- In a map with ascending keys the iterator increment skips no key. -/
theorem map_next_least (m : List edge_t) (hs : keys_sorted m) (k n k1 : link_t)
    (h : map_next m k = some n) (h1 : (map_find m k1).isSome = true)
    (h2 : link_lt k k1 = true) : link_lt k1 n = false := by
  unfold map_next at h
  cases hf : m.find? (fun e => link_lt k e.1) with
  | none => simp [hf] at h
  | some e =>
    simp only [hf, Option.map_some', Option.some.injEq] at h
    subst h
    obtain ⟨_, as, bs, hm, has⟩ := List.find?_eq_some.mp hf
    rw [← mem_keys_iff] at h1
    obtain ⟨e1, he1, hk1⟩ := List.mem_map.mp h1
    subst hk1
    rw [hm] at he1 hs
    rcases List.mem_append.mp he1 with hin | hin
    · have := has e1 hin
      simp [h2] at this
    · rcases List.mem_cons.mp hin with hin | hin
      · rw [hin]; exact link_lt_irrefl _
      · unfold keys_sorted at hs
        have hp := (List.pairwise_append.mp hs).2.1
        have := (List.pairwise_cons.mp hp).1 e1 hin
        cases hlt : link_lt e1.1 e.1 with
        | false => rfl
        | true =>
          have := link_lt_trans _ _ _ this hlt
          rw [link_lt_irrefl] at this
          exact absurd this (by simp)

/-- At the end of the map no key lies after `k`. -/
theorem map_next_none (m : List edge_t) (k k1 : link_t) (h : map_next m k = none)
    (h1 : (map_find m k1).isSome = true) : link_lt k k1 = false := by
  unfold map_next at h
  cases hf : m.find? (fun e => link_lt k e.1) with
  | some e => simp [hf] at h
  | none =>
    rw [← mem_keys_iff] at h1
    obtain ⟨e1, he1, hk1⟩ := List.mem_map.mp h1
    subst hk1
    have := List.find?_eq_none.mp hf e1 he1
    simpa using this

/-- A key at or after the iterator that is not the current key is not passed by the
increment, in a map with ascending keys. -/
theorem not_passed_next (m : List edge_t) (hs : keys_sorted m) (link k : link_t)
    (h1 : (map_find m k).isSome = true) (h2 : ¬ passed (some link) k) (h3 : k ≠ link) :
    ¬ passed (map_next m link) k := by
  have hlt : link_lt link k = true := by
    apply link_lt_total k link _ (Ne.symm h3)
    simpa [passed] using h2
  cases hn : map_next m link with
  | none =>
    have := map_next_none m link k hn h1
    rw [hlt] at this
    exact absurd this (by simp)
  | some n =>
    have := map_next_least m hs link n k hn h1 hlt
    simp [passed, this]

/-- A key the iterator has passed stays passed. -/
theorem passed_next (m : List edge_t) (link k : link_t)
    (h : passed (some link) k ∨ k = link) : passed (map_next m link) k := by
  cases hn : map_next m link with
  | none => simp [passed]
  | some n =>
    have h1 := (map_next_some m link n hn).1
    rcases h with h | h
    · exact link_lt_trans _ _ _ h h1
    · rw [h]; exact h1


/-- An arc that neither touches `b` nor is a self-loop is passed over. -/
theorem retarget_target_none (b c : indx_t) (k : link_t) (h1 : k.1 ≠ b) (h2 : k.2 ≠ b)
    (h3 : k.1 ≠ k.2) : retarget_target b c k = none := by
  have h4 : k.2 ≠ k.1 := fun h => h3 h.symm
  simp [retarget_target, h1, h2, h4]

/-- The new key of an arc has its endpoints among those of the arc and `c`. -/
theorem retarget_target_cases (b c : indx_t) (link nl : link_t)
    (h : retarget_target b c link = some nl) :
    (link.1 = b ∧ nl = (c, link.2)) ∨ (link.1 ≠ b ∧ link.2 = b ∧ nl = (link.1, c)) ∨
      (link.1 ≠ b ∧ link.2 ≠ b ∧ link.2 = link.1 ∧ nl = link) := by
  unfold retarget_target at h
  by_cases h1 : link.1 = b
  · simp only [h1, if_true, Option.some.injEq] at h
    exact Or.inl ⟨h1, h.symm⟩
  · by_cases h2 : link.2 = b
    · simp only [h1, if_false, h2, if_true, Option.some.injEq] at h
      exact Or.inr (Or.inl ⟨h1, h2, h.symm⟩)
    · by_cases h3 : link.2 = link.1
      · simp only [h1, if_false, h2, h3, if_true, Option.some.injEq] at h
        exact Or.inr (Or.inr ⟨h1, h2, h3, h.symm⟩)
      · simp [h1, h2, h3] at h

/-- An arc that neither touches `b` nor is a self-loop is still there after an iteration
of the retargeting loop. -/
theorem retarget_step_persist (b c : indx_t) (link : link_t) (w : indx_t) (g : Graph)
    (k : link_t) (h1 : k.1 ≠ b) (h2 : k.2 ≠ b) (h3 : k.1 ≠ k.2)
    (h : (map_find g.edges k).isSome = true) :
    (map_find (retarget_step b c link w g).edges k).isSome = true := by
  rw [retarget_step_find]
  cases ht : retarget_target b c link with
  | none => exact h
  | some nl =>
    simp only
    have hne : link ≠ k := by
      intro heq
      rw [heq, retarget_target_none b c k h1 h2 h3] at ht
      exact absurd ht (by simp)
    simp only [hne, if_false]
    split
    · rfl
    · exact h

/-- Any key other than the current one that is in the map is still there after an
iteration of the retargeting loop. -/
theorem retarget_step_keeps (b c : indx_t) (link : link_t) (w : indx_t) (g : Graph)
    (k : link_t) (hne : link ≠ k) (h : (map_find g.edges k).isSome = true) :
    (map_find (retarget_step b c link w g).edges k).isSome = true := by
  rw [retarget_step_find]
  cases ht : retarget_target b c link with
  | none => exact h
  | some nl =>
    simp only [hne, if_false]
    split
    · rfl
    · exact h

/-- A key of the map after an iteration is a key of the map before it or the new key. -/
theorem retarget_step_key_cases (b c : indx_t) (link : link_t) (w : indx_t) (g : Graph)
    (k : link_t) (h : (map_find (retarget_step b c link w g).edges k).isSome = true) :
    (link ≠ k ∧ (map_find g.edges k).isSome = true) ∨
      (link ≠ k ∧ retarget_target b c link = some k ∧ map_find g.edges k = none) ∨
      (retarget_target b c link = none ∧ (map_find g.edges k).isSome = true) := by
  rw [retarget_step_find] at h
  cases ht : retarget_target b c link with
  | none =>
    rw [ht] at h
    exact Or.inr (Or.inr ⟨rfl, h⟩)
  | some nl =>
    rw [ht] at h
    simp only at h
    by_cases hne : link = k
    · simp [hne] at h
    · simp only [hne, if_false] at h
      by_cases hnl : nl = k
      · subst hnl
        cases hf : map_find g.edges nl with
        | none => exact Or.inr (Or.inl ⟨hne, rfl, rfl⟩)
        | some v => exact Or.inl ⟨hne, by simp⟩
      · simp only [hnl, false_and, if_false] at h
        exact Or.inl ⟨hne, h⟩

/-- An arc that neither touches `b` nor is a self-loop is still there when the
retargeting loop returns. -/
theorem retarget_persist (b c : indx_t) (fuel : Nat) (cur : Option link_t) (g g1 : Graph)
    (k : link_t) (h1 : k.1 ≠ b) (h2 : k.2 ≠ b) (h3 : k.1 ≠ k.2)
    (h : (map_find g.edges k).isSome = true) (hr : retarget b c fuel cur g = some g1) :
    (map_find g1.edges k).isSome = true :=
  retarget_induct b c (fun _ g => (map_find g.edges k).isSome = true)
    (fun link w g hg _ => retarget_step_persist b c link w g k h1 h2 h3 hg) fuel cur g g1 h hr

/-- The keys stay in ascending order through the retargeting loop. -/
theorem retarget_sorted (b c : indx_t) (fuel : Nat) (cur : Option link_t) (g g1 : Graph)
    (h : keys_sorted g.edges) (hr : retarget b c fuel cur g = some g1) :
    keys_sorted g1.edges :=
  retarget_induct b c (fun _ g => keys_sorted g.edges)
    (fun link w g hg _ => retarget_step_sorted b c link w g hg) fuel cur g g1 h hr

/-- The endpoints of the arcs stay within any set of events that holds `c`. -/
theorem retarget_endpoints (b c : indx_t) (S : indx_t → Prop) (hc : S c) (fuel : Nat)
    (cur : Option link_t) (g g1 : Graph)
    (h : ∀ k, (map_find g.edges k).isSome = true → S k.1 ∧ S k.2)
    (hr : retarget b c fuel cur g = some g1) :
    ∀ k, (map_find g1.edges k).isSome = true → S k.1 ∧ S k.2 := by
  refine retarget_induct b c
    (fun _ g => ∀ k, (map_find g.edges k).isSome = true → S k.1 ∧ S k.2) ?_ fuel cur g g1 h hr
  intro link w g hg hf k hk
  have hlink := hg link (by simp [hf])
  rcases retarget_step_key_cases b c link w g k hk with ⟨_, h1⟩ | ⟨_, h1, _⟩ | ⟨_, h1⟩
  · exact hg k h1
  · rcases retarget_target_cases b c link k h1 with ⟨_, h2⟩ | ⟨_, _, h2⟩ | ⟨_, _, _, h2⟩
    · rw [h2]; exact ⟨hc, hlink.2⟩
    · rw [h2]; exact ⟨hlink.1, hc⟩
    · rw [h2]; exact hlink
  · exact hg k h1

/-- No key of a map with ascending keys lies before the first one. -/
theorem not_passed_head (m : List edge_t) (hs : keys_sorted m) (k : link_t)
    (h : (map_find m k).isSome = true) : ¬ passed (m.head?.map Prod.fst) k := by
  cases m with
  | nil => simp [map_find] at h
  | cons e rest =>
    simp only [List.head?_cons, Option.map_some', passed]
    rw [← mem_keys_iff] at h
    rcases List.mem_cons.mp h with h | h
    · rw [h]
      simp [link_lt_irrefl]
    · obtain ⟨e1, he1, hk⟩ := List.mem_map.mp h
      have := (List.pairwise_cons.mp hs).1 e1 he1
      rw [hk] at this
      intro hcon
      have := link_lt_trans _ _ _ this hcon
      rw [link_lt_irrefl] at this
      exact absurd this (by simp)


/-- An arc `s` of the map whose new key `t` neither touches `b` nor is a self-loop leaves an
arc at `t` when the retargeting loop returns. -/
theorem retarget_moves (b c : indx_t) (fuel : Nat) (g g1 : Graph) (s t : link_t)
    (hs : keys_sorted g.edges) (ht : retarget_target b c s = some t) (hne : s ≠ t)
    (t1 : t.1 ≠ b) (t2 : t.2 ≠ b) (t3 : t.1 ≠ t.2)
    (hmem : (map_find g.edges s).isSome = true)
    (hr : retarget b c fuel (g.edges.head?.map Prod.fst) g = some g1) :
    (map_find g1.edges t).isSome = true := by
  have key := retarget_induct b c
    (fun cur g => keys_sorted g.edges ∧ ((map_find g.edges t).isSome = true ∨
      ((map_find g.edges s).isSome = true ∧ ¬ passed cur s))) ?_ fuel _ g g1
    ⟨hs, Or.inr ⟨hmem, not_passed_head g.edges hs s hmem⟩⟩ hr
  · rcases key.2 with h | ⟨_, h⟩
    · exact h
    · exact absurd trivial h
  · intro link w g ⟨hsg, hg⟩ hf
    refine ⟨retarget_step_sorted b c link w g hsg, ?_⟩
    by_cases htm : (map_find g.edges t).isSome = true
    · exact Or.inl (retarget_step_persist b c link w g t t1 t2 t3 htm)
    · rcases hg with hg | ⟨hg1, hg2⟩
      · exact absurd hg htm
      · by_cases hls : link = s
        · left
          subst hls
          rw [retarget_step_find, ht]
          have hnone : map_find g.edges t = none := by
            cases hh : map_find g.edges t with
            | none => rfl
            | some v => simp [hh] at htm
          simp [hne, hnone]
        · right
          refine ⟨retarget_step_keeps b c link w g s hls hg1, ?_⟩
          exact not_passed_next g.edges hsg link s hg1 hg2 (fun h => hls h.symm)

/-- When the retargeting loop returns, no arc has `b` as an endpoint, provided the map had
no arc `(b, b)`, or `b < c` and the map had the arc `(b, c)`. -/
theorem retarget_no_touch (b c : indx_t) (fuel : Nat) (g g1 : Graph)
    (hs : keys_sorted g.edges) (hbc : b ≠ c)
    (halt : map_find g.edges (b, b) = none ∨
      (b < c ∧ (map_find g.edges (b, c)).isSome = true))
    (hr : retarget b c fuel (g.edges.head?.map Prod.fst) g = some g1) :
    ∀ k : link_t, (k.1 = b ∨ k.2 = b) → map_find g1.edges k = none := by
  have key := retarget_induct b c
    (fun cur g => keys_sorted g.edges ∧
      (∀ k : link_t, (k.1 = b ∨ k.2 = b) → (map_find g.edges k).isSome = true → ¬ passed cur k) ∧
      (map_find g.edges (b, b) = none ∨
        (b < c ∧ ((map_find g.edges (b, c)).isSome = true ∨ passed cur (b, c)))))
    ?_ fuel _ g g1
    ⟨hs, fun k _ hk => not_passed_head g.edges hs k hk, by
      rcases halt with h | ⟨h1, h2⟩
      · exact Or.inl h
      · exact Or.inr ⟨h1, Or.inl h2⟩⟩ hr
  · intro k hk
    cases hf : map_find g1.edges k with
    | none => rfl
    | some v => exact absurd trivial (key.2.1 k hk (by simp [hf]))
  · intro link w g ⟨hsg, hK, hA⟩ hf
    have hlinkmem : (map_find g.edges link).isSome = true := by simp [hf]
    refine ⟨retarget_step_sorted b c link w g hsg, ?_, ?_⟩
    · intro k hk hkm
      rcases retarget_step_key_cases b c link w g k hkm with ⟨h1, h2⟩ | ⟨h1, h2, h3⟩ | ⟨h1, h2⟩
      · exact not_passed_next g.edges hsg link k h2 (hK k hk h2) (fun h => h1 h.symm)
      · rcases retarget_target_cases b c link k h2 with ⟨c1, c2⟩ | ⟨c1, c2, c3⟩ | ⟨c1, c2, c3, c4⟩
        · have hl2 : link.2 = b := by
            rw [c2] at hk
            rcases hk with hk | hk
            · exact absurd hk.symm hbc
            · exact hk
          have hlink : link = (b, b) := Prod.ext c1 hl2
          rcases hA with hA | ⟨hlt, hA⟩
          · rw [hlink, hA] at hf
            exact absurd hf (by simp)
          · have hbcmem : (map_find g.edges (b, c)).isSome = true := by
              rcases hA with hA | hA
              · exact hA
              · rw [hlink] at hA
                simp only [passed, link_lt, lt_self_iff_false, decide_False, decide_True,
                  Bool.true_and, Bool.false_or, decide_eq_true_eq] at hA
                exact absurd hA (not_lt.mpr (le_of_lt hlt))
            have hlt1 : link_lt link (b, c) = true := by
              rw [hlink]
              simp [link_lt, hlt]
            have hlt2 : link_lt (b, c) k = true := by
              rw [c2, hl2]
              simp [link_lt, hlt]
            cases hn : map_next g.edges link with
            | none =>
              have := map_next_none g.edges link (b, c) hn hbcmem
              rw [hlt1] at this
              exact absurd this (by simp)
            | some n =>
              have h5 := map_next_least g.edges hsg link n (b, c) hn hbcmem hlt1
              simp only [passed]
              intro hcon
              have := link_lt_trans _ _ _ hlt2 hcon
              rw [h5] at this
              exact absurd this (by simp)
        · rw [c3] at hk
          rcases hk with hk | hk
          · exact absurd hk c1
          · exact absurd hk.symm hbc
        · rw [c4] at hk
          rcases hk with hk | hk
          · exact absurd hk c1
          · exact absurd hk c2
      · have hne : k ≠ link := by
          intro heq
          rw [heq] at hk
          unfold retarget_target at h1
          rcases hk with hk | hk
          · simp [hk] at h1
          · by_cases hk1 : link.1 = b
            · simp [hk1] at h1
            · simp [hk1, hk] at h1
        exact not_passed_next g.edges hsg link k h2 (hK k hk h2) hne
    · rcases hA with hA | ⟨hlt, hA⟩
      · left
        cases hbb : map_find (retarget_step b c link w g).edges (b, b) with
        | none => rfl
        | some v =>
          have hsome : (map_find (retarget_step b c link w g).edges (b, b)).isSome = true := by
            simp [hbb]
          rcases retarget_step_key_cases b c link w g (b, b) hsome with
            ⟨_, h2⟩ | ⟨_, h2, _⟩ | ⟨_, h2⟩
          · rw [hA] at h2
            exact absurd h2 (by simp)
          · rcases retarget_target_cases b c link (b, b) h2 with
              ⟨_, c2⟩ | ⟨_, _, c3⟩ | ⟨c1, _, _, c4⟩
            · exact absurd (congrArg Prod.fst c2) hbc
            · exact absurd (congrArg Prod.snd c3) hbc
            · exact absurd (congrArg Prod.fst c4).symm c1
          · rw [hA] at h2
            exact absurd h2 (by simp)
      · right
        refine ⟨hlt, ?_⟩
        rcases hA with hA | hA
        · by_cases hl : link = (b, c)
          · exact Or.inr (passed_next g.edges link (b, c) (Or.inr hl.symm))
          · exact Or.inl (retarget_step_keeps b c link w g (b, c) hl hA)
        · exact Or.inr (passed_next g.edges link (b, c) (Or.inl hA))


/-- The endpoints of the arcs stay within a set of events that holds `c`, through one
iteration of the retargeting loop. -/
theorem retarget_step_endpoints (b c : indx_t) (S : indx_t → Prop) (hc : S c)
    (link : link_t) (w : indx_t) (g : Graph)
    (hg : ∀ k, (map_find g.edges k).isSome = true → S k.1 ∧ S k.2)
    (hf : map_find g.edges link = some w) :
    ∀ k, (map_find (retarget_step b c link w g).edges k).isSome = true → S k.1 ∧ S k.2 := by
  intro k hk
  have hlink := hg link (by simp [hf])
  rcases retarget_step_key_cases b c link w g k hk with ⟨_, h1⟩ | ⟨_, h1, _⟩ | ⟨_, h1⟩
  · exact hg k h1
  · rcases retarget_target_cases b c link k h1 with ⟨_, h2⟩ | ⟨_, _, h2⟩ | ⟨_, _, _, h2⟩
    · rw [h2]; exact ⟨hc, hlink.2⟩
    · rw [h2]; exact ⟨hlink.1, hc⟩
    · rw [h2]; exact hlink
  · exact hg k h1

/-- The iterator increment lowers the measure. -/
theorem cursor_measure_next (U : List link_t) (m : List edge_t) (link : link_t)
    (hU : link ∈ U) : cursor_measure U (map_next m link) < cursor_measure U (some link) := by
  have hpos : 0 < cursor_measure U (some link) := by
    apply List.length_pos_of_mem (a := link)
    simp [List.mem_filter, hU, link_lt_irrefl]
  cases hn : map_next m link with
  | none => exact hpos
  | some n =>
    have hlt := (map_next_some m link n hn).1
    simp only [cursor_measure]
    have hsub : (U.filter fun u => !link_lt u n) =
        ((U.filter fun u => !link_lt u link).filter fun u => !link_lt u n) := by
      rw [List.filter_filter]
      apply List.filter_congr
      intro u _
      cases h1 : link_lt u n with
      | true => simp
      | false =>
        cases h2 : link_lt u link with
        | false => simp
        | true =>
          have := link_lt_trans _ _ _ h2 hlt
          rw [h1] at this
          exact absurd this (by simp)
    rw [hsub]
    apply List.length_filter_lt_length_iff_exists.mpr
    refine ⟨link, ?_, ?_⟩
    · simp [List.mem_filter, hU, link_lt_irrefl]
    · simp [hlt]

/-- The retargeting loop returns when the fuel exceeds the measure of its start. -/
theorem retarget_returns (b c : indx_t) (S : List indx_t) (hc : c ∈ S) (fuel : Nat) :
    ∀ (cur : Option link_t) (g : Graph),
      (∀ k, (map_find g.edges k).isSome = true → k.1 ∈ S ∧ k.2 ∈ S) →
      (∀ l, cur = some l → (map_find g.edges l).isSome = true) →
      cursor_measure (List.product S S) cur < fuel →
      ∃ g1, retarget b c fuel cur g = some g1 := by
  induction fuel with
  | zero => intro cur g _ _ h; exact absurd h (by simp)
  | succ n ih =>
    intro cur g hend hcur hm
    cases cur with
    | none => exact ⟨g, rfl⟩
    | some link =>
      have hl := hcur link rfl
      obtain ⟨w, hw⟩ := Option.isSome_iff_exists.mp hl
      rw [retarget_succ, hw]
      simp only
      have hU : link ∈ List.product S S := by
        have := hend link hl
        exact List.mem_product.mpr this
      apply ih
      · exact retarget_step_endpoints b c (fun x => x ∈ S) hc link w g hend hw
      · intro l hnl
        obtain ⟨h1, h2⟩ := map_next_some g.edges link l hnl
        apply retarget_step_keeps b c link w g l _ h2
        intro heq
        rw [heq, link_lt_irrefl] at h1
        exact absurd h1 (by simp)
      · have := cursor_measure_next (List.product S S) g.edges link hU
        omega

/-- The measure is at most the number of keys it counts among. -/
theorem cursor_measure_le (U : List link_t) (cur : Option link_t) :
    cursor_measure U cur ≤ U.length := by
  cases cur with
  | none => simp [cursor_measure]
  | some l => exact List.length_filter_le _ _

/-- The retargeting loop of `optimize` terminates: it returns for every fuel above
`(2 * size + 1) ^ 2`, the number of keys that can be made of `c` and the endpoints of
the arcs of the map. -/
theorem retarget_terminates (b c : indx_t) (g : Graph) (fuel : Nat)
    (hfuel : (2 * g.edges.length + 1) * (2 * g.edges.length + 1) < fuel) :
    ∃ g1, retarget b c fuel (g.edges.head?.map Prod.fst) g = some g1 := by
  apply retarget_returns b c (retarget_events c g.edges) (by simp [retarget_events])
  · intro k hk
    rw [← mem_keys_iff] at hk
    obtain ⟨e, he, hek⟩ := List.mem_map.mp hk
    subst hek
    constructor
    · simp only [retarget_events, List.mem_cons, List.mem_append, List.mem_map]
      exact Or.inr (Or.inl ⟨e, he, rfl⟩)
    · simp only [retarget_events, List.mem_cons, List.mem_append, List.mem_map]
      exact Or.inr (Or.inr ⟨e, he, rfl⟩)
  · intro l hl
    cases hm : g.edges with
    | nil => simp [hm] at hl
    | cons e rest =>
      simp only [hm, List.head?_cons, Option.map_some', Option.some.injEq] at hl
      subst hl
      obtain ⟨k, v⟩ := e
      simp [map_find]
  · refine lt_of_le_of_lt (cursor_measure_le _ _) ?_
    have hprod := List.length_product (retarget_events c g.edges) (retarget_events c g.edges)
    change ((retarget_events c g.edges).product (retarget_events c g.edges)).length = _ at hprod
    rw [hprod]
    have : (retarget_events c g.edges).length = 2 * g.edges.length + 1 := by
      simp [retarget_events]
      omega
    rw [this]
    exact hfuel


/-- The map has no arc `(b, b)` after an iteration of the retargeting loop if it had none
before. -/
theorem retarget_step_no_bb (b c : indx_t) (hbc : b ≠ c) (link : link_t) (w : indx_t)
    (g : Graph) (h : map_find g.edges (b, b) = none) :
    map_find (retarget_step b c link w g).edges (b, b) = none := by
  cases hbb : map_find (retarget_step b c link w g).edges (b, b) with
  | none => rfl
  | some v =>
    have hsome : (map_find (retarget_step b c link w g).edges (b, b)).isSome = true := by
      simp [hbb]
    rcases retarget_step_key_cases b c link w g (b, b) hsome with
      ⟨_, h2⟩ | ⟨_, h2, _⟩ | ⟨_, h2⟩
    · rw [h] at h2
      exact absurd h2 (by simp)
    · rcases retarget_target_cases b c link (b, b) h2 with
        ⟨_, c2⟩ | ⟨_, _, c3⟩ | ⟨c1, _, _, c4⟩
      · exact absurd (congrArg Prod.fst c2) hbc
      · exact absurd (congrArg Prod.snd c3) hbc
      · exact absurd (congrArg Prod.fst c4).symm c1
    · rw [h] at h2
      exact absurd h2 (by simp)

/-- An iteration at an arc whose new key is not `t` leaves the label at `t` alone, when `t`
neither touches `b` nor is a self-loop. -/
theorem retarget_step_other (b c : indx_t) (link : link_t) (w : indx_t) (g : Graph)
    (t : link_t) (t1 : t.1 ≠ b) (t2 : t.2 ≠ b) (t3 : t.1 ≠ t.2)
    (h : retarget_target b c link ≠ some t) :
    map_find (retarget_step b c link w g).edges t = map_find g.edges t := by
  rw [retarget_step_find]
  cases ht : retarget_target b c link with
  | none => rfl
  | some nl =>
    simp only
    have hne : link ≠ t := by
      intro heq
      rw [heq, retarget_target_none b c t t1 t2 t3] at ht
      exact absurd ht (by simp)
    have hnl : nl ≠ t := by
      intro heq
      rw [heq] at ht
      exact h ht
    simp [hne, hnl]

/-- An iteration at another arc leaves the label at a key `s` that touches `b` alone, when
the map has no arc `(b, b)`. -/
theorem retarget_step_source (b c : indx_t) (hbc : b ≠ c) (link : link_t) (w : indx_t)
    (g : Graph) (s : link_t) (hs : s.1 = b ∨ s.2 = b) (hne : link ≠ s)
    (hbb : map_find g.edges (b, b) = none) (hf : map_find g.edges link = some w) :
    map_find (retarget_step b c link w g).edges s = map_find g.edges s := by
  rw [retarget_step_find]
  cases ht : retarget_target b c link with
  | none => rfl
  | some nl =>
    simp only [hne, if_false]
    have hnl : nl ≠ s := by
      intro heq
      rw [heq] at ht
      rcases retarget_target_cases b c link s ht with ⟨c1, c2⟩ | ⟨c1, _, c3⟩ | ⟨c1, c2, _, c4⟩
      · rw [c2] at hs
        rcases hs with hs | hs
        · exact hbc hs.symm
        · have : link = (b, b) := Prod.ext c1 hs
          rw [this, hbb] at hf
          exact absurd hf (by simp)
      · rw [c3] at hs
        rcases hs with hs | hs
        · exact c1 hs
        · exact hbc hs.symm
      · rw [c4] at hs
        rcases hs with hs | hs
        · exact c1 hs
        · exact c2 hs
    simp [hnl]

/-- The label at a key `t` that only the arc `s` is retargeted to, when the retargeting
loop returns: the label of `t` merged with that of `s` if the map had the arc `s`, and the
label of `t` otherwise. -/
theorem retarget_value (b c : indx_t) (hbc : b ≠ c) (fuel : Nat) (g g1 : Graph)
    (s t : link_t) (hsrt : keys_sorted g.edges) (hbb : map_find g.edges (b, b) = none)
    (hs : s.1 = b ∨ s.2 = b) (hst : retarget_target b c s = some t)
    (huniq : ∀ link, retarget_target b c link = some t → link = s)
    (t1 : t.1 ≠ b) (t2 : t.2 ≠ b) (t3 : t.1 ≠ t.2)
    (hr : retarget b c fuel (g.edges.head?.map Prod.fst) g = some g1) :
    map_find g1.edges t =
      match map_find g.edges s with
      | none => map_find g.edges t
      | some l => some (merged_label (map_find g.edges t) l) := by
  have hne : s ≠ t := by
    intro heq
    rw [← heq] at t1 t2
    rcases hs with hs | hs
    · exact t1 hs
    · exact t2 hs
  have key := retarget_induct b c
    (fun cur g2 => keys_sorted g2.edges ∧ map_find g2.edges (b, b) = none ∧
      (¬ passed cur s → map_find g2.edges s = map_find g.edges s ∧
        map_find g2.edges t = map_find g.edges t) ∧
      (passed cur s → map_find g2.edges t =
        match map_find g.edges s with
        | none => map_find g.edges t
        | some l => some (merged_label (map_find g.edges t) l)))
    ?_ fuel _ g g1 ⟨hsrt, hbb, fun _ => ⟨rfl, rfl⟩, ?_⟩ hr
  · exact key.2.2.2 trivial
  · intro link w g2 ⟨h1, h2, h3, h4⟩ hf
    refine ⟨retarget_step_sorted b c link w g2 h1, retarget_step_no_bb b c hbc link w g2 h2,
      ?_, ?_⟩
    · intro hnp
      have hnp0 : ¬ passed (some link) s := fun hp => hnp (passed_next g2.edges link s (Or.inl hp))
      have hls : link ≠ s := fun heq => hnp (passed_next g2.edges link s (Or.inr heq.symm))
      obtain ⟨h5, h6⟩ := h3 hnp0
      refine ⟨?_, ?_⟩
      · rw [retarget_step_source b c hbc link w g2 s hs hls h2 hf]
        exact h5
      · rw [retarget_step_other b c link w g2 t t1 t2 t3 (fun hh => hls (huniq link hh))]
        exact h6
    · intro hp
      by_cases hls : link = s
      · subst hls
        have hnp0 : ¬ passed (some link) link := by simp [passed, link_lt_irrefl]
        obtain ⟨h5, h6⟩ := h3 hnp0
        rw [← h5, hf]
        simp only
        rw [retarget_step_find, hst]
        simp only [hne, if_false, true_and]
        rw [h6]
        cases hT : map_find g.edges t with
        | none => simp [merged_label]
        | some v =>
          by_cases hv : v = DefaultIndex
          · simp [merged_label, hv]
          · simp [merged_label, hv]
      · rw [retarget_step_other b c link w g2 t t1 t2 t3 (fun hh => hls (huniq link hh))]
        by_cases hp0 : passed (some link) s
        · exact h4 hp0
        · obtain ⟨h5, h6⟩ := h3 hp0
          cases hS : map_find g.edges s with
          | none => simp only []; exact h6
          | some l =>
            have hmem : (map_find g2.edges s).isSome = true := by rw [h5, hS]; rfl
            exact absurd hp
              (not_passed_next g2.edges h1 link s hmem hp0 (fun h => hls h.symm))
  · intro hp
    cases hS : map_find g.edges s with
    | none => rfl
    | some l =>
      exact absurd hp (not_passed_head g.edges hsrt s (by simp [hS]))

/-- The label at a key that no arc is retargeted to and that neither touches `b` nor is a
self-loop is the same when the retargeting loop returns. -/
theorem retarget_value_same (b c : indx_t) (fuel : Nat) (cur : Option link_t) (g g1 : Graph)
    (t : link_t) (t1 : t.1 ≠ b) (t2 : t.2 ≠ b) (t3 : t.1 ≠ t.2)
    (hno : ∀ link, retarget_target b c link ≠ some t)
    (hr : retarget b c fuel cur g = some g1) :
    map_find g1.edges t = map_find g.edges t :=
  retarget_induct b c (fun _ g2 => map_find g2.edges t = map_find g.edges t)
    (fun link w g2 hg _ =>
      (retarget_step_other b c link w g2 t t1 t2 t3 (hno link)).trans hg) fuel cur g g1 rfl hr


/-! ## The elimination rule -/

/-- A list without duplicates has each of its values at one position only. -/
theorem nodup_index_unique (l : List indx_t) (h : l.Nodup) (i j : Nat) (x : indx_t)
    (hi : l[i]? = some x) (hj : l[j]? = some x) : i = j := by
  obtain ⟨hi1, hi2⟩ := List.getElem?_eq_some.mp hi
  obtain ⟨hj1, hj2⟩ := List.getElem?_eq_some.mp hj
  exact (h.getElem_inj_iff).mp (hi2.trans hj2.symm)

/-- The event erased from a list without duplicates is not in the list any more. -/
theorem not_mem_eraseIdx (l : List indx_t) (h : l.Nodup) (p : Nat) (b : indx_t)
    (hb : l[p]? = some b) : b ∉ l.eraseIdx p := by
  intro hmem
  obtain ⟨i, hi1, hi2⟩ := List.mem_eraseIdx_iff_getElem?.mp hmem
  exact hi1 (nodup_index_unique l h i p b hi2 hb)

/-- The elimination branch of the `for` loop of `optimize`. -/
theorem scan_fires (fuel n p : Nat) (g : Graph) (a b c : indx_t)
    (ha : g.nodes[p - 1]? = some a) (hb : g.nodes[p]? = some b) (hc : g.nodes[p + 1]? = some c)
    (hfire : elimination_fires g p a b c = true) :
    scan fuel (n + 1) p g =
      match retarget b c fuel (g.edges.head?.map Prod.fst)
          { g with nodes := g.nodes.eraseIdx p } with
      | none => none
      | some g2 => scan fuel n p g2 := by
  rw [scan]
  simp only [ha, hb, hc]
  unfold elimination_fires at hfire
  simp only [hfire, if_true]

/-- C18, as stated, fails in its last part: when the first pass of `optimize` on the
canonical network eliminates `'F'` (triple `'E','F','G'`, no arc `('F','F')`), the arc
`('G','H')`, which does not touch `'F'` and is not a self-loop, changes its label from
empty to `'7'`, the label of the former arc `('F','H')`. -/
theorem C18_retarget_target_changes :
    scan 20 4 1 main_graph = some main_before_F ∧
    main_before_F.nodes.Nodup ∧
    main_before_F.nodes[3]? = some 69 ∧ main_before_F.nodes[4]? = some 70 ∧
    main_before_F.nodes[5]? = some 71 ∧
    elimination_fires main_before_F 4 69 70 71 = true ∧
    map_find main_before_F.edges (70, 70) = none ∧
    retarget 70 71 20 (main_before_F.edges.head?.map Prod.fst)
      { main_before_F with nodes := main_before_F.nodes.eraseIdx 4 } = some main_after_F ∧
    map_find main_before_F.edges (71, 72) = some DefaultIndex ∧
    map_find main_after_F.edges (71, 72) = some 55 ∧
    map_find main_before_F.edges (71, 72) ≠ map_find main_after_F.edges (71, 72) := by
  decide

/-- C18, amended: when the elimination rule fires for the triple `(a, b, c)` of a network with
pairwise distinct events, a well-formed arc map and no arc `(b, b)`, the retargeting loop
returns (with fuel above `(2 * size + 1) ^ 2`) and the pass goes on from its result, in which
`b` is not an event, no arc has `b` as an endpoint, every former arc `(x, b)` with `x ≠ c`
(`(b, y)` with `y ≠ c`) has left at `(x, c)` (`(c, y)`) the label that was there if it was
not empty and its own label otherwise, and every arc that neither touches `b`, nor is a
self-loop, nor has the new key of a former arc keeps its label. -/
theorem C18_elimination_effect (fuel n p : Nat) (g : Graph) (a b c : indx_t)
    (hnd : g.nodes.Nodup) (hsrt : keys_sorted g.edges)
    (ha : g.nodes[p - 1]? = some a) (hb : g.nodes[p]? = some b) (hc : g.nodes[p + 1]? = some c)
    (hfire : elimination_fires g p a b c = true)
    (hbb : map_find g.edges (b, b) = none)
    (hfuel : (2 * g.edges.length + 1) * (2 * g.edges.length + 1) < fuel) :
    ∃ g2, retarget b c fuel (g.edges.head?.map Prod.fst)
        { g with nodes := g.nodes.eraseIdx p } = some g2 ∧
      scan fuel (n + 1) p g = scan fuel n p g2 ∧
      b ∉ g2.nodes ∧
      (∀ e ∈ g2.edges, e.1.1 ≠ b ∧ e.1.2 ≠ b) ∧
      (∀ x l, x ≠ c → map_find g.edges (x, b) = some l →
        map_find g2.edges (x, c) = some (merged_label (map_find g.edges (x, c)) l)) ∧
      (∀ y l, y ≠ c → map_find g.edges (b, y) = some l →
        map_find g2.edges (c, y) = some (merged_label (map_find g.edges (c, y)) l)) ∧
      (∀ k : link_t, k.1 ≠ b → k.2 ≠ b → k.1 ≠ k.2 →
        (k.2 = c → map_find g.edges (k.1, b) = none) →
        (k.1 = c → map_find g.edges (b, k.2) = none) →
        map_find g2.edges k = map_find g.edges k) := by
  have hbc : b ≠ c := by
    intro heq
    rw [← heq] at hc
    have := nodup_index_unique g.nodes hnd p (p + 1) b hb hc
    omega
  have hcb : c ≠ b := fun h => hbc h.symm
  obtain ⟨g2, hr⟩ := retarget_terminates b c { g with nodes := g.nodes.eraseIdx p } fuel hfuel
  refine ⟨g2, hr, ?_, ?_, ?_, ?_, ?_, ?_⟩
  · rw [scan_fires fuel n p g a b c ha hb hc hfire, hr]
  · rw [retarget_nodes b c fuel _ _ g2 hr]
    exact not_mem_eraseIdx g.nodes hnd p b hb
  · intro e he
    have hnone := retarget_no_touch b c fuel { nodes := g.nodes.eraseIdx p, edges := g.edges } g2 hsrt hbc (Or.inl hbb) hr
    have hmem : (map_find g2.edges e.1).isSome = true := by
      rw [← mem_keys_iff]
      exact List.mem_map_of_mem _ he
    constructor
    · intro h1
      rw [hnone e.1 (Or.inl h1)] at hmem
      exact absurd hmem (by simp)
    · intro h2
      rw [hnone e.1 (Or.inr h2)] at hmem
      exact absurd hmem (by simp)
  · intro x l hxc hxl
    have hxb : x ≠ b := by
      intro heq
      rw [heq, hbb] at hxl
      exact absurd hxl (by simp)
    have hst : retarget_target b c (x, b) = some (x, c) := by
      simp [retarget_target, hxb]
    have huniq : ∀ link, retarget_target b c link = some (x, c) → link = (x, b) := by
      intro link hl
      rcases retarget_target_cases b c link (x, c) hl with ⟨_, c2⟩ | ⟨_, c2, c3⟩ | ⟨_, _, c3, c4⟩
      · exact absurd (congrArg Prod.fst c2) hxc
      · exact Prod.ext (congrArg Prod.fst c3).symm c2
      · rw [← c4] at c3
        exact absurd c3.symm hxc
    have := retarget_value b c hbc fuel { nodes := g.nodes.eraseIdx p, edges := g.edges } g2 (x, b) (x, c) hsrt hbb (Or.inr rfl) hst huniq
      hxb hcb hxc hr
    simpa [hxl] using this
  · intro y l hyc hyl
    have hyb : y ≠ b := by
      intro heq
      rw [heq, hbb] at hyl
      exact absurd hyl (by simp)
    have hst : retarget_target b c (b, y) = some (c, y) := by
      simp [retarget_target]
    have huniq : ∀ link, retarget_target b c link = some (c, y) → link = (b, y) := by
      intro link hl
      rcases retarget_target_cases b c link (c, y) hl with ⟨c1, c2⟩ | ⟨_, _, c3⟩ | ⟨_, _, c3, c4⟩
      · exact Prod.ext c1 (congrArg Prod.snd c2).symm
      · exact absurd (congrArg Prod.snd c3) hyc
      · rw [← c4] at c3
        exact absurd c3 hyc
    have := retarget_value b c hbc fuel { nodes := g.nodes.eraseIdx p, edges := g.edges } g2 (b, y) (c, y) hsrt hbb (Or.inl rfl) hst huniq
      hcb hyb (fun h => hyc h.symm) hr
    simpa [hyl] using this
  · intro k k1 k2 k3 hin hout
    by_cases h2 : k.2 = c
    · have hst : retarget_target b c (k.1, b) = some k := by
        have : k = (k.1, c) := Prod.ext rfl h2
        rw [this]
        simp [retarget_target, k1]
      have huniq : ∀ link, retarget_target b c link = some k → link = (k.1, b) := by
        intro link hl
        rcases retarget_target_cases b c link k hl with ⟨_, c2⟩ | ⟨_, c2, c3⟩ | ⟨_, _, c3, c4⟩
        · rw [c2] at k3 h2
          exact absurd h2.symm k3
        · exact Prod.ext (by rw [c3]) c2
        · rw [← c4] at c3
          exact absurd c3.symm k3
      have := retarget_value b c hbc fuel { nodes := g.nodes.eraseIdx p, edges := g.edges } g2 (k.1, b) k hsrt hbb (Or.inr rfl) hst huniq
        k1 k2 k3 hr
      simpa [hin h2] using this
    · by_cases h1 : k.1 = c
      · have hst : retarget_target b c (b, k.2) = some k := by
          have : k = (c, k.2) := Prod.ext h1 rfl
          rw [this]
          simp [retarget_target]
        have huniq : ∀ link, retarget_target b c link = some k → link = (b, k.2) := by
          intro link hl
          rcases retarget_target_cases b c link k hl with ⟨c1, c2⟩ | ⟨_, _, c3⟩ | ⟨_, _, c3, c4⟩
          · exact Prod.ext c1 (by rw [c2])
          · rw [c3] at h2
            exact absurd rfl h2
          · rw [← c4] at c3
            exact absurd c3.symm k3
        have := retarget_value b c hbc fuel { nodes := g.nodes.eraseIdx p, edges := g.edges } g2 (b, k.2) k hsrt hbb (Or.inl rfl) hst huniq
          k1 k2 k3 hr
        simpa [hout h1] using this
      · apply retarget_value_same b c fuel _ _ g2 k k1 k2 k3 _ hr
        intro link hl
        rcases retarget_target_cases b c link k hl with ⟨_, c2⟩ | ⟨_, _, c3⟩ | ⟨_, _, c3, c4⟩
        · rw [c2] at h1
          exact h1 rfl
        · rw [c3] at h2
          exact h2 rfl
        · rw [← c4] at c3
          exact k3 c3.symm


/-- C18, amended, at the elimination of `'F'` in the first pass of `optimize` on the canonical
network. -/
theorem C18_elimination_effect_witness :
    (main_before_F.nodes.Nodup ∧ keys_sorted main_before_F.edges ∧
      elimination_fires main_before_F 4 69 70 71 = true ∧
      map_find main_before_F.edges (70, 70) = none) ∧
    ∃ g2, retarget 70 71 626 (main_before_F.edges.head?.map Prod.fst)
        { main_before_F with nodes := main_before_F.nodes.eraseIdx 4 } = some g2 ∧
      scan 626 (2 + 1) 4 main_before_F = scan 626 2 4 g2 ∧
      (70 : indx_t) ∉ g2.nodes ∧
      (∀ e ∈ g2.edges, e.1.1 ≠ 70 ∧ e.1.2 ≠ 70) ∧
      (∀ x l, x ≠ 71 → map_find main_before_F.edges (x, 70) = some l →
        map_find g2.edges (x, 71) =
          some (merged_label (map_find main_before_F.edges (x, 71)) l)) ∧
      (∀ y l, y ≠ 71 → map_find main_before_F.edges (70, y) = some l →
        map_find g2.edges (71, y) =
          some (merged_label (map_find main_before_F.edges (71, y)) l)) ∧
      (∀ k : link_t, k.1 ≠ 70 → k.2 ≠ 70 → k.1 ≠ k.2 →
        (k.2 = 71 → map_find main_before_F.edges (k.1, 70) = none) →
        (k.1 = 71 → map_find main_before_F.edges (70, k.2) = none) →
        map_find g2.edges k = map_find main_before_F.edges k) :=
  ⟨⟨by decide, by unfold keys_sorted; decide, by decide, by decide⟩,
    C18_elimination_effect 626 2 4 main_before_F 69 70 71 (by decide)
      (by unfold keys_sorted; decide) (by decide) (by decide) (by decide) (by decide)
      (by decide) (by decide)⟩


/-! ## Invariants of the passes of `optimize` -/

/-- An invariant kept by the elimination rule and by the rewrite rule holds after the `for`
loop of `optimize`. -/
theorem scan_induct (fuel : Nat) (P : Graph → Prop)
    (h_elim : ∀ (g : Graph) (p : Nat) (a b c : indx_t) (g2 : Graph), P g → 1 ≤ p →
      g.nodes[p - 1]? = some a → g.nodes[p]? = some b → g.nodes[p + 1]? = some c →
      edge_empty g (b, c) = true →
      retarget b c fuel (g.edges.head?.map Prod.fst)
        { g with nodes := g.nodes.eraseIdx p } = some g2 → P g2)
    (h_rew : ∀ (g : Graph) (p : Nat) (b c : indx_t), P g → 1 ≤ p →
      g.nodes[p]? = some b → g.nodes[p + 1]? = some c →
      edge_empty g (b, c) = true → shared_parent g b c ≠ DefaultIndex →
      P { g with edges := map_erase (map_assign g.edges (b, c)
        ((map_find g.edges (shared_parent g b c, c)).getD 0)) (shared_parent g b c, c) })
    (n p : Nat) (g g1 : Graph) (hp : 1 ≤ p) (h0 : P g) (h : scan fuel n p g = some g1) :
    P g1 := by
  induction n generalizing p g with
  | zero =>
    simp only [scan, Option.some.injEq] at h
    rw [← h]
    exact h0
  | succ n ih =>
    unfold scan at h
    split at h
    · rename_i a b c ha hb hc
      simp only at h
      split at h
      · rename_i hcond
        have hbc : edge_empty g (b, c) = true := by
          simp only [Bool.and_eq_true, Bool.or_eq_true] at hcond
          rcases hcond.2 with h1 | h1
          · exact h1.1
          · exact h1.1.2
        split at h
        · exact absurd h (by simp)
        · rename_i g2 hr
          exact ih p g2 hp (h_elim g p a b c g2 h0 hp ha hb hc hbc hr) h
      · split at h
        · rename_i hcond2
          simp only [Bool.and_eq_true, decide_eq_true_eq] at hcond2
          split at h
          · exact ih (p + 1) _ (by omega) (h_rew g p b c h0 hp hb hc hcond2.1 hcond2.2) h
          · exact ih (p + 1) g (by omega) h0 h
        · exact ih (p + 1) g (by omega) h0 h
    · exact absurd h (by simp)

/-- An invariant kept by the passes holds when the loop of `optimize` returns. -/
theorem optimize_loop_induct (rfuel : Nat) (P : Graph → Prop)
    (hpass : ∀ g g1, P g → scan_pass rfuel g = some g1 → P g1)
    (fuel : Nat) (g g1 : Graph) (h0 : P g) (h : optimize_loop rfuel fuel g = some g1) :
    P g1 := by
  induction fuel generalizing g with
  | zero => simp [optimize_loop] at h
  | succ n ih =>
    unfold optimize_loop at h
    split at h
    · exact absurd h (by simp)
    · rename_i g2 hs
      split at h
      · exact ih g2 (hpass g g2 h0 hs) h
      · simp only [Option.some.injEq] at h
        rw [← h]
        exact hpass g g2 h0 hs

/-- The second loop of `assign_nodes_by_works` keeps the keys in ascending order. -/
theorem overlay_sorted (before rest : List work_t) (g : Graph) (h : keys_sorted g.edges) :
    keys_sorted (overlay before rest g).edges := by
  induction rest generalizing before g with
  | nil => exact h
  | cons w rest ih => exact ih _ _ (keys_sorted_assign _ _ _ h)

/-- The arc map `assign_nodes_by_works` builds on an empty graph has ascending keys. -/
theorem assign_sorted (works : List work_t) (start : indx_t) :
    keys_sorted (assign_nodes_by_works ⟨[], []⟩ works start).edges := by
  unfold assign_nodes_by_works
  apply overlay_sorted
  exact (chain_keys works.length start _ (by simp [keys_sorted])).1

/-- Every arc the second loop of `assign_nodes_by_works` adds goes from an event of the
list to an event at a later position. -/
theorem overlay_key_form (before rest : List work_t) (g : Graph)
    (hlen : before.length + rest.length < g.nodes.length)
    (hg : ∀ k, (map_find g.edges k).isSome = true → ∃ i j, i < j ∧ j < g.nodes.length ∧
      k = (g.nodes.getD i DefaultIndex, g.nodes.getD j DefaultIndex)) :
    ∀ k, (map_find (overlay before rest g).edges k).isSome = true →
      ∃ i j, i < j ∧ j < g.nodes.length ∧
        k = (g.nodes.getD i DefaultIndex, g.nodes.getD j DefaultIndex) := by
  induction rest generalizing before g with
  | nil => exact hg
  | cons w rest ih =>
    intro k hk
    simp only [overlay] at hk
    have := ih (w :: before)
      { g with edges := (map_assign g.edges
          (g.nodes.getD (find_i w.required before) DefaultIndex,
            g.nodes.getD (before.length + 1) DefaultIndex) w.id) }
      (by
        show (w :: before).length + rest.length < g.nodes.length
        simp only [List.length_cons] at hlen ⊢; omega)
      (by
        intro k1 hk1
        show ∃ i j, i < j ∧ j < g.nodes.length ∧
          k1 = (g.nodes.getD i DefaultIndex, g.nodes.getD j DefaultIndex)
        simp only [map_find_assign] at hk1
        split at hk1
        · rename_i heq
          refine ⟨find_i w.required before, before.length + 1, ?_, ?_, heq.symm⟩
          · have := find_i_le w.required before
            omega
          · simp only [List.length_cons] at hlen
            omega
        · exact hg k1 hk1)
      k hk
    exact this

/-- Every arc `assign_nodes_by_works` builds on an empty graph goes from an event of the
list to an event at a later position. -/
theorem assign_key_form (works : List work_t) (start : indx_t) (k : link_t)
    (hk : (map_find (assign_nodes_by_works ⟨[], []⟩ works start).edges k).isSome = true) :
    ∃ i j, i < j ∧ j < (assign_nodes_by_works ⟨[], []⟩ works start).nodes.length ∧
      k = ((assign_nodes_by_works ⟨[], []⟩ works start).nodes.getD i DefaultIndex,
        (assign_nodes_by_works ⟨[], []⟩ works start).nodes.getD j DefaultIndex) := by
  have hnodes0 : (chain works.length start { nodes := [start], edges := [] }).nodes =
      List.iterate NextIndex start (works.length + 1) := by
    simp [chain_nodes, List.iterate]
  have hnodes : (assign_nodes_by_works ⟨[], []⟩ works start).nodes =
      (chain works.length start { nodes := [start], edges := [] }).nodes := by
    simp [assign_nodes_by_works, overlay_nodes]
  rw [hnodes]
  have hasg : assign_nodes_by_works ⟨[], []⟩ works start =
      overlay [] works (chain works.length start { nodes := [start], edges := [] }) := by
    simp [assign_nodes_by_works]
  rw [hasg] at hk
  apply overlay_key_form [] works _ _ _ k hk
  · rw [hnodes0, List.length_iterate]
    simp
  · intro k1 hk1
    rw [← mem_keys_iff, ← List.mem_toFinset,
      (chain_keys works.length start { nodes := [start], edges := [] }
        (by simp [keys_sorted])).2] at hk1
    simp only [List.map_nil, List.toFinset_nil, Finset.empty_union, List.mem_toFinset,
      List.mem_map, List.mem_iterate] at hk1
    obtain ⟨x, ⟨m, hm, hx⟩, hk1⟩ := hk1
    refine ⟨m, m + 1, by omega, by rw [hnodes0, List.length_iterate]; omega, ?_⟩
    rw [hnodes0, List.getD_eq_getElem _ _ (by rw [List.length_iterate]; omega),
      List.getD_eq_getElem _ _ (by rw [List.length_iterate]; omega),
      List.getElem_iterate, List.getElem_iterate, Function.iterate_succ_apply', ← hx, hk1]


/-- The method `edge_empty` by lookup. -/
theorem edge_empty_iff (g : Graph) (k : link_t) :
    edge_empty g k = true ↔ map_find g.edges k = some DefaultIndex := by
  unfold edge_empty edge_exists
  cases h : map_find g.edges k with
  | none => simp
  | some v => simp

/-- In an ascending event list an event is smaller than the one after it. -/
theorem pairwise_consecutive (l : List indx_t) (h : l.Pairwise (fun x y => x < y))
    (i j : Nat) (b c : indx_t) (hij : i < j) (hb : l[i]? = some b) (hc : l[j]? = some c) :
    b < c := by
  obtain ⟨hb1, hb2⟩ := List.getElem?_eq_some.mp hb
  obtain ⟨hc1, hc2⟩ := List.getElem?_eq_some.mp hc
  have := List.pairwise_iff_getElem.mp h i j hb1 hc1 hij
  rw [hb2, hc2] at this
  exact this

/-- A strictly ascending list has no duplicates. -/
theorem pairwise_nodup (l : List indx_t) (h : l.Pairwise (fun x y => x < y)) : l.Nodup :=
  h.imp (fun hxy => ne_of_lt hxy)

/-- An event other than the erased one is still in the event list. -/
theorem mem_eraseIdx_of_ne (l : List indx_t) (p : Nat) (b x : indx_t) (hb : l[p]? = some b)
    (hx : x ∈ l) (hne : x ≠ b) : x ∈ l.eraseIdx p := by
  obtain ⟨i, hi⟩ := List.getElem?_of_mem hx
  apply List.mem_eraseIdx_iff_getElem?.mpr
  refine ⟨i, ?_, hi⟩
  intro heq
  rw [heq, hb] at hi
  exact hne (Option.some.inj hi).symm

/-- The elimination rule keeps every arc within the event list. -/
theorem arcs_within_events_elim (fuel : Nat) (g : Graph) (p : Nat) (b c : indx_t) (g2 : Graph)
    (h : arcs_within_events g) (hb : g.nodes[p]? = some b) (hc : g.nodes[p + 1]? = some c)
    (hbc : edge_empty g (b, c) = true)
    (hr : retarget b c fuel (g.edges.head?.map Prod.fst)
      { g with nodes := g.nodes.eraseIdx p } = some g2) :
    arcs_within_events g2 := by
  obtain ⟨h1, h2, h3⟩ := h
  have hlt : b < c := pairwise_consecutive g.nodes h1 p (p + 1) b c (by omega) hb hc
  have hmem : (map_find g.edges (b, c)).isSome = true := by
    rw [(edge_empty_iff g (b, c)).mp hbc]
    rfl
  have hnodes := retarget_nodes b c fuel _ _ g2 hr
  have hnone := retarget_no_touch b c fuel { nodes := g.nodes.eraseIdx p, edges := g.edges }
    g2 h2 (ne_of_lt hlt) (Or.inr ⟨hlt, hmem⟩) hr
  have hend := retarget_endpoints b c (fun x => x ∈ g.nodes) (List.getElem?_mem hc) fuel _
    { nodes := g.nodes.eraseIdx p, edges := g.edges } g2 h3 hr
  refine ⟨?_, retarget_sorted b c fuel _ { nodes := g.nodes.eraseIdx p, edges := g.edges } g2 h2 hr, ?_⟩
  · rw [hnodes]
    exact h1.sublist (List.eraseIdx_sublist _ _)
  · intro k hk
    rw [hnodes]
    have hk1 : k.1 ≠ b := by
      intro heq
      rw [hnone k (Or.inl heq)] at hk
      exact absurd hk (by simp)
    have hk2 : k.2 ≠ b := by
      intro heq
      rw [hnone k (Or.inr heq)] at hk
      exact absurd hk (by simp)
    obtain ⟨e1, e2⟩ := hend k hk
    exact ⟨mem_eraseIdx_of_ne g.nodes p b k.1 hb e1 hk1,
      mem_eraseIdx_of_ne g.nodes p b k.2 hb e2 hk2⟩

/-- The rewrite rule keeps every arc within the event list. -/
theorem arcs_within_events_rewrite (g : Graph) (b c a0 v : indx_t)
    (h : arcs_within_events g) (hbc : edge_empty g (b, c) = true) :
    arcs_within_events
      { g with edges := map_erase (map_assign g.edges (b, c) v) (a0, c) } := by
  obtain ⟨h1, h2, h3⟩ := h
  have hmem : (map_find g.edges (b, c)).isSome = true := by
    rw [(edge_empty_iff g (b, c)).mp hbc]
    rfl
  refine ⟨h1, keys_sorted_erase _ _ (keys_sorted_assign _ _ _ h2), ?_⟩
  intro k hk
  simp only [map_find_erase, map_find_assign] at hk
  split at hk
  · exact absurd hk (by simp)
  · split at hk
    · rename_i heq
      rw [← heq]
      exact h3 (b, c) hmem
    · exact h3 k hk

/-- A pass of `optimize` keeps every arc within the event list. -/
theorem arcs_within_events_pass (fuel : Nat) (g g1 : Graph) (h : arcs_within_events g)
    (hs : scan_pass fuel g = some g1) : arcs_within_events g1 := by
  unfold scan_pass at hs
  split at hs
  · exact absurd hs (by simp)
  · exact scan_induct fuel arcs_within_events
      (fun g p _ b c g2 hg _ _ hb hc hbc hr =>
        arcs_within_events_elim fuel g p b c g2 hg hb hc hbc hr)
      (fun g _ b c hg _ _ _ hbc _ => arcs_within_events_rewrite g b c _ _ hg hbc)
      _ 1 g g1 (le_refl 1) h hs

/-- The network `assign_nodes_by_works` builds with ascending event ids has every arc within
the event list. -/
theorem arcs_within_events_assign (works : List work_t) (start : indx_t)
    (hinc : (assign_nodes_by_works ⟨[], []⟩ works start).nodes.Pairwise (fun x y => x < y)) :
    arcs_within_events (assign_nodes_by_works ⟨[], []⟩ works start) := by
  refine ⟨hinc, assign_sorted works start, ?_⟩
  intro k hk
  obtain ⟨i, j, hij, hj, hkf⟩ := assign_key_form works start k hk
  rw [hkf, List.getD_eq_getElem _ _ (by omega), List.getD_eq_getElem _ _ hj]
  exact ⟨List.getElem_mem _, List.getElem_mem _⟩

/-- C13: for a network built by `assign_nodes_by_works` with strictly ascending (hence
pairwise distinct) event ids, when `optimize` returns, every arc of the arc map has its
source and its destination in the event list. -/
theorem C13_arc_endpoints_are_events (works : List work_t) (start : indx_t) (fuel : Nat)
    (g1 : Graph)
    (hinc : (assign_nodes_by_works ⟨[], []⟩ works start).nodes.Pairwise (fun x y => x < y))
    (h : optimize fuel (assign_nodes_by_works ⟨[], []⟩ works start) = some g1) :
    ∀ e ∈ g1.edges, e.1.1 ∈ g1.nodes ∧ e.1.2 ∈ g1.nodes := by
  unfold optimize at h
  cases hl : optimize_loop fuel fuel (assign_nodes_by_works ⟨[], []⟩ works start) with
  | none => simp [hl] at h
  | some g2 =>
    simp only [hl, Option.map_some', Option.some.injEq] at h
    subst h
    have hinv := optimize_loop_induct fuel arcs_within_events
      (fun g g1 hg hs => arcs_within_events_pass fuel g g1 hg hs) fuel _ g2
      (arcs_within_events_assign works start hinc) hl
    intro e he
    simp only [cleanup, List.mem_filter] at he ⊢
    obtain ⟨he1, _⟩ := he
    have hmem : (map_find g2.edges e.1).isSome = true := by
      rw [← mem_keys_iff]
      exact List.mem_map_of_mem _ he1
    obtain ⟨m1, m2⟩ := hinv.2.2 e.1 hmem
    refine ⟨⟨m1, ?_⟩, ⟨m2, ?_⟩⟩
    · have : is_parent_node g2 e.1.1 = true := by
        simp only [is_parent_node, List.any_eq_true, decide_eq_true_eq]
        exact ⟨e, he1, rfl⟩
      simp [this]
    · have : is_child_node g2 e.1.2 = true := by
        simp only [is_child_node, List.any_eq_true, decide_eq_true_eq]
        exact ⟨e, he1, rfl⟩
      simp [this]

set_option maxRecDepth 100000 in
/-- C13 at the canonical network: the event ids `'A'`, ..., `'I'` are ascending, `optimize`
returns, and the arcs it leaves join events it leaves. -/
theorem C13_arc_endpoints_are_events_witness :
    (assign_nodes_by_works ⟨[], []⟩ main_works 65).nodes.Pairwise (fun x y => x < y) ∧
    optimize 20 (assign_nodes_by_works ⟨[], []⟩ main_works 65) = some main_optimized ∧
    ∀ e ∈ main_optimized.edges, e.1.1 ∈ main_optimized.nodes ∧ e.1.2 ∈ main_optimized.nodes :=
  ⟨by decide, by decide,
    C13_arc_endpoints_are_events main_works 65 20 main_optimized (by decide) (by decide)⟩


/-- When every arc goes from an event to a greater or equal one, `c` is the event just
above `b` and the map has the arc `(b, c)`, the same holds when the retargeting loop
returns. -/
theorem retarget_forward (b c : indx_t) (S : indx_t → Prop) (hc : S c) (hlt : b < c)
    (hcons : ∀ z, S z → b < z → c ≤ z) (fuel : Nat) (g g1 : Graph)
    (hs : keys_sorted g.edges)
    (hend : ∀ k : link_t, (map_find g.edges k).isSome = true → S k.1 ∧ S k.2)
    (hfw : ∀ k : link_t, (map_find g.edges k).isSome = true → k.1 ≤ k.2)
    (hbc : (map_find g.edges (b, c)).isSome = true)
    (hr : retarget b c fuel (g.edges.head?.map Prod.fst) g = some g1) :
    ∀ k : link_t, (map_find g1.edges k).isSome = true → k.1 ≤ k.2 := by
  have hnone := retarget_no_touch b c fuel g g1 hs (ne_of_lt hlt) (Or.inr ⟨hlt, hbc⟩) hr
  have key := retarget_induct b c
    (fun _ g2 => (∀ k : link_t, (map_find g2.edges k).isSome = true → S k.1 ∧ S k.2) ∧
      ∀ k : link_t, (map_find g2.edges k).isSome = true → k.1 ≤ k.2 ∨ k = (c, b))
    ?_ fuel _ g g1 ⟨hend, fun k hk => Or.inl (hfw k hk)⟩ hr
  · intro k hk
    rcases key.2 k hk with h | h
    · exact h
    · rw [hnone k (Or.inr (by rw [h]))] at hk
      exact absurd hk (by simp)
  · intro link w g2 ⟨h1, h2⟩ hf
    have hlm : (map_find g2.edges link).isSome = true := by simp [hf]
    refine ⟨retarget_step_endpoints b c S hc link w g2 h1 hf, ?_⟩
    intro k hk
    rcases retarget_step_key_cases b c link w g2 k hk with ⟨_, h3⟩ | ⟨_, h3, _⟩ | ⟨_, h3⟩
    · exact h2 k h3
    · rcases retarget_target_cases b c link k h3 with ⟨c1, c2⟩ | ⟨c1, c2, c3⟩ | ⟨_, _, _, c4⟩
      · rcases h2 link hlm with h4 | h4
        · by_cases h5 : link.2 = b
          · right
            rw [c2, h5]
          · left
            rw [c2]
            apply hcons link.2 (h1 link hlm).2
            rw [c1] at h4
            exact lt_of_le_of_ne h4 (fun h => h5 h.symm)
        · rw [h4] at c1
          exact absurd c1.symm (ne_of_lt hlt)
      · rcases h2 link hlm with h4 | h4
        · left
          rw [c3]
          rw [c2] at h4
          exact le_of_lt (lt_of_le_of_lt h4 hlt)
        · left
          rw [c3, h4]
      · rw [c4]
        exact h2 link hlm
    · exact h2 k h3

/-- When every self-loop of the map is empty, no arc goes from `c` back to `b` and the arc
`(b, c)` is empty, every self-loop is empty when the retargeting loop returns. -/
theorem retarget_loops_empty (b c : indx_t) (hbc : b ≠ c) (fuel : Nat) (g g1 : Graph)
    (hloops : ∀ x v, map_find g.edges (x, x) = some v → v = DefaultIndex)
    (hcb : map_find g.edges (c, b) = none)
    (hempty : map_find g.edges (b, c) = some DefaultIndex)
    (hr : retarget b c fuel (g.edges.head?.map Prod.fst) g = some g1) :
    ∀ x v, map_find g1.edges (x, x) = some v → v = DefaultIndex := by
  have key := retarget_induct b c
    (fun cur g2 => (∀ x v, map_find g2.edges (x, x) = some v → v = DefaultIndex) ∧
      (∀ v, map_find g2.edges (c, b) = some v → v = DefaultIndex) ∧
      (¬ passed cur (b, c) → map_find g2.edges (b, c) = some DefaultIndex))
    ?_ fuel _ g g1 ⟨hloops, fun v hv => by rw [hcb] at hv; exact absurd hv (by simp),
      fun _ => hempty⟩ hr
  · exact key.1
  · intro link w g2 ⟨h1, h2, h3⟩ hf
    refine ⟨?_, ?_, ?_⟩
    · intro x v hv
      rw [retarget_step_find] at hv
      cases ht : retarget_target b c link with
      | none =>
        rw [ht] at hv
        exact h1 x v hv
      | some nl =>
        rw [ht] at hv
        simp only at hv
        split at hv
        · exact absurd hv (by simp)
        · rename_i hne
          split at hv
          · rename_i hnl
            rw [hnl.1] at ht
            have hw : w = DefaultIndex := by
              rcases retarget_target_cases b c link (x, x) ht with
                ⟨c1, c2⟩ | ⟨_, c2, c3⟩ | ⟨_, _, _, c4⟩
              · have hx : x = c := congrArg Prod.fst c2
                have hl2 : link.2 = c := by
                  have := congrArg Prod.snd c2
                  simp only at this
                  rw [← this, hx]
                have hlink : link = (b, c) := Prod.ext c1 hl2
                have hnp : ¬ passed (some link) (b, c) := by
                  rw [hlink]
                  simp [passed, link_lt_irrefl]
                have := h3 hnp
                rw [← hlink, hf] at this
                exact Option.some.inj this
              · have hx : x = link.1 := congrArg Prod.fst c3
                have hxc : x = c := congrArg Prod.snd c3
                have hlink : link = (c, b) := Prod.ext (by rw [← hx, hxc]) c2
                rw [hlink] at hf
                exact h2 w hf
              · exact absurd c4.symm hne
            rw [← Option.some.inj hv]
            exact hw
          · exact h1 x v hv
    · intro v hv
      rw [retarget_step_find] at hv
      cases ht : retarget_target b c link with
      | none =>
        rw [ht] at hv
        exact h2 v hv
      | some nl =>
        rw [ht] at hv
        simp only at hv
        split at hv
        · exact absurd hv (by simp)
        · rename_i hne
          split at hv
          · rename_i hnl
            rw [hnl.1] at ht
            have hw : w = DefaultIndex := by
              rcases retarget_target_cases b c link (c, b) ht with
                ⟨c1, c2⟩ | ⟨_, _, c3⟩ | ⟨_, _, _, c4⟩
              · have hl2 : link.2 = b := (congrArg Prod.snd c2).symm
                have hlink : link = (b, b) := Prod.ext c1 hl2
                rw [hlink] at hf
                exact h1 b w hf
              · exact absurd (congrArg Prod.snd c3) hbc
              · exact absurd c4.symm hne
            rw [← Option.some.inj hv]
            exact hw
          · exact h2 v hv
    · intro hnp
      have hnp0 : ¬ passed (some link) (b, c) :=
        fun hp => hnp (passed_next g2.edges link (b, c) (Or.inl hp))
      have hne : link ≠ (b, c) :=
        fun heq => hnp (passed_next g2.edges link (b, c) (Or.inr heq.symm))
      rw [retarget_step_find]
      cases ht : retarget_target b c link with
      | none => exact h3 hnp0
      | some nl =>
        simp only [hne, if_false]
        have hnl : nl ≠ (b, c) := by
          intro heq
          rw [heq] at ht
          rcases retarget_target_cases b c link (b, c) ht with
            ⟨_, c2⟩ | ⟨c1, _, c3⟩ | ⟨_, _, _, c4⟩
          · exact hbc (congrArg Prod.fst c2)
          · exact c1 (congrArg Prod.fst c3).symm
          · exact hne c4.symm
        simp only [hnl, false_and, if_false]
        exact h3 hnp0


/-- When `shared_parent` does not return the sentinel, the event it returns has a labelled
arc to the first of the two events. -/
theorem shared_parent_arc (g : Graph) (b c : indx_t)
    (h : shared_parent g b c ≠ DefaultIndex) :
    ∃ v, map_find g.edges (shared_parent g b c, b) = some v ∧ v ≠ DefaultIndex := by
  unfold shared_parent at h ⊢
  cases hf : g.edges.find? (fun edge1 =>
      decide (edge1.1.2 = b) && !edge_empty g edge1.1 &&
        g.edges.any (fun edge2 => decide (edge2.1.2 = c) && decide (edge1.1.1 = edge2.1.1))) with
  | none =>
    rw [hf] at h
    exact absurd rfl h
  | some edge1 =>
    simp only
    have hp := List.find?_some hf
    have hm := List.mem_of_find?_eq_some hf
    simp only [Bool.and_eq_true, decide_eq_true_eq, Bool.not_eq_true'] at hp
    obtain ⟨⟨hp1, hp2⟩, _⟩ := hp
    have hkey : (edge1.1.1, b) = edge1.1 := Prod.ext rfl hp1.symm
    rw [hkey]
    have hsome : (map_find g.edges edge1.1).isSome = true := by
      rw [← mem_keys_iff]
      exact List.mem_map_of_mem _ hm
    obtain ⟨v, hv⟩ := Option.isSome_iff_exists.mp hsome
    refine ⟨v, hv, ?_⟩
    intro hd
    rw [hd] at hv
    rw [(edge_empty_iff g edge1.1).mpr hv] at hp2
    exact absurd hp2 (by simp)

/-- The elimination rule keeps the shape of the network. -/
theorem network_shape_elim (first last : indx_t) (fuel : Nat) (g : Graph) (p : Nat)
    (b c : indx_t) (g2 : Graph) (h : network_shape first last g) (hp : 1 ≤ p)
    (hb : g.nodes[p]? = some b) (hc : g.nodes[p + 1]? = some c)
    (hbc : edge_empty g (b, c) = true)
    (hr : retarget b c fuel (g.edges.head?.map Prod.fst)
      { g with nodes := g.nodes.eraseIdx p } = some g2) :
    network_shape first last g2 := by
  obtain ⟨hA, hF, hL, hG, hhead, hlast, hlen⟩ := h
  obtain ⟨h1, h2, h3⟩ := hA
  have hA2 := arcs_within_events_elim fuel g p b c g2 ⟨h1, h2, h3⟩ hb hc hbc hr
  have hlt : b < c := pairwise_consecutive g.nodes h1 p (p + 1) b c (by omega) hb hc
  have hbne : b ≠ c := ne_of_lt hlt
  have hnd : g.nodes.Nodup := pairwise_nodup g.nodes h1
  have hbcv : map_find g.edges (b, c) = some DefaultIndex := (edge_empty_iff g (b, c)).mp hbc
  have hmem : (map_find g.edges (b, c)).isSome = true := by rw [hbcv]; rfl
  have hnodes := retarget_nodes b c fuel _ _ g2 hr
  have hplen : p + 1 < g.nodes.length := (List.getElem?_eq_some.mp hc).1
  have hfirst0 : g.nodes[0]? = some first := by rw [← List.head?_eq_getElem?]; exact hhead
  have hfb : first < b := pairwise_consecutive g.nodes h1 0 p first b (by omega) hfirst0 hb
  have hcons : ∀ z, z ∈ g.nodes → b < z → c ≤ z := by
    intro z hz hbz
    obtain ⟨i, hi⟩ := List.getElem?_of_mem hz
    by_cases hip : i ≤ p
    · by_cases hip2 : i = p
      · rw [hip2, hb] at hi
        rw [Option.some.inj hi] at hbz
        exact absurd hbz (lt_irrefl _)
      · have := pairwise_consecutive g.nodes h1 i p z b (by omega) hi hb
        exact absurd hbz (not_lt.mpr (le_of_lt this))
    · by_cases hip2 : i = p + 1
      · rw [hip2, hc] at hi
        rw [Option.some.inj hi]
      · exact le_of_lt (pairwise_consecutive g.nodes h1 (p + 1) i c z (by omega) hc hi)
  refine ⟨hA2, ?_, ?_, ?_, ?_, ?_, ?_⟩
  · exact retarget_forward b c (fun x => x ∈ g.nodes) (List.getElem?_mem hc) hlt hcons fuel
      { nodes := g.nodes.eraseIdx p, edges := g.edges } g2 h2 h3 hF hmem hr
  · apply retarget_loops_empty b c hbne fuel
      { nodes := g.nodes.eraseIdx p, edges := g.edges } g2 hL _ hbcv hr
    cases hcb : map_find g.edges (c, b) with
    | none => rfl
    | some v =>
      have := hF (c, b) (by rw [hcb]; rfl)
      exact absurd hlt (not_lt.mpr this)
  · intro v hv hfv
    rw [hnodes] at hv
    have hvl : v ∈ g.nodes := (List.eraseIdx_sublist _ _).subset hv
    have hvb : v ≠ b := by
      intro heq
      rw [heq] at hv
      exact not_mem_eraseIdx g.nodes hnd p b hb hv
    obtain ⟨x, hxv, hxm⟩ := hG v hvl hfv
    by_cases hxb : x = b
    · rw [hxb] at hxv hxm
      by_cases hvc : v = c
      · obtain ⟨x1, hx1, hx1m⟩ := hG b (List.getElem?_mem hb) hfb
        have hx1b : x1 ≠ b := ne_of_lt hx1
        have hx1c : x1 ≠ c := ne_of_lt (lt_trans hx1 hlt)
        refine ⟨x1, by rw [hvc]; exact lt_trans hx1 hlt, ?_⟩
        rw [hvc]
        exact retarget_moves b c fuel { nodes := g.nodes.eraseIdx p, edges := g.edges } g2
          (x1, b) (x1, c) h2 (by simp [retarget_target, hx1b])
          (fun heq => hbne (congrArg Prod.snd heq)) hx1b (fun heq => hbne heq.symm) hx1c hx1m hr
      · have hcv : c < v := lt_of_le_of_ne (hcons v hvl hxv) (fun heq => hvc heq.symm)
        refine ⟨c, hcv, ?_⟩
        exact retarget_moves b c fuel { nodes := g.nodes.eraseIdx p, edges := g.edges } g2
          (b, v) (c, v) h2 (by simp [retarget_target])
          (fun heq => hbne (congrArg Prod.fst heq)) (fun heq => hbne heq.symm) hvb
          (ne_of_lt hcv) hxm hr
    · refine ⟨x, hxv, ?_⟩
      exact retarget_persist b c fuel _ { nodes := g.nodes.eraseIdx p, edges := g.edges } g2
        (x, v) hxb hvb (ne_of_lt hxv) hxm hr
  · rw [hnodes, List.head?_eq_getElem?, List.getElem?_eraseIdx_of_lt _ _ _ (by omega)]
    exact hfirst0
  · rw [hnodes, List.getLast?_eq_getElem?, List.length_eraseIdx_of_lt (by omega),
      List.getElem?_eraseIdx_of_ge _ _ _ (by omega)]
    rw [List.getLast?_eq_getElem?] at hlast
    have : g.nodes.length - 1 - 1 + 1 = g.nodes.length - 1 := by omega
    rw [this]
    exact hlast
  · rw [hnodes, List.length_eraseIdx_of_lt (by omega)]
    omega

/-- The rewrite rule keeps the shape of the network. -/
theorem network_shape_rewrite (first last : indx_t) (g : Graph) (p : Nat) (b c v : indx_t)
    (h : network_shape first last g)
    (hb : g.nodes[p]? = some b) (hc : g.nodes[p + 1]? = some c)
    (hbc : edge_empty g (b, c) = true) (ha0 : shared_parent g b c ≠ DefaultIndex) :
    network_shape first last
      { g with edges := map_erase (map_assign g.edges (b, c) v) (shared_parent g b c, c) } := by
  obtain ⟨hA, hF, hL, hG, hhead, hlast, hlen⟩ := h
  have hlt : b < c := pairwise_consecutive g.nodes hA.1 p (p + 1) b c (by omega) hb hc
  have hmem : (map_find g.edges (b, c)).isSome = true := by
    rw [(edge_empty_iff g (b, c)).mp hbc]
    rfl
  have ha0b : shared_parent g b c ≠ b := by
    intro heq
    obtain ⟨w, hw1, hw2⟩ := shared_parent_arc g b c ha0
    rw [heq] at hw1
    exact hw2 (hL b w hw1)
  refine ⟨arcs_within_events_rewrite g b c _ v hA hbc, ?_, ?_, ?_, hhead, hlast, hlen⟩
  · intro k hk
    simp only [map_find_erase, map_find_assign] at hk
    split at hk
    · exact absurd hk (by simp)
    · split at hk
      · rename_i heq
        rw [← heq]
        exact le_of_lt hlt
      · exact hF k hk
  · intro x w hw
    simp only [map_find_erase, map_find_assign] at hw
    split at hw
    · exact absurd hw (by simp)
    · split at hw
      · rename_i heq
        have h1 := congrArg Prod.fst heq
        have h2 := congrArg Prod.snd heq
        simp only at h1 h2
        rw [← h1] at h2
        exact absurd h2.symm (ne_of_lt hlt)
      · exact hL x w hw
  · intro z hz hfz
    obtain ⟨x, hxz, hxm⟩ := hG z hz hfz
    by_cases hkey : (shared_parent g b c, c) = (x, z)
    · have hzc : z = c := (congrArg Prod.snd hkey).symm
      refine ⟨b, by rw [hzc]; exact hlt, ?_⟩
      rw [hzc]
      simp only [map_find_erase, map_find_assign]
      have : ¬ (shared_parent g b c, c) = (b, c) := fun heq => ha0b (congrArg Prod.fst heq)
      simp [this]
    · refine ⟨x, hxz, ?_⟩
      simp only [map_find_erase, map_find_assign, hkey, if_false]
      split
      · rfl
      · exact hxm

/-- A pass of `optimize` keeps the shape of the network. -/
theorem network_shape_pass (first last : indx_t) (fuel : Nat) (g g1 : Graph)
    (h : network_shape first last g) (hs : scan_pass fuel g = some g1) :
    network_shape first last g1 := by
  unfold scan_pass at hs
  split at hs
  · exact absurd hs (by simp)
  · exact scan_induct fuel (network_shape first last)
      (fun g p _ b c g2 hg hp _ hb hc hbc hr =>
        network_shape_elim first last fuel g p b c g2 hg hp hb hc hbc hr)
      (fun g p b c hg _ hb hc hbc ha0 => network_shape_rewrite first last g p b c _ hg hb hc hbc ha0)
      _ 1 g g1 (le_refl 1) h hs


/-- The second loop of `assign_nodes_by_works` removes no arc. -/
theorem overlay_keeps (before rest : List work_t) (g : Graph) (k : link_t)
    (h : (map_find g.edges k).isSome = true) :
    (map_find (overlay before rest g).edges k).isSome = true := by
  induction rest generalizing before g with
  | nil => exact h
  | cons w rest ih =>
    apply ih
    simp only [map_find_assign]
    split
    · rfl
    · exact h

/-- The network built by `assign_nodes_by_works` on an empty graph has an arc from every
event to the next one. -/
theorem assign_chain_arc (works : List work_t) (start : indx_t) (j : Nat)
    (hj : j < works.length) :
    (map_find (assign_nodes_by_works ⟨[], []⟩ works start).edges
      ((assign_nodes_by_works ⟨[], []⟩ works start).nodes.getD j DefaultIndex,
        (assign_nodes_by_works ⟨[], []⟩ works start).nodes.getD (j + 1) DefaultIndex)).isSome
      = true := by
  rw [assign_nodes]
  unfold assign_nodes_by_works
  apply overlay_keeps
  rw [← mem_keys_iff, ← List.mem_toFinset,
    (chain_keys works.length start _ (by simp [keys_sorted])).2]
  simp only [List.map_nil, List.toFinset_nil, Finset.empty_union, List.mem_toFinset,
    List.mem_map, List.mem_iterate]
  refine ⟨NextIndex^[j] start, ⟨j, hj, rfl⟩, ?_⟩
  rw [List.getD_eq_getElem _ _ (by rw [List.length_iterate]; omega),
    List.getD_eq_getElem _ _ (by rw [List.length_iterate]; omega),
    List.getElem_iterate, List.getElem_iterate, Function.iterate_succ_apply']

/-- The network built from at least one task with ascending event ids has the shape the
passes of `optimize` keep. -/
theorem network_shape_assign (works : List work_t) (start : indx_t) (hne : works ≠ [])
    (hinc : (assign_nodes_by_works ⟨[], []⟩ works start).nodes.Pairwise (fun x y => x < y)) :
    ∃ first last, network_shape first last (assign_nodes_by_works ⟨[], []⟩ works start) := by
  have hlen : (assign_nodes_by_works ⟨[], []⟩ works start).nodes.length = works.length + 1 := by
    rw [assign_nodes, List.length_iterate]
  have hpos : 0 < works.length := List.length_pos.mpr hne
  obtain ⟨first, hfirst⟩ : ∃ first,
      (assign_nodes_by_works ⟨[], []⟩ works start).nodes.head? = some first := by
    cases hn : (assign_nodes_by_works ⟨[], []⟩ works start).nodes with
    | nil => rw [hn] at hlen; simp at hlen
    | cons a t => exact ⟨a, rfl⟩
  obtain ⟨last, hlast⟩ : ∃ last,
      (assign_nodes_by_works ⟨[], []⟩ works start).nodes.getLast? = some last := by
    rw [List.getLast?_eq_getElem?]
    exact ⟨_, List.getElem?_eq_getElem (by omega)⟩
  have hform : ∀ k : link_t,
      (map_find (assign_nodes_by_works ⟨[], []⟩ works start).edges k).isSome = true →
      k.1 < k.2 := by
    intro k hk
    obtain ⟨i, j, hij, hj, hkf⟩ := assign_key_form works start k hk
    rw [hkf, List.getD_eq_getElem _ _ (by omega), List.getD_eq_getElem _ _ hj]
    exact List.pairwise_iff_getElem.mp hinc i j (by omega) hj hij
  refine ⟨first, last, arcs_within_events_assign works start hinc, ?_, ?_, ?_, hfirst, hlast,
    by omega⟩
  · intro k hk
    exact le_of_lt (hform k hk)
  · intro x v hv
    have := hform (x, x) (by rw [hv]; rfl)
    exact absurd this (lt_irrefl _)
  · intro v hv hfv
    obtain ⟨j, hj⟩ := List.getElem?_of_mem hv
    obtain ⟨hj1, hj2⟩ := List.getElem?_eq_some.mp hj
    have hj0 : j ≠ 0 := by
      intro h0
      rw [h0, ← List.head?_eq_getElem?, hfirst] at hj
      rw [Option.some.inj hj] at hfv
      exact lt_irrefl _ hfv
    obtain ⟨j1, rfl⟩ : ∃ j1, j = j1 + 1 := ⟨j - 1, by omega⟩
    have harc := assign_chain_arc works start j1 (by omega)
    rw [List.getD_eq_getElem _ _ (by omega), List.getD_eq_getElem _ _ hj1, hj2] at harc
    refine ⟨_, ?_, harc⟩
    have := List.pairwise_iff_getElem.mp hinc j1 (j1 + 1) (by omega) hj1 (by omega)
    rw [hj2] at this
    exact this

/-- The first cleanup loop keeps the first and the last event of a network with the shape
the passes keep. -/
theorem cleanup_keeps_ends (first last : indx_t) (g : Graph) (h : network_shape first last g) :
    (cleanup g).nodes.head? = some first ∧ (cleanup g).nodes.getLast? = some last := by
  obtain ⟨⟨h1, _, h3⟩, _, _, hG, hhead, hlast, hlen⟩ := h
  have hfirst0 : g.nodes[0]? = some first := by rw [← List.head?_eq_getElem?]; exact hhead
  have hkey_mem : ∀ k : link_t, (map_find g.edges k).isSome = true →
      ∃ e ∈ g.edges, e.1 = k := by
    intro k hk
    rw [← mem_keys_iff] at hk
    exact List.mem_map.mp hk
  constructor
  · have hparent : is_parent_node g first = true := by
      obtain ⟨v, hv⟩ : ∃ v, g.nodes[1]? = some v := ⟨_, List.getElem?_eq_getElem (by omega)⟩
      have hfv : first < v := pairwise_consecutive g.nodes h1 0 1 first v (by omega) hfirst0 hv
      obtain ⟨x, hxv, hxm⟩ := hG v (List.getElem?_mem hv) hfv
      have hxl := (h3 (x, v) hxm).1
      obtain ⟨i, hi⟩ := List.getElem?_of_mem hxl
      have hx : x = first := by
        by_cases hi0 : i = 0
        · rw [hi0, hfirst0] at hi
          exact (Option.some.inj hi).symm
        · by_cases hi1 : i = 1
          · rw [hi1, hv] at hi
            rw [Option.some.inj hi] at hxv
            exact absurd hxv (lt_irrefl _)
          · have := pairwise_consecutive g.nodes h1 1 i v x (by omega) hv hi
            exact absurd hxv (not_lt.mpr (le_of_lt this))
      rw [hx] at hxm
      obtain ⟨e, he, hek⟩ := hkey_mem (first, v) hxm
      simp only [is_parent_node, List.any_eq_true, decide_eq_true_eq]
      exact ⟨e, he, by rw [hek]⟩
    cases hn : g.nodes with
    | nil => rw [hn] at hlen; simp at hlen
    | cons a t =>
      rw [hn] at hhead
      simp only [List.head?_cons, Option.some.injEq] at hhead
      subst hhead
      simp [cleanup, hn, List.filter_cons, hparent]
  · have hchild : is_child_node g last = true := by
      rw [List.getLast?_eq_getElem?] at hlast
      have hfl : first < last :=
        pairwise_consecutive g.nodes h1 0 (g.nodes.length - 1) first last (by omega) hfirst0 hlast
      obtain ⟨x, _, hxm⟩ := hG last (List.getElem?_mem hlast) hfl
      obtain ⟨e, he, hek⟩ := hkey_mem (x, last) hxm
      simp only [is_child_node, List.any_eq_true, decide_eq_true_eq]
      exact ⟨e, he, by rw [hek]⟩
    obtain ⟨ys, hys⟩ := List.getLast?_eq_some_iff.mp hlast
    simp only [cleanup, hys, List.filter_append, List.filter_cons, hchild, Bool.not_true,
      Bool.false_and, Bool.not_false, if_true, List.filter_nil]
    exact List.getLast?_concat _

/-- C20: for a network built by `assign_nodes_by_works` from at least one task with strictly
ascending (hence pairwise distinct) event ids, when `optimize` returns, the first and the
last event of the event list are the ones they were before. -/
theorem C20_first_and_last_event_kept (works : List work_t) (start : indx_t) (fuel : Nat)
    (g1 : Graph) (hne : works ≠ [])
    (hinc : (assign_nodes_by_works ⟨[], []⟩ works start).nodes.Pairwise (fun x y => x < y))
    (h : optimize fuel (assign_nodes_by_works ⟨[], []⟩ works start) = some g1) :
    g1.nodes.head? = (assign_nodes_by_works ⟨[], []⟩ works start).nodes.head? ∧
    g1.nodes.getLast? = (assign_nodes_by_works ⟨[], []⟩ works start).nodes.getLast? := by
  obtain ⟨first, last, hshape⟩ := network_shape_assign works start hne hinc
  unfold optimize at h
  cases hl : optimize_loop fuel fuel (assign_nodes_by_works ⟨[], []⟩ works start) with
  | none => simp [hl] at h
  | some g2 =>
    simp only [hl, Option.map_some', Option.some.injEq] at h
    subst h
    have hinv := optimize_loop_induct fuel (network_shape first last)
      (fun g g1 hg hs => network_shape_pass first last fuel g g1 hg hs) fuel _ g2 hshape hl
    obtain ⟨c1, c2⟩ := cleanup_keeps_ends first last g2 hinv
    rw [c1, c2, hshape.2.2.2.2.1, hshape.2.2.2.2.2.1]
    exact ⟨rfl, rfl⟩

set_option maxRecDepth 100000 in
/-- C20 at the canonical network: `optimize` returns the events `A, B, D, E, G, I`, whose
ends `'A'` and `'I'` are those of `A, ..., I`. -/
theorem C20_first_and_last_event_kept_witness :
    (main_works ≠ [] ∧
      (assign_nodes_by_works ⟨[], []⟩ main_works 65).nodes.Pairwise (fun x y => x < y) ∧
      optimize 20 (assign_nodes_by_works ⟨[], []⟩ main_works 65) = some main_optimized) ∧
    (main_optimized.nodes.head? =
        (assign_nodes_by_works ⟨[], []⟩ main_works 65).nodes.head? ∧
      main_optimized.nodes.getLast? =
        (assign_nodes_by_works ⟨[], []⟩ main_works 65).nodes.getLast?) :=
  ⟨⟨by decide, by decide, by decide⟩,
    C20_first_and_last_event_kept main_works 65 20 main_optimized (by decide) (by decide)
      (by decide)⟩


end NetGraph
